import Mathlib

/-!
Verification of the `alpacadecimal` fixed-point decimal library.

The Go source represents a decimal as either a "fast" value (an `int64`
`fixed`, denoting `fixed / 10^12`) or a "fallback" handle to an
arbitrary-precision `decimal.Decimal`.  This file gives a shallow embedding
of the package's data model and of the operations the claims are about:
the overflow-checked multiply kernel `mul`, the verified divide kernel
`div`, the text parser `parseFixed`, the buffer formatter `Decimal.String`,
the dispatch-layer arithmetic, and the nullable wrapper.

Machine integers are embedded as `Int` with explicit two's-complement
wrapping (`wrap64`) applied wherever the Go code performs `int64`
arithmetic that may overflow, and with truncated-toward-zero division
(`tdivP`/`tmodP`) for Go's `/` and `%`.  All divisors appearing in the
source are positive constants, for which truncated division coincides with
the sign-split floor form used below.
-/

set_option maxRecDepth 8000

namespace Alpaca

/-- Two's-complement wrap of an integer into the `int64` range
`[-2^63, 2^63)`, the semantics of Go `int64` overflow. -/
def wrap64 (n : Int) : Int := (n + 2 ^ 63) % 2 ^ 64 - 2 ^ 63

/-- Go `int64` addition. -/
def add64 (a b : Int) : Int := wrap64 (a + b)

/-- Go `int64` subtraction. -/
def sub64 (a b : Int) : Int := wrap64 (a - b)

/-- Go `int64` multiplication. -/
def mul64 (a b : Int) : Int := wrap64 (a * b)

/-- Go `int64` negation (note `wrap64` sends the most negative value to
itself, exactly as Go's `-x` does). -/
def neg64 (a : Int) : Int := wrap64 (-a)

/-- Go integer division truncates toward zero.  Every divisor in the
translated source is a positive constant, and for a positive divisor
truncation toward zero is floor division on the absolute value with the
sign reapplied. -/
def tdivP (a b : Int) : Int := if 0 ≤ a then a / b else -(-a / b)

/-- Go integer remainder, the counterpart of `tdivP`: it satisfies
`a = tdivP a b * b + tmodP a b` and takes the sign of the dividend. -/
def tmodP (a b : Int) : Int := if 0 ≤ a then a % b else -(-a % b)

/-! ## Constants from the source -/

/-- The fixed number of fractional decimal digits of the fast form. -/
def precision : Int := 12

/-- Scale `10^12` converting a decimal value to its fast encoding. -/
def scale : Int := 1000000000000

/-- Largest integer whose scaled form fits `int64`:
`int64(math.MaxInt64) / scale` (truncated division). -/
def maxInt : Int := 9223372

/-- Smallest integer whose scaled form fits `int64`:
`int64(math.MinInt64) / scale` (Go division truncates toward zero). -/
def minInt : Int := -9223372

/-- Upper bound of the fast range, `maxInt * scale`. -/
def maxIntInFixed : Int := maxInt * scale

/-- Lower bound of the fast range, `minInt * scale`. -/
def minIntInFixed : Int := minInt * scale

/-- Cache upper bound `1000 * scale`. -/
def a1000InFixed : Int := 1000 * scale

/-- Cache lower bound `-1000 * scale`. -/
def aNeg1000InFixed : Int := -1000 * scale

/-- One cent in fixed form, `scale / 100`. -/
def aCentInFixed : Int := 10000000000

/-- The 19-entry power-of-ten table `pow10Table` of the source. -/
def pow10Table : List Int :=
  [1, 10, 100, 1000, 10000,
   100000, 1000000, 10000000, 100000000, 1000000000,
   10000000000, 100000000000, 1000000000000, 10000000000000, 100000000000000,
   1000000000000000, 10000000000000000, 100000000000000000, 1000000000000000000]

/-- Indexing into `pow10Table`; `none` models the runtime panic Go raises
for an index outside `[0, 19)`. -/
def pow10At (i : Int) : Option Int :=
  if 0 ≤ i then pow10Table[i.toNat]? else none

/-! ## The fast multiply kernel `mul` -/

/-- The `fractional × fractional` step of `mul`: the two fractional parts
are split into 6-digit halves; a nonzero remainder in the cross terms
means the product needs more than 12 fractional digits and is reported as
failure (`none`).  Returns the contribution `x_fractional * y_fractional / scale`. -/
def mulFracFrac (xf yf : Int) : Option Int :=
  let xa := tdivP xf 1000000
  let xb := tmodP xf 1000000
  let ya := tdivP yf 1000000
  let yb := tmodP yf 1000000
  let s := mul64 xa ya
  if xb ≠ 0 ∨ yb ≠ 0 then
    let p1 := add64 (mul64 xa yb) (mul64 xb ya)
    let p2 := mul64 xb yb
    if tmodP p1 1000000 ≠ 0 ∨ tmodP p2 scale ≠ 0 then none
    else some (add64 s (add64 (tdivP p1 1000000) (tdivP p2 scale)))
  else some s

/-- The source's checked-accumulation pattern
`if result <= maxIntInFixed-p { result += p } else { return 0, false }`;
`none` is the early failure return. -/
def checkedAdd (r p : Int) : Option Int :=
  if r ≤ sub64 maxIntInFixed p then some (add64 r p) else none

/-- The four accumulation blocks of the `mul` kernel, run after the sign of
both operands has been stripped.  The Go code's early `return 0, false` is
embedded as `Option.bind` chaining with `none` for failure. -/
def mulAbs (x1 y1 : Int) : Option Int :=
  let x_int := tdivP x1 scale
  let x_fractional := tmodP x1 scale
  let y_int := tdivP y1 scale
  let y_fractional := tmodP y1 scale
  -- integer × integer
  (if x_int ≠ 0 ∧ y_int ≠ 0 then
    let z := mul64 x_int y_int
    if z > maxInt then none else some (mul64 z scale)
  else some 0).bind fun r1 =>
  -- fractional × fractional
  (if x_fractional ≠ 0 ∧ y_fractional ≠ 0 then
    (mulFracFrac x_fractional y_fractional).bind fun s => checkedAdd r1 s
  else some r1).bind fun r2 =>
  -- integer × fractional
  (if x_int ≠ 0 ∧ y_fractional ≠ 0 then checkedAdd r2 (mul64 x_int y_fractional)
  else some r2).bind fun r3 =>
  -- fractional × integer
  (if x_fractional ≠ 0 ∧ y_int ≠ 0 then checkedAdd r3 (mul64 x_fractional y_int)
  else some r3)

/-- The source's fast multiply kernel `mul(x, y) (int64, bool)`:
zero short-circuit, absolute values with the `negative` sign flag
(`negative` toggles once per negative operand, so it is the xor of the two
sign tests), the four accumulation blocks, then the sign reapplied;
`(0, false)` marks the overflow / too-many-digits fallback. -/
def mul (x y : Int) : Int × Bool :=
  if x = 0 ∨ y = 0 then (0, true)
  else
    match mulAbs (if x < 0 then neg64 x else x) (if y < 0 then neg64 y else y) with
    | none => (0, false)
    | some r4 => (if xor (decide (x < 0)) (decide (y < 0)) then neg64 r4 else r4, true)

/-- The source's fast divide kernel `div(x, y) (int64, bool)`.

The Go code computes `z := int64(float64(x) / float64(y) * scale)` — a
floating-point approximation of the scaled quotient.  Floating point has no
shallow embedding here, so the approximate candidate is taken as the extra
argument `z`; every theorem below either holds for all possible candidates
or instantiates `z` with the value the `float64` computation produces.
The kernel then verifies exactness by multiplying the candidate back with
the `mul` kernel, so its correctness is independent of `z`. -/
def div (x y z : Int) : Int × Bool :=
  if x = 0 then (0, decide (y ≠ 0))
  else
    match mul y z with
    | (xx, true) => if x = xx then (z, true) else (0, false)
    | (_, false) => (0, false)


/-! ## The fallback engine model and the `Decimal` type

The fallback engine is the external `shopspring/decimal` library, consumed
as a black box (an arbitrary-precision coefficient with an exponent).  Its
code is not part of this repository, so its operations are modelled from
the spec where the claims need them.
-/

/-- Modelled from the spec: the external arbitrary-precision decimal value
(`decimal.Decimal` of the fallback engine), an exact integer coefficient
(`big.Int`, unbounded) together with an `int32` exponent; the denoted
number is `value * 10^exp`. -/
structure SDec where
  value : Int
  exp : Int
deriving DecidableEq, Repr

/-- Modelled from the spec: rounded division `n / d` for `d ≠ 0`, rounding
half away from zero, used to model the fallback engine's rounding. -/
def roundHalfAway (n d : Int) : Int :=
  if 0 ≤ n then (2 * n + d) / (2 * d) else -((2 * -n + d) / (2 * d))

/-- Modelled from the spec: exact addition in the fallback engine
(operands rescaled to the smaller exponent, coefficients added). -/
def SDec.add (a b : SDec) : SDec :=
  if a.exp ≤ b.exp then ⟨a.value + b.value * 10 ^ (b.exp - a.exp).toNat, a.exp⟩
  else ⟨a.value * 10 ^ (a.exp - b.exp).toNat + b.value, b.exp⟩

/-- Modelled from the spec: exact negation in the fallback engine. -/
def SDec.neg (a : SDec) : SDec := ⟨-a.value, a.exp⟩

/-- Modelled from the spec: exact absolute value in the fallback engine. -/
def SDec.abs (a : SDec) : SDec := ⟨|a.value|, a.exp⟩

/-- Modelled from the spec: exact multiplication in the fallback engine. -/
def SDec.mul (a b : SDec) : SDec := ⟨a.value * b.value, a.exp + b.exp⟩

/-- Modelled from the spec: the fallback engine's `DivRound`, division
rounded to `prec` fractional digits.  Division by zero faults in the
fallback engine (`none`). -/
def SDec.divRound (a b : SDec) (prec : Int) : Option SDec :=
  if b.value = 0 then none
  else some ⟨roundHalfAway (a.value * 10 ^ (a.exp - b.exp + prec).toNat) b.value, -prec⟩

/-- Modelled from the spec: the fallback engine's `Round places`
(round half away from zero at `10^(-places)`). -/
def SDec.round (a : SDec) (places : Int) : SDec :=
  if -places ≤ a.exp then a
  else ⟨roundHalfAway a.value (10 ^ (-places - a.exp).toNat), -places⟩

/-- Modelled from the spec: the fallback engine's `Ceil`. -/
def SDec.ceil (a : SDec) : SDec :=
  if 0 ≤ a.exp then a else ⟨-(-a.value / 10 ^ (-a.exp).toNat), 0⟩

/-- Modelled from the spec: the fallback engine's `Floor`. -/
def SDec.floor (a : SDec) : SDec :=
  if 0 ≤ a.exp then a else ⟨a.value / 10 ^ (-a.exp).toNat, 0⟩

/-- Modelled from the spec: the fallback engine's `Truncate places`
(digits beyond the place discarded toward zero). -/
def SDec.truncate (a : SDec) (places : Int) : SDec :=
  if -places ≤ a.exp then a
  else ⟨tdivP a.value (10 ^ (-places - a.exp).toNat), -places⟩

/-- The central dual-representation type: a fast fixed-point `int64`
`fixed` (the value times `10^12`) plus an optional fallback handle; a
present handle means the fast field is ignored. -/
structure Decimal where
  fixed : Int
  fallback : Option SDec
deriving DecidableEq, Repr

/-- The constant `Zero`. -/
def Zero : Decimal := ⟨0, none⟩

/-- The internal constructor `newFromDecimal`: wrap a fallback value. -/
def newFromDecimal (sd : SDec) : Decimal := ⟨0, some sd⟩

/-- The lossless conversion `asFallback`: a fast value becomes
`decimal.New(d.fixed, -precision)`. -/
def Decimal.asFallback (d : Decimal) : SDec :=
  match d.fallback with
  | none => ⟨d.fixed, -precision⟩
  | some f => f

/-- The fallback division precision (`decimal.DivisionPrecision`), whose
default in the reference library is 16 digits, as the spec records. -/
def DivisionPrecision : Int := 16

/-- The source's `tryOptNew(value, exp)`: builds the fast form
`value * 10^(precision+exp)` when the exponent is in `[-12, 6]` and the
range guards pass.  Table indices here are always within the table, so the
`getD 0` default is never taken. -/
def tryOptNew (value exp : Int) : Decimal × Bool :=
  if exp ≥ -12 then
    if exp ≤ 0 then
      if value ≥ minInt * (pow10At (-exp)).getD 0 ∧
          value ≤ maxInt * (pow10At (-exp)).getD 0 then
        (⟨mul64 value ((pow10At (precision + exp)).getD 0), none⟩, true)
      else (⟨0, none⟩, false)
    else if exp ≤ 6 then
      if value ≥ tdivP minInt ((pow10At exp).getD 0) ∧
          value ≤ tdivP maxInt ((pow10At exp).getD 0) then
        (⟨mul64 value ((pow10At (precision + exp)).getD 0), none⟩, true)
      else (⟨0, none⟩, false)
    else (⟨0, none⟩, false)
  else (⟨0, none⟩, false)

/-- The source's `New(value, exp)`: the fast attempt, else the fallback
`decimal.New(value, exp)`. -/
def New (value exp : Int) : Decimal :=
  let r := tryOptNew value exp
  if r.2 then r.1 else newFromDecimal ⟨value, exp⟩

/-- The source's `NewFromInt`. -/
def NewFromInt (x : Int) : Decimal :=
  if x ≥ minInt ∧ x ≤ maxInt then ⟨mul64 x scale, none⟩
  else newFromDecimal ⟨x, 0⟩

/-- The source's `NewFromDecimal(d decimal.Decimal)`: narrows a fallback
value into fast form when its coefficient fits an `int64` and `tryOptNew`
accepts the coefficient/exponent pair. -/
def NewFromDecimal (sd : SDec) : Decimal :=
  if -(2 ^ 63) ≤ sd.value ∧ sd.value < 2 ^ 63 then
    let r := tryOptNew sd.value sd.exp
    if r.2 then r.1 else newFromDecimal sd
  else newFromDecimal sd

/-! ## Dispatch-layer arithmetic -/

/-- The source's `Decimal.Add`: overflow-checked fast addition when both
operands are fast, else (or on potential overflow) delegation. -/
def Decimal.Add (d d2 : Decimal) : Decimal :=
  if d.fallback = none ∧ d2.fallback = none then
    if d2.fixed > 0 then
      if d.fixed ≤ sub64 maxIntInFixed d2.fixed then ⟨add64 d.fixed d2.fixed, none⟩
      else newFromDecimal (SDec.add d.asFallback d2.asFallback)
    else
      if d.fixed ≥ sub64 minIntInFixed d2.fixed then ⟨add64 d.fixed d2.fixed, none⟩
      else newFromDecimal (SDec.add d.asFallback d2.asFallback)
  else newFromDecimal (SDec.add d.asFallback d2.asFallback)

/-- The source's `Decimal.Neg`. -/
def Decimal.Neg (d : Decimal) : Decimal :=
  match d.fallback with
  | none => ⟨neg64 d.fixed, none⟩
  | some f => newFromDecimal (SDec.neg f)

/-- The source's `Decimal.Sub`, defined as `d.Add(d2.Neg())`. -/
def Decimal.Sub (d d2 : Decimal) : Decimal := d.Add d2.Neg

/-- The source's `Decimal.Abs`. -/
def Decimal.Abs (d : Decimal) : Decimal :=
  match d.fallback with
  | none => if 0 ≤ d.fixed then d else ⟨neg64 d.fixed, none⟩
  | some f => newFromDecimal (SDec.abs f)

/-- The source's `Decimal.Mul`: the fast kernel when both operands are
fast and it reports success, else delegation. -/
def Decimal.Mul (d d2 : Decimal) : Decimal :=
  if d.fallback = none ∧ d2.fallback = none ∧ (mul d.fixed d2.fixed).2 = true then
    ⟨(mul d.fixed d2.fixed).1, none⟩
  else newFromDecimal (SDec.mul d.asFallback d2.asFallback)

/-- The source's `Decimal.DivRound`: always delegated; `none` models the
fallback engine's division-by-zero fault. -/
def Decimal.DivRound (d d2 : Decimal) (prec : Int) : Option Decimal :=
  (SDec.divRound d.asFallback d2.asFallback prec).map newFromDecimal

/-- The source's `Decimal.Div`: the fast kernel when both operands are
fast and it verifies the candidate, else `DivRound` with the configured
`DivisionPrecision`.  The argument `z` is the floating-point scaled
quotient candidate, as in `div`. -/
def Decimal.Div (d d2 : Decimal) (z : Int) : Option Decimal :=
  if d.fallback = none ∧ d2.fallback = none ∧ (div d.fixed d2.fixed z).2 = true then
    some ⟨(div d.fixed d2.fixed z).1, none⟩
  else Decimal.DivRound d d2 DivisionPrecision

/-- The rounding arithmetic of the fast path of `Decimal.Round`:
`m := d.fixed % s`, round half away from zero. -/
def roundFast (fixed s : Int) : Decimal :=
  if tmodP fixed s = 0 then ⟨fixed, none⟩
  else if tmodP fixed s > 0 then
    if tmodP fixed s * 2 ≥ s then ⟨add64 (sub64 fixed (tmodP fixed s)) s, none⟩
    else ⟨sub64 fixed (tmodP fixed s), none⟩
  else
    if -tmodP fixed s * 2 ≥ s then ⟨sub64 (sub64 fixed (tmodP fixed s)) s, none⟩
    else ⟨sub64 fixed (tmodP fixed s), none⟩

/-- The source's `Decimal.Round` for `places`: fast paths for
`places ≥ precision` (unchanged) and `0 ≤ places < precision`
(round half away from zero at the table power), else delegation.
The table index `precision - places` lies in `[1, 12]` on the fast path,
so the `getD 0` default is never taken. -/
def Decimal.Round (d : Decimal) (places : Int) : Decimal :=
  if d.fallback = none then
    if places ≥ precision then d
    else if places ≥ 0 then
      roundFast d.fixed ((pow10At (precision - places)).getD 0)
    else newFromDecimal (SDec.round d.asFallback places)
  else newFromDecimal (SDec.round d.asFallback places)

/-- The source's `Decimal.Ceil`. -/
def Decimal.Ceil (d : Decimal) : Decimal :=
  if d.fallback = none then
    if tmodP d.fixed scale = 0 then ⟨d.fixed, none⟩
    else if tmodP d.fixed scale > 0 then
      ⟨add64 (sub64 d.fixed (tmodP d.fixed scale)) scale, none⟩
    else ⟨sub64 d.fixed (tmodP d.fixed scale), none⟩
  else newFromDecimal (SDec.ceil d.asFallback)

/-- The source's `Decimal.Floor`. -/
def Decimal.Floor (d : Decimal) : Decimal :=
  if d.fallback = none then
    if tmodP d.fixed scale = 0 then ⟨d.fixed, none⟩
    else if tmodP d.fixed scale > 0 then ⟨sub64 d.fixed (tmodP d.fixed scale), none⟩
    else ⟨sub64 (sub64 d.fixed (tmodP d.fixed scale)) scale, none⟩
  else newFromDecimal (SDec.floor d.asFallback)

/-- The source's `Decimal.Truncate(precision int32)`: on the fast path it
indexes `pow10Table[12 - precision]` with no bounds check; `none` models
the runtime panic Go raises when the index is outside the 19-entry table. -/
def Decimal.Truncate (d : Decimal) (p : Int) : Option Decimal :=
  if d.fallback = none then
    match pow10At (12 - p) with
    | none => none
    | some s => some ⟨mul64 (tdivP d.fixed s) s, none⟩
  else some (newFromDecimal (SDec.truncate d.asFallback p))


/-! ## The parser `parseFixed` -/

/-- Quote stripping of `parseFixed`: remove one layer of surrounding
double quotes when the length exceeds 2. -/
def stripQuotes (v : List Char) : List Char :=
  if v.length > 2 ∧ v.head? = some '"' ∧ v.getLast? = some '"' then (v.drop 1).dropLast
  else v

/-- Trailing-zero stripping of `parseFixed`: when the last character is
`'0'` (and the string is longer than 1) the Go code scans for a decimal
point and, if one occurs anywhere, drops every trailing `'0'`. -/
def stripTrailingZeros (v : List Char) : List Char :=
  if v.length > 1 ∧ v.getLast? = some '0' ∧ v.contains '.' then
    (v.reverse.dropWhile (fun c => c = '0')).reverse
  else v

/-- Trailing-dot stripping of `parseFixed`. -/
def stripTrailingDot (v : List Char) : List Char :=
  if v.length > 1 ∧ v.getLast? = some '.' then v.dropLast else v

/-- The fractional-digit loop of `parseFixed`: accumulate digits of the
suffix after the decimal point, failing on any non-digit. -/
def fracLoop (s : List Char) (fixed : Int) : Option Int :=
  match s with
  | [] => some fixed
  | c :: rest =>
    if '0' ≤ c ∧ c ≤ '9' then
      fracLoop rest (add64 (mul64 fixed 10) ((c.toNat : Int) - 48))
    else none

/-- The main digit loop of `parseFixed`: accumulate integer digits,
rejecting once the accumulator reaches `maxInt`; on a decimal point,
process at most 12 fractional digits and left-pad by the table power
`pow10Table[12-len(s)]` (the index is in `[0, 12]`, so the `getD 0`
default is never taken); any other character rejects. -/
def intLoop (v : List Char) (fixed : Int) : Option Int :=
  match v with
  | [] => some (mul64 fixed scale)
  | c :: rest =>
    if '0' ≤ c ∧ c ≤ '9' then
      let f2 := add64 (mul64 fixed 10) ((c.toNat : Int) - 48)
      if f2 ≥ maxInt then none
      else intLoop rest f2
    else if c = '.' then
      if (rest.length : Int) > 12 then none
      else (fracLoop rest fixed).map fun f => mul64 f ((pow10At (12 - rest.length)).getD 0)
    else none

/-- The tail of `parseFixed` after the sign has been handled: the length
check and the digit loop, with the sign applied to the result. -/
def parseCore (v : List Char) (negative : Bool) : Int × Bool :=
  if v.length = 0 then (0, false)
  else
    match intLoop v 0 with
    | none => (0, false)
    | some f => (if negative then neg64 f else f, true)

/-- The sign handling of `parseFixed`: a leading `'+'` or `'-'` is
consumed only when the length exceeds 1 (Go's `if len(v) > 1` switch). -/
def parseSigned (v : List Char) : Int × Bool :=
  match v with
  | c :: c2 :: rest =>
    if c = '+' then parseCore (c2 :: rest) false
    else if c = '-' then parseCore (c2 :: rest) true
    else parseCore (c :: c2 :: rest) false
  | _ => parseCore v false

/-- The source's `parseFixed` over a character sequence (`string` or
`[]byte` in Go): quote stripping, the 21-character length bound,
normalization of trailing zeros and a trailing dot, then sign and digits.
`(0, false)` routes the caller to the arbitrary-precision fallback. -/
def parseFixed (v : List Char) : Int × Bool :=
  if (stripQuotes v).length > 21 then (0, false)
  else parseSigned (stripTrailingDot (stripTrailingZeros (stripQuotes v)))


/-! ## String construction and the delegated parser -/

/-- Decidable digit test. -/
def isDigitB (c : Char) : Bool := decide ('0' ≤ c ∧ c ≤ '9')

/-- Numeric value of a digit string (most significant first). -/
def digitsVal (l : List Char) : Int :=
  l.foldl (fun a c => a * 10 + ((c.toNat : Int) - 48)) 0

/-- Modelled from the spec: the delegated arbitrary-precision parser
(`decimal.NewFromString` of the fallback engine, not part of this
repository).  It accepts an optionally signed digit string with at most
one decimal point and at least one digit, and errors (`none`) otherwise. -/
def specFallbackParse (v : List Char) : Option SDec :=
  let neg : Bool := v.head? = some '-'
  let core := if v.head? = some '+' ∨ v.head? = some '-' then v.drop 1 else v
  if core.contains '.' then
    let ip := core.takeWhile (fun c => c ≠ '.')
    let fp := (core.dropWhile (fun c => c ≠ '.')).drop 1
    if fp.contains '.' ∨ ¬ ip.all isDigitB ∨ ¬ fp.all isDigitB ∨ ip.length + fp.length = 0 then
      none
    else some ⟨(if neg then -1 else 1) * digitsVal (ip ++ fp), -(fp.length : Int)⟩
  else
    if core.all isDigitB ∧ core.length > 0 then
      some ⟨(if neg then -1 else 1) * digitsVal core, 0⟩
    else none

/-- The source's `NewFromString`: the fast parser first, then the
delegated parser; a delegated parse failure is the format error returned
to the caller (the Go code returns the pair `(Zero, err)`). -/
def NewFromString (v : List Char) : Except Unit Decimal :=
  if (parseFixed v).2 then Except.ok ⟨(parseFixed v).1, none⟩
  else
    match specFallbackParse v with
    | some sd => Except.ok (newFromDecimal sd)
    | none => Except.error ()


/-! ## The formatter `Decimal.String`

The Go formatter writes into a fixed 21-byte buffer, filling the integer
digits right-to-left ending at position 7, a dot at position 8, the
fractional digits at positions 9–20 with trailing zeros skipped, and the
sign last, then returns the slice `s[start:end]`.  The buffer is embedded
as a function `Int → Char`; the loops, whose iteration counts are bounded
by the positions they traverse, take that bound as a structural `Nat`
argument so that the definitions stay kernel-computable: the scan index
`i` of the Go code is `8 + k` here, and the integer-digit loop runs on 21
units of fuel, enough for any `uint64` (at most 20 digits — the
characterization lemmas below never exhaust it). -/

/-- Byte `n + '0'` of the formatter. -/
def digitChar (n : Int) : Char := Char.ofNat (n.toNat + 48)

/-- A single buffer store `s[i] = c`. -/
def bufWrite (buf : Int → Char) (i : Int) (c : Char) : Int → Char :=
  fun j => if j = i then c else buf j

/-- The all-zero initial buffer (`var s [21]byte`). -/
def bufInit : Int → Char := fun _ => Char.ofNat 0

/-- The integer-part loop of `String`: while `ip >= 10` write the last
digit at `start` and move left, then write the leading digit. -/
def intDigitLoopN (buf : Int → Char) (start ip : Int) : Nat → (Int → Char) × Int
  | 0 => (buf, start)
  | fuel + 1 =>
    if ip ≥ 10 then
      intDigitLoopN (bufWrite buf start (digitChar (tmodP ip 10))) (start - 1) (tdivP ip 10) fuel
    else (bufWrite buf start (digitChar ip), start)

/-- The inner fractional loop of `String`
(`for j := i-1; j > 8; j--`, with `j = 8 + k`): write the remaining
fractional digits leftwards down to position 9. -/
def fracWriteLoopN (buf : Int → Char) (fp : Int) : Nat → (Int → Char)
  | 0 => buf
  | k + 1 =>
    fracWriteLoopN (bufWrite buf (9 + (k : Int)) (digitChar (tmodP fp 10))) (tdivP fp 10) k

/-- The outer fractional loop of `String`
(`for i := 20; i > 8; i--`, with `i = 8 + k`): skip trailing zero digits;
at the first nonzero digit write it, fill the rest leftwards, and return
the new `end = i + 1`; if every digit is zero `end` stays 8. -/
def fracScanLoopN (buf : Int → Char) (fp : Int) : Nat → (Int → Char) × Int
  | 0 => (buf, 8)
  | k + 1 =>
    if tmodP fp 10 ≠ 0 then
      (fracWriteLoopN (bufWrite buf (8 + (k : Int) + 1) (digitChar (tmodP fp 10)))
        (tdivP fp 10) k,
       8 + (k : Int) + 1 + 1)
    else fracScanLoopN buf (tdivP fp 10) k

/-- The slice `string(s[a:b])` of the buffer. -/
def extractBuf (buf : Int → Char) (a b : Int) : List Char :=
  (List.range (b - a).toNat).map fun (k : Nat) => buf (a + (k : Int))

/-- The integer-digit phase of `Decimal.String`: the buffer and the
`start` index after the integer part has been written (`s[7] = '0'` when
the integer part is zero, the digit loop otherwise). -/
def intPartRes (u : Int) : (Int → Char) × Int :=
  if u / scale = 0 then (bufWrite bufInit 7 '0', (7 : Int))
  else intDigitLoopN bufInit 7 (u / scale) 21

/-- The fractional phase of `Decimal.String`: the buffer and the `end`
index after the fractional part (dot plus digit scan when the fractional
part is positive, untouched with `end = 8` otherwise). -/
def fracPartRes (buf1 : Int → Char) (u : Int) : (Int → Char) × Int :=
  if u % scale > 0 then fracScanLoopN (bufWrite buf1 8 '.') (u % scale) 12
  else (buf1, 8)

/-- The body of the fast path of `Decimal.String` after the `uint64`
conversion `ufixed` of `|fixed|`: integer phase, fractional phase, sign,
and the final slice `s[start:end]`. -/
def goStringAux (fixed ufixed : Int) : List Char :=
  if fixed < 0 then
    extractBuf (bufWrite (fracPartRes (intPartRes ufixed).1 ufixed).1
        ((intPartRes ufixed).2 - 1) '-')
      ((intPartRes ufixed).2 - 1) (fracPartRes (intPartRes ufixed).1 ufixed).2
  else
    extractBuf (fracPartRes (intPartRes ufixed).1 ufixed).1 (intPartRes ufixed).2
      (fracPartRes (intPartRes ufixed).1 ufixed).2

/-- The buffer part of the fast path of `Decimal.String`: the `uint64`
conversion of the absolute value (`uint64(d.fixed * -1)` keeps the most
negative value's bit pattern) followed by the digit loops and the slice. -/
def goStringFast (fixed : Int) : List Char :=
  goStringAux fixed ((if 0 ≤ fixed then fixed else neg64 fixed) % 2 ^ 64)

-- Spec-side digit strings used to state what the formatter produces.

/-- Decimal digit string of a nonnegative integer, most significant digit
first; the structural fuel (first argument) only needs to exceed the digit
count, and is 21 at every use. -/
def natDigitsF : Nat → Int → List Char
  | 0, _ => []
  | fuel + 1, n => if n ≥ 10 then natDigitsF fuel (n / 10) ++ [digitChar (n % 10)] else [digitChar n]

/-- Decimal digit string of a nonnegative integer below `10^20`. -/
def natDigits (n : Int) : List Char := natDigitsF 21 n

/-- Exactly `k` decimal digits of `n mod 10^k`, zero-padded, most
significant first. -/
def fixedDigits : Nat → Int → List Char
  | 0, _ => []
  | k + 1, n => fixedDigits k (n / 10) ++ [digitChar (n % 10)]

/-- Number of trailing zero digits of a positive integer (0 for zero or
negative input). -/
def tzerosF : Nat → Int → Nat
  | 0, _ => 0
  | fuel + 1, n => if 0 < n ∧ n % 10 = 0 then tzerosF fuel (n / 10) + 1 else 0

/-- Number of trailing zero digits (fueled at 21, enough below `10^20`). -/
def tzeros (n : Int) : Nat := tzerosF 21 n

/-- Modelled from the spec: the canonical decimal rendering of a fast
value — the reference library's `decimal.New(fixed, -12).String()`:
minus sign for negative values, the integer part without leading zeros,
and, when the 12-digit fractional part is nonzero, a dot followed by the
zero-padded fractional digits with trailing zeros trimmed. -/
def trimTrailingZeros (l : List Char) : List Char :=
  (l.reverse.dropWhile (fun c => c = '0')).reverse

/-- Modelled from the spec: left-pad a digit string to 12 digits. -/
def pad12 (l : List Char) : List Char := List.replicate (12 - l.length) '0' ++ l

/-- Modelled from the spec: the fallback engine's default rendering of
`value * 10^-12` (the `asFallback` image of a fast value): sign, integer
part, and the trimmed 12-digit fraction after a dot when nonzero. -/
def specFixedRender (f : Int) : List Char :=
  (if f < 0 then ['-'] else []) ++
  natDigits (|f| / 1000000000000) ++
  (if trimTrailingZeros (pad12 (natDigits (|f| % 1000000000000))) = [] then []
   else '.' :: trimTrailingZeros (pad12 (natDigits (|f| % 1000000000000))))

/-- The string cache of the source, whose entries are the canonical
strings of the values `(i - 100000) / 100`; the Go initializer produces
them with `strconv.FormatFloat`, which for these magnitudes is exactly
the canonical rendering (modelled from the spec, which fixes the cache
entries to be the precomputed canonical strings). -/
def stringCache (i : Int) : List Char := specFixedRender ((i - 100000) * 10000000000)

/-- The source's `Decimal.String`: cache lookup for small centesimal
values, the buffer formatter for other fast values, the fallback engine's
rendering otherwise (spec-modelled for a general fallback value; for the
claims only fast values matter). -/
def Decimal.String (d : Decimal) : List Char :=
  match d.fallback with
  | none =>
    if d.fixed ≤ a1000InFixed ∧ d.fixed ≥ aNeg1000InFixed ∧ tmodP d.fixed aCentInFixed = 0 then
      stringCache (tdivP d.fixed aCentInFixed + 100000)
    else goStringFast d.fixed
  | some f => specFixedRender (f.value * 10 ^ (f.exp + 12).toNat)

/-- Consecutive buffer stores of a list of characters starting at `a`
(the composite effect of a digit loop). -/
def bufWriteChunk (buf : Int → Char) (a : Int) : List Char → (Int → Char)
  | [] => buf
  | c :: rest => bufWriteChunk (bufWrite buf a c) (a + 1) rest



/-! ## SQL scanning and JSON marshaling (`NullDecimal`) -/

/-- The SQL input values of `Scan`: the `nil` interface value, or one of
the typed values of the switch.  The `float32`/`float64` arms call the
external binary-float conversion `NewFromFloat*` and are not modelled;
none of the claims involves them. -/
inductive SqlValue where
  | null : SqlValue
  | int : Int → SqlValue
  | str : List Char → SqlValue
  | bytes : List Char → SqlValue
deriving DecidableEq

/-- The source's `Decimal.Scan`: `int64` via `NewFromInt`, bytes and
strings via the fast parser, any unhandled or unparsable value delegated
to the fallback engine's `Scan` (spec-modelled: it parses a decimal
string and errors otherwise, and errors on `nil`).  The successful
branches fully overwrite the receiver, so the scanned result is returned
and the receiver is not a parameter. -/
def Decimal.Scan (v : SqlValue) : Except Unit Decimal :=
  match v with
  | .int x => Except.ok (NewFromInt x)
  | .bytes s =>
    if (parseFixed s).2 then Except.ok ⟨(parseFixed s).1, none⟩
    else
      match specFallbackParse s with
      | some sd => Except.ok (newFromDecimal sd)
      | none => Except.error ()
  | .str s =>
    if (parseFixed s).2 then Except.ok ⟨(parseFixed s).1, none⟩
    else
      match specFallbackParse s with
      | some sd => Except.ok (newFromDecimal sd)
      | none => Except.error ()
  | .null => Except.error ()

/-- The source's `NullDecimal`; the Go field named `Decimal` is `dec`
here, and the Go zero value of the type is `⟨Zero, false⟩`. -/
structure NullDecimal where
  dec : Decimal
  Valid : Bool
deriving DecidableEq

/-- The source's `NewNullDecimal`. -/
def NewNullDecimal (d : Decimal) : NullDecimal := ⟨d, true⟩

/-- The source's `NullDecimal.Scan`: a `nil` input only clears `Valid`
(leaving the wrapped decimal untouched); otherwise `Valid` is set and the
value is scanned into the wrapped decimal (an inner scan error is
propagated). -/
def NullDecimal.Scan (nd : NullDecimal) (v : SqlValue) : Except Unit NullDecimal :=
  match v with
  | .null => Except.ok ⟨nd.dec, false⟩
  | _ => (Decimal.Scan v).map fun d => ⟨d, true⟩

/-- The source re-exports the fallback engine's
`MarshalJSONWithoutQuotes`, whose default is `false`. -/
def MarshalJSONWithoutQuotes : Bool := false

/-- The source's `Decimal.MarshalJSON`: the string form, quoted unless
`MarshalJSONWithoutQuotes` is set; the error is always `nil`. -/
def Decimal.MarshalJSON (d : Decimal) : List Char :=
  if MarshalJSONWithoutQuotes then d.String else '"' :: (d.String ++ ['"'])

/-- The source's `NullDecimal.MarshalJSON`: the literal `null` for an
invalid value, the wrapped decimal's JSON otherwise. -/
def NullDecimal.MarshalJSON (nd : NullDecimal) : List Char :=
  if nd.Valid = false then "null".data else nd.dec.MarshalJSON

-- ===== THEOREMS =====

theorem wrap64_id {n : Int} (h1 : -(2 ^ 63) ≤ n) (h2 : n < 2 ^ 63) : wrap64 n = n := by
  unfold wrap64; omega

theorem tdivP_of_nonneg {a b : Int} (h : 0 ≤ a) : tdivP a b = a / b := by
  unfold tdivP; simp [h]

theorem tmodP_of_nonneg {a b : Int} (h : 0 ≤ a) : tmodP a b = a % b := by
  unfold tmodP; simp [h]

theorem mulFracFrac_exact {xf yf s : Int}
    (hx1 : 0 ≤ xf) (hx2 : xf < scale) (hy1 : 0 ≤ yf) (hy2 : yf < scale)
    (h : mulFracFrac xf yf = some s) :
    s * scale = xf * yf ∧ 0 ≤ s ∧ s < scale := by
  unfold mulFracFrac at h
  simp only [scale] at hx2 hy2 h ⊢
  rw [tdivP_of_nonneg hx1, tmodP_of_nonneg hx1, tdivP_of_nonneg hy1, tmodP_of_nonneg hy1] at h
  set xa := xf / 1000000 with hxa
  set xb := xf % 1000000 with hxb
  set ya := yf / 1000000 with hya
  set yb := yf % 1000000 with hyb
  have hxdecomp : xf = xa * 1000000 + xb := by rw [hxa, hxb]; omega
  have hydecomp : yf = ya * 1000000 + yb := by rw [hya, hyb]; omega
  have hxa0 : 0 ≤ xa := by rw [hxa]; omega
  have hxa1 : xa ≤ 999999 := by rw [hxa]; omega
  have hxb0 : 0 ≤ xb := by rw [hxb]; omega
  have hxb1 : xb ≤ 999999 := by rw [hxb]; omega
  have hya0 : 0 ≤ ya := by rw [hya]; omega
  have hya1 : ya ≤ 999999 := by rw [hya]; omega
  have hyb0 : 0 ≤ yb := by rw [hyb]; omega
  have hyb1 : yb ≤ 999999 := by rw [hyb]; omega
  have haa : xa * ya ≤ 999999 * 999999 := mul_le_mul hxa1 hya1 hya0 (by norm_num)
  have hab : xa * yb ≤ 999999 * 999999 := mul_le_mul hxa1 hyb1 hyb0 (by norm_num)
  have hba : xb * ya ≤ 999999 * 999999 := mul_le_mul hxb1 hya1 hya0 (by norm_num)
  have hbb : xb * yb ≤ 999999 * 999999 := mul_le_mul hxb1 hyb1 hyb0 (by norm_num)
  have haa0 : 0 ≤ xa * ya := mul_nonneg hxa0 hya0
  have hab0 : 0 ≤ xa * yb := mul_nonneg hxa0 hyb0
  have hba0 : 0 ≤ xb * ya := mul_nonneg hxb0 hya0
  have hbb0 : 0 ≤ xb * yb := mul_nonneg hxb0 hyb0
  have hwaa : mul64 xa ya = xa * ya := wrap64_id (by omega) (by omega)
  rw [hwaa] at h
  by_cases hcase : xb ≠ 0 ∨ yb ≠ 0
  · rw [if_pos hcase] at h
    have hwab : mul64 xa yb = xa * yb := wrap64_id (by omega) (by omega)
    have hwba : mul64 xb ya = xb * ya := wrap64_id (by omega) (by omega)
    have hwbb : mul64 xb yb = xb * yb := wrap64_id (by omega) (by omega)
    rw [hwab, hwba, hwbb] at h
    have hwp1 : add64 (xa * yb) (xb * ya) = xa * yb + xb * ya :=
      wrap64_id (by omega) (by omega)
    rw [hwp1] at h
    set p1 := xa * yb + xb * ya with hp1
    set p2 := xb * yb with hp2
    have hp10 : 0 ≤ p1 := by omega
    have hp20 : 0 ≤ p2 := by omega
    rw [tmodP_of_nonneg hp10, tmodP_of_nonneg hp20] at h
    by_cases hchk : p1 % 1000000 ≠ 0 ∨ p2 % 1000000000000 ≠ 0
    · rw [if_pos hchk] at h; exact absurd h (by simp)
    · rw [if_neg hchk] at h
      push_neg at hchk
      obtain ⟨hc1, hc2⟩ := hchk
      rw [tdivP_of_nonneg hp10, tdivP_of_nonneg hp20] at h
      have hq1 : p1 / 1000000 * 1000000 = p1 := Int.ediv_mul_cancel (Int.dvd_of_emod_eq_zero hc1)
      have hq2 : p2 / 1000000000000 * 1000000000000 = p2 :=
        Int.ediv_mul_cancel (Int.dvd_of_emod_eq_zero hc2)
      have hq1b : 0 ≤ p1 / 1000000 := by omega
      have hq2b : 0 ≤ p2 / 1000000000000 := by omega
      have hq1c : p1 / 1000000 ≤ 2 * 999999 * 999999 := by omega
      have hq2c : p2 / 1000000000000 ≤ 999999 * 999999 := by omega
      have hw1 : add64 (p1 / 1000000) (p2 / 1000000000000) =
          p1 / 1000000 + p2 / 1000000000000 := wrap64_id (by omega) (by omega)
      rw [hw1] at h
      have hw2 : add64 (xa * ya) (p1 / 1000000 + p2 / 1000000000000) =
          xa * ya + (p1 / 1000000 + p2 / 1000000000000) := wrap64_id (by omega) (by omega)
      rw [hw2] at h
      injection h with h
      subst h
      have hmain : (xa * ya + (p1 / 1000000 + p2 / 1000000000000)) * 1000000000000 =
          xf * yf := by
        have hexp : (xa * ya + (p1 / 1000000 + p2 / 1000000000000)) * 1000000000000 =
            xa * ya * 1000000000000 + (p1 / 1000000 * 1000000) * 1000000 +
            p2 / 1000000000000 * 1000000000000 := by ring
        rw [hexp, hq1, hq2, hxdecomp, hydecomp, hp1, hp2]
        ring
      have hprodbound : xf * yf ≤ 999999999999 * 999999999999 :=
        mul_le_mul (by omega) (by omega) hy1 (by omega)
      exact ⟨hmain, by omega, by omega⟩
  · rw [if_neg hcase] at h
    push_neg at hcase
    obtain ⟨hb0, hb0'⟩ := hcase
    injection h with h
    subst h
    refine ⟨?_, by omega, by omega⟩
    rw [hxdecomp, hydecomp, hb0, hb0']
    ring


theorem checkedAdd_some {r p v : Int} (hr0 : 0 ≤ r) (hp0 : 0 ≤ p) (hp1 : p < 2 ^ 63)
    (h : checkedAdd r p = some v) : v = r + p ∧ 0 ≤ v ∧ v ≤ maxIntInFixed := by
  unfold checkedAdd at h
  have hsub : sub64 maxIntInFixed p = maxIntInFixed - p := by
    unfold sub64 maxIntInFixed maxInt scale
    exact wrap64_id (by omega) (by omega)
  rw [hsub] at h
  by_cases hg : r ≤ maxIntInFixed - p
  · rw [if_pos hg] at h
    have hadd : add64 r p = r + p := by
      unfold add64
      unfold maxIntInFixed maxInt scale at hg
      exact wrap64_id (by omega) (by omega)
    rw [hadd] at h
    injection h with h
    exact ⟨h.symm, by omega, by omega⟩
  · rw [if_neg hg] at h
    exact absurd h (by simp)

theorem mulAbs_exact {x1 y1 r : Int}
    (hx1 : 0 ≤ x1) (hx2 : x1 ≤ maxIntInFixed) (hy1 : 0 ≤ y1) (hy2 : y1 ≤ maxIntInFixed)
    (h : mulAbs x1 y1 = some r) :
    r * scale = x1 * y1 ∧ 0 ≤ r ∧ r ≤ maxIntInFixed := by
  unfold mulAbs at h
  simp only [scale, maxInt, maxIntInFixed] at hx2 hy2 h ⊢
  rw [tdivP_of_nonneg hx1, tmodP_of_nonneg hx1, tdivP_of_nonneg hy1, tmodP_of_nonneg hy1] at h
  set xi := x1 / 1000000000000 with hxi
  set xf := x1 % 1000000000000 with hxf
  set yi := y1 / 1000000000000 with hyi
  set yf := y1 % 1000000000000 with hyf
  have hxdec : x1 = xi * 1000000000000 + xf := by rw [hxi, hxf]; omega
  have hydec : y1 = yi * 1000000000000 + yf := by rw [hyi, hyf]; omega
  have hxi0 : 0 ≤ xi := by rw [hxi]; omega
  have hxi1 : xi ≤ 9223372 := by rw [hxi]; omega
  have hxf0 : 0 ≤ xf := by rw [hxf]; omega
  have hxf1 : xf ≤ 999999999999 := by rw [hxf]; omega
  have hyi0 : 0 ≤ yi := by rw [hyi]; omega
  have hyi1 : yi ≤ 9223372 := by rw [hyi]; omega
  have hyf0 : 0 ≤ yf := by rw [hyf]; omega
  have hyf1 : yf ≤ 999999999999 := by rw [hyf]; omega
  have hii : xi * yi ≤ 9223372 * 9223372 := mul_le_mul hxi1 hyi1 hyi0 (by norm_num)
  have hii0 : 0 ≤ xi * yi := mul_nonneg hxi0 hyi0
  have hif : xi * yf ≤ 9223372 * 999999999999 := mul_le_mul hxi1 hyf1 hyf0 (by norm_num)
  have hif0 : 0 ≤ xi * yf := mul_nonneg hxi0 hyf0
  have hfi : xf * yi ≤ 999999999999 * 9223372 := mul_le_mul hxf1 hyi1 hyi0 (by norm_num)
  have hfi0 : 0 ≤ xf * yi := mul_nonneg hxf0 hyi0
  rw [Option.bind_eq_some] at h
  obtain ⟨r1, h1, h⟩ := h
  rw [Option.bind_eq_some] at h
  obtain ⟨r2, h2, h⟩ := h
  rw [Option.bind_eq_some] at h
  obtain ⟨r3, h3, h4⟩ := h
  -- step 1 characterization
  have hr1 : r1 = xi * yi * 1000000000000 ∧ 0 ≤ r1 ∧ r1 ≤ 9223372000000000000 := by
    by_cases hc1 : xi ≠ 0 ∧ yi ≠ 0
    · rw [if_pos hc1] at h1
      have hw1 : mul64 xi yi = xi * yi := wrap64_id (by omega) (by omega)
      rw [hw1] at h1
      by_cases hz : xi * yi > 9223372
      · rw [if_pos hz] at h1; exact absurd h1 (by simp)
      · rw [if_neg hz] at h1
        push_neg at hz
        have hw2 : mul64 (xi * yi) 1000000000000 = xi * yi * 1000000000000 :=
          wrap64_id (by omega) (by omega)
        rw [hw2] at h1
        injection h1 with h1
        exact ⟨h1.symm, by omega, by omega⟩
    · rw [if_neg hc1] at h1
      have hzero : xi * yi = 0 := by
        rcases not_and_or.mp hc1 with h0 | h0
        · simp only [ne_eq, not_not] at h0; rw [h0]; ring
        · simp only [ne_eq, not_not] at h0; rw [h0]; ring
      injection h1 with h1
      exact ⟨by omega, by omega, by omega⟩
  obtain ⟨hr1e, hr10, hr11⟩ := hr1
  -- step 2 characterization: r2 = r1 + t with t * 10^12 = xf * yf
  have hr2 : ∃ t, t * 1000000000000 = xf * yf ∧ r2 = r1 + t ∧ 0 ≤ r2 ∧
      r2 ≤ 9223372000000000000 := by
    by_cases hc2 : xf ≠ 0 ∧ yf ≠ 0
    · rw [if_pos hc2] at h2
      rw [Option.bind_eq_some] at h2
      obtain ⟨s, hmf, hca⟩ := h2
      obtain ⟨hs1, hs2, hs3⟩ := mulFracFrac_exact hxf0 (by simp only [scale]; omega)
        hyf0 (by simp only [scale]; omega) hmf
      simp only [scale] at hs1 hs3
      obtain ⟨he, hb0, hb1⟩ := checkedAdd_some hr10 hs2 (by omega) hca
      simp only [maxIntInFixed, maxInt, scale] at hb1
      exact ⟨s, hs1, he, hb0, hb1⟩
    · rw [if_neg hc2] at h2
      have hzero : xf * yf = 0 := by
        rcases not_and_or.mp hc2 with h0 | h0
        · simp only [ne_eq, not_not] at h0; rw [h0]; ring
        · simp only [ne_eq, not_not] at h0; rw [h0]; ring
      injection h2 with h2
      exact ⟨0, by omega, by omega, by omega, by omega⟩
  obtain ⟨t, ht, hr2e, hr20, hr21⟩ := hr2
  -- step 3 characterization
  have hr3 : r3 = r2 + xi * yf ∧ 0 ≤ r3 ∧ r3 ≤ 9223372000000000000 := by
    by_cases hc3 : xi ≠ 0 ∧ yf ≠ 0
    · rw [if_pos hc3] at h3
      have hwp : mul64 xi yf = xi * yf := wrap64_id (by omega) (by omega)
      rw [hwp] at h3
      obtain ⟨he, hb0, hb1⟩ := checkedAdd_some hr20 hif0 (by omega) h3
      simp only [maxIntInFixed, maxInt, scale] at hb1
      exact ⟨he, hb0, hb1⟩
    · rw [if_neg hc3] at h3
      have hzero : xi * yf = 0 := by
        rcases not_and_or.mp hc3 with h0 | h0
        · simp only [ne_eq, not_not] at h0; rw [h0]; ring
        · simp only [ne_eq, not_not] at h0; rw [h0]; ring
      injection h3 with h3
      exact ⟨by omega, by omega, by omega⟩
  obtain ⟨hr3e, hr30, hr31⟩ := hr3
  -- step 4 characterization
  have hfin : r = r3 + xf * yi ∧ 0 ≤ r ∧ r ≤ 9223372000000000000 := by
    by_cases hc4 : xf ≠ 0 ∧ yi ≠ 0
    · rw [if_pos hc4] at h4
      have hwp : mul64 xf yi = xf * yi := wrap64_id (by omega) (by omega)
      rw [hwp] at h4
      obtain ⟨he, hb0, hb1⟩ := checkedAdd_some hr30 hfi0 (by omega) h4
      simp only [maxIntInFixed, maxInt, scale] at hb1
      exact ⟨he, hb0, hb1⟩
    · rw [if_neg hc4] at h4
      have hzero : xf * yi = 0 := by
        rcases not_and_or.mp hc4 with h0 | h0
        · simp only [ne_eq, not_not] at h0; rw [h0]; ring
        · simp only [ne_eq, not_not] at h0; rw [h0]; ring
      injection h4 with h4
      exact ⟨by omega, by omega, by omega⟩
  obtain ⟨he, hb0, hb1⟩ := hfin
  refine ⟨?_, hb0, hb1⟩
  rw [he, hr3e, hr2e, hr1e, hxdec, hydec]
  linear_combination ht

theorem neg64_id {n : Int} (h1 : -(2 ^ 63) < n) (h2 : n < 2 ^ 63) : neg64 n = -n := by
  unfold neg64 wrap64; omega

theorem mul_exact {x y : Int}
    (hx1 : minIntInFixed ≤ x) (hx2 : x ≤ maxIntInFixed)
    (hy1 : minIntInFixed ≤ y) (hy2 : y ≤ maxIntInFixed)
    (hok : (mul x y).2 = true) :
    (mul x y).1 * scale = x * y ∧
    minIntInFixed ≤ (mul x y).1 ∧ (mul x y).1 ≤ maxIntInFixed := by
  have hmm : minIntInFixed = -maxIntInFixed := by
    unfold minIntInFixed maxIntInFixed minInt maxInt scale; norm_num
  unfold mul at hok ⊢
  by_cases h0 : x = 0 ∨ y = 0
  · rw [if_pos h0]
    have : x * y = 0 := by
      rcases h0 with h0 | h0 <;> rw [h0] <;> ring
    simp only [this]
    refine ⟨by ring, ?_, ?_⟩ <;>
      simp only [minIntInFixed, maxIntInFixed, minInt, maxInt, scale] <;> norm_num
  · rw [if_neg h0] at hok ⊢
    have hA : maxIntInFixed = 9223372000000000000 := by
      unfold maxIntInFixed maxInt scale; norm_num
    have hxabs : (if x < 0 then neg64 x else x) = |x| := by
      by_cases hx0 : x < 0
      · rw [if_pos hx0, neg64_id (by omega) (by omega), abs_of_neg hx0]
      · rw [if_neg hx0, abs_of_nonneg (by omega)]
    have hyabs : (if y < 0 then neg64 y else y) = |y| := by
      by_cases hy0 : y < 0
      · rw [if_pos hy0, neg64_id (by omega) (by omega), abs_of_neg hy0]
      · rw [if_neg hy0, abs_of_nonneg (by omega)]
    rw [hxabs, hyabs] at hok ⊢
    rcases hma : mulAbs |x| |y| with _ | r4
    · rw [hma] at hok; simp at hok
    · rw [hma] at hok
      dsimp only at hok ⊢
      obtain ⟨hr, hb0, hb1⟩ := mulAbs_exact (abs_nonneg x) (by rw [abs_le]; omega)
        (abs_nonneg y) (by rw [abs_le]; omega) hma
      have habsmul : |x| * |y| = |x * y| := (abs_mul x y).symm
      rw [habsmul] at hr
      by_cases hneg : xor (decide (x < 0)) (decide (y < 0)) = true
      · rw [hneg]
        simp only [if_true]
        have hn : neg64 r4 = -r4 := neg64_id (by omega) (by omega)
        rw [hn]
        have hsign : x * y ≤ 0 := by
          by_cases hx0 : x < 0 <;> by_cases hy0 : y < 0
          · simp [hx0, hy0] at hneg
          · exact mul_nonpos_iff.mpr (Or.inr ⟨hx0.le, not_lt.mp hy0⟩)
          · exact mul_nonpos_iff.mpr (Or.inl ⟨not_lt.mp hx0, hy0.le⟩)
          · simp [hx0, hy0] at hneg
        have habs : |x * y| = -(x * y) := abs_of_nonpos hsign
        rw [habs] at hr
        exact ⟨by linarith, by omega, by omega⟩
      · rw [Bool.not_eq_true] at hneg
        rw [hneg]
        simp only [Bool.false_eq_true, if_false]
        have hsign : 0 ≤ x * y := by
          by_cases hx0 : x < 0 <;> by_cases hy0 : y < 0
          · nlinarith [mul_pos_of_neg_of_neg hx0 hy0]
          · simp [hx0, hy0] at hneg
          · simp [hx0, hy0] at hneg
          · exact mul_nonneg (not_lt.mp hx0) (not_lt.mp hy0)
        have habs : |x * y| = x * y := abs_of_nonneg hsign
        rw [habs] at hr
        exact ⟨hr, by omega, by omega⟩

-- Sanity checks of the transcription on concrete inputs.
example : mul 1230000000000 2000000000000 = (2460000000000, true) := by decide
example : mul 1500000000000 1500000000000 = (2250000000000, true) := by decide
-- 0.0000005 * 0.0000005 needs 13 fractional digits: reported as overflow.
example : mul 500000 500000 = (0, false) := by decide
-- 3000000 * 4000000 overflows the fast range.
example : mul 3000000000000000000 4000000000000000000 = (0, false) := by decide
example : mul 0 5 = (0, true) := by decide
example : mul (-1230000000000) 2000000000000 = (-2460000000000, true) := by decide
-- the most negative int64 survives the abs step unchanged; the guards catch it
example : mul (-9223372036854775808) 2000000000000 = (0, false) := by decide
example : mul (-9223372036854775808) 1000000000000 = (0, false) := by decide
example : div 1000000000000 2000000000000 500000000000 = (500000000000, true) := by decide
example : div 2300000000000 300000000000 7666666666667 = (0, false) := by decide
example : div 5 0 123 = (0, false) := by decide
example : div 0 0 0 = (0, false) := by decide
example : div 0 7 0 = (0, true) := by decide

theorem div_ok_mulcheck {x y z : Int} (h : (div x y z).2 = true) :
    mul y (div x y z).1 = (x, true) := by
  unfold div at h ⊢
  by_cases hx : x = 0
  · rw [if_pos hx] at h ⊢
    simp only [decide_eq_true_eq] at h
    subst hx
    unfold mul
    simp
  · rw [if_neg hx] at h ⊢
    rcases hm : mul y z with ⟨xx, _ | _⟩
    · rw [hm] at h
      exact absurd h (by simp)
    · rw [hm] at h
      dsimp only at h ⊢
      by_cases he : x = xx
      · subst he
        simp only [if_pos rfl] at h ⊢
        exact hm
      · simp only [if_neg he] at h
        exact absurd h (by simp)

theorem div_val_cases (x y z : Int) : (div x y z).1 = z ∨ (div x y z).1 = 0 := by
  unfold div
  by_cases hx : x = 0
  · rw [if_pos hx]; right; rfl
  · rw [if_neg hx]
    rcases hm : mul y z with ⟨xx, _ | _⟩
    · right; rfl
    · dsimp only
      by_cases he : x = xx
      · subst he
        simp only [if_pos rfl]
        simp
      · simp only [if_neg he]
        simp

theorem div_exact_rational {x y z : Int}
    (hy1 : minIntInFixed ≤ y) (hy2 : y ≤ maxIntInFixed)
    (hz1 : minIntInFixed ≤ z) (hz2 : z ≤ maxIntInFixed)
    (h : (div x y z).2 = true) : y * (div x y z).1 = x * scale := by
  have hc := div_ok_mulcheck h
  have hrange : minIntInFixed ≤ (div x y z).1 ∧ (div x y z).1 ≤ maxIntInFixed := by
    rcases div_val_cases x y z with hv | hv <;> rw [hv]
    · exact ⟨hz1, hz2⟩
    · constructor <;> simp only [minIntInFixed, maxIntInFixed, minInt, maxInt, scale] <;> norm_num
  have hok : (mul y (div x y z).1).2 = true := by rw [hc]
  obtain ⟨he, _, _⟩ := mul_exact hy1 hy2 hrange.1 hrange.2 hok
  rw [hc] at he
  linarith [he]

theorem div_zero_divisor (x z : Int) : div x 0 z = (0, false) := by
  unfold div
  by_cases hx : x = 0
  · rw [if_pos hx]; simp
  · rw [if_neg hx]
    have hm : mul 0 z = (0, true) := by unfold mul; simp
    rw [hm]
    dsimp only
    rw [if_neg (by omega : ¬ x = 0)]

/-- C1: for fast fixed-point operands `x` and `y` (values of the fast
range `[minIntInFixed, maxIntInFixed]`), if the fast multiply kernel
returns `ok = true` then the returned fixed value exactly equals the
rational product `(x/10^12)*(y/10^12)` scaled by `10^12` (equivalently
`result * scale = x * y`, so nothing is silently truncated), and the
result lies inside the fast range; contrapositively, whenever the exact
product needs more than 12 fractional digits or exceeds the fast range,
`mul` returns `ok = false` and the operation falls back. -/
theorem C1_mul_kernel_exact (x y : Int)
    (hx1 : minIntInFixed ≤ x) (hx2 : x ≤ maxIntInFixed)
    (hy1 : minIntInFixed ≤ y) (hy2 : y ≤ maxIntInFixed)
    (hok : (mul x y).2 = true) :
    (mul x y).1 * scale = x * y ∧
    minIntInFixed ≤ (mul x y).1 ∧ (mul x y).1 ≤ maxIntInFixed :=
  mul_exact hx1 hx2 hy1 hy2 hok

/-- Witness for C1 at `1.23 * 2`. -/
theorem C1_mul_kernel_exact_witness :
    (mul 1230000000000 2000000000000).1 * scale = 1230000000000 * 2000000000000 ∧
    minIntInFixed ≤ (mul 1230000000000 2000000000000).1 ∧
    (mul 1230000000000 2000000000000).1 ≤ maxIntInFixed :=
  C1_mul_kernel_exact 1230000000000 2000000000000
    (by decide) (by decide) (by decide) (by decide) (by decide)

/-- C2: the fast divide kernel only answers after verifying its candidate:
whenever `div x y z` reports `ok = true` (for any floating-point candidate
`z`), multiplying the result back with the `mul` kernel reproduces `x`
exactly, and for in-range `y`, `z` the quotient is exact as rationals
(`y * result = x * scale`, i.e. `result/10^12 = (x/10^12)/(y/10^12)`).
Dividing 1 by 2 yields the fast fixed value `0.5` and 122 by 10 yields
`12.2` (with the candidates the float computation produces), while
`2.3 / 0.3`, not exactly representable in 12 digits, is handed to the
delegated `DivRound` with the configured 16-digit `DivisionPrecision`
for every possible in-range candidate. -/
theorem C2_div_verified_exact :
    (∀ x y z : Int, (div x y z).2 = true → mul y (div x y z).1 = (x, true)) ∧
    (∀ x y z : Int, minIntInFixed ≤ y → y ≤ maxIntInFixed →
      minIntInFixed ≤ z → z ≤ maxIntInFixed →
      (div x y z).2 = true → y * (div x y z).1 = x * scale) ∧
    Decimal.Div ⟨1000000000000, none⟩ ⟨2000000000000, none⟩ 500000000000 =
      some ⟨500000000000, none⟩ ∧
    Decimal.Div ⟨122000000000000, none⟩ ⟨10000000000000, none⟩ 12200000000000 =
      some ⟨12200000000000, none⟩ ∧
    (∀ z : Int, minIntInFixed ≤ z → z ≤ maxIntInFixed →
      Decimal.Div ⟨2300000000000, none⟩ ⟨300000000000, none⟩ z =
        Decimal.DivRound ⟨2300000000000, none⟩ ⟨300000000000, none⟩ DivisionPrecision) := by
  refine ⟨fun x y z h => div_ok_mulcheck h,
    fun x y z hy1 hy2 hz1 hz2 h => div_exact_rational hy1 hy2 hz1 hz2 h,
    by decide, by decide, ?_⟩
  intro z hz1 hz2
  have hfalse : (div 2300000000000 300000000000 z).2 = false := by
    by_contra hne
    have hok : (div 2300000000000 300000000000 z).2 = true := by
      revert hne; cases (div 2300000000000 300000000000 z).2 <;> simp
    have he := div_exact_rational (x := 2300000000000)
      (by decide) (by decide) hz1 hz2 hok
    rcases div_val_cases 2300000000000 300000000000 z with hv | hv <;>
      rw [hv] at he <;> simp only [scale] at he <;> omega
  unfold Decimal.Div
  rw [if_neg]
  simp [hfalse]

/-- Witness for C2 at `1 / 2` with the candidate `0.5`. -/
theorem C2_div_verified_exact_witness :
    (2000000000000 : Int) * (div 1000000000000 2000000000000 500000000000).1 =
      1000000000000 * scale :=
  C2_div_verified_exact.2.1 1000000000000 2000000000000 500000000000
    (by decide) (by decide) (by decide) (by decide) (by decide)

/-- C6: division by zero never produces a fast-path result: the kernel
returns `(0, false)` for a zero divisor no matter the dividend or the
floating-point candidate, and the dispatch-level `Div` with a zero divisor
is delegated to the fallback engine's `DivRound`, whose own
division-by-zero semantics fault (modelled as `none`), with no special
casing. -/
theorem C6_div_by_zero :
    (∀ x z : Int, div x 0 z = (0, false)) ∧
    (∀ (d : Decimal) (z : Int),
      Decimal.Div d ⟨0, none⟩ z = Decimal.DivRound d ⟨0, none⟩ DivisionPrecision ∧
      Decimal.DivRound d ⟨0, none⟩ DivisionPrecision = none) := by
  refine ⟨div_zero_divisor, fun d z => ⟨?_, ?_⟩⟩
  · unfold Decimal.Div
    rw [if_neg]
    rw [div_zero_divisor]
    simp
  · unfold Decimal.DivRound SDec.divRound Decimal.asFallback
    simp


example : parseFixed "0.5".data = (500000000000, true) := by decide
example : parseFixed "-12.25".data = (-12250000000000, true) := by decide
example : parseFixed "0.000".data = (0, true) := by decide
example : parseFixed "122".data = (122000000000000, true) := by decide
example : parseFixed "".data = (0, false) := by decide
example : parseFixed "+".data = (0, false) := by decide
example : parseFixed "-0".data = (0, true) := by decide
example : parseFixed "9223372".data = (0, false) := by decide
example : parseFixed "9223371".data = (9223371000000000000, true) := by decide
example : parseFixed "abc".data = (0, false) := by decide
example : parseFixed ['"', '1', '.', '2', '"'] = (1200000000000, true) := by decide
example : parseFixed "1.2345678901234".data = (0, false) := by decide
example : parseFixed "0.123456789012".data = (123456789012, true) := by decide
-- the bare dot is accepted as zero (the inner fractional loop is vacuous)
example : parseFixed ".".data = (0, true) := by decide
example : parseFixed "1.0.0".data = (1000000000000, true) := by decide


/-- C5: the claim says a malformed input always surfaces a format error
and is never silently coerced to zero; the code violates this.  The input
`"."` is not a decimal literal (the delegated parser rejects it), yet
`parseFixed` accepts it as zero, so `NewFromString` returns `Zero` with no
error; similarly the malformed `"1.0.0"` is silently accepted as `1`. -/
theorem C5_malformed_dot_accepted_as_zero :
    specFallbackParse ".".data = none ∧
    parseFixed ".".data = (0, true) ∧
    NewFromString ".".data = Except.ok Zero ∧
    specFallbackParse "1.0.0".data = none ∧
    parseFixed "1.0.0".data = (1000000000000, true) := by
  refine ⟨by decide, by decide, ?_, by decide, by decide⟩
  rfl


theorem digit_ge {c : Char} (h : '0' ≤ c) : 48 ≤ (c.toNat : Int) := by
  have h2 : '0'.val.toNat ≤ c.val.toNat := h
  have h0 : '0'.val.toNat = 48 := rfl
  simp [Char.toNat]
  omega

theorem digit_le {c : Char} (h : c ≤ '9') : (c.toNat : Int) ≤ 57 := by
  have h2 : c.val.toNat ≤ '9'.val.toNat := h
  have h0 : '9'.val.toNat = 57 := rfl
  simp [Char.toNat]
  omega

theorem pow10At_getD (k : Int) (h0 : 0 ≤ k) (h1 : k ≤ 18) :
    (pow10At k).getD 0 = 10 ^ k.toNat := by
  interval_cases k <;> rfl

theorem fracLoop_bound : ∀ (s : List Char) (fixed f : Int), 0 ≤ fixed →
    (fixed + 1) * 10 ^ s.length ≤ 2 ^ 63 →
    fracLoop s fixed = some f → 0 ≤ f ∧ f < (fixed + 1) * 10 ^ s.length := by
  intro s
  induction s with
  | nil =>
    intro fixed f h0 _ h
    unfold fracLoop at h
    injection h with h
    subst h
    simpa using by omega
  | cons c rest ih =>
    intro fixed f h0 hbound h
    unfold fracLoop at h
    by_cases hc : '0' ≤ c ∧ c ≤ '9'
    · rw [if_pos hc] at h
      have hd1 := digit_ge hc.1
      have hd2 := digit_le hc.2
      have hp0 : (0:Int) < 10 ^ rest.length := pow_pos (by norm_num) _
      have h1p : (1:Int) ≤ 10 ^ rest.length := by omega
      have hps : (10:Int) ^ (c :: rest).length = 10 * 10 ^ rest.length := by
        simp [List.length_cons, pow_succ]; ring
      rw [hps] at hbound
      have hmono : (fixed + 1) * 10 ≤ (fixed + 1) * 10 * 10 ^ rest.length :=
        le_mul_of_one_le_right (by positivity) h1p
      have hassoc : (fixed + 1) * 10 * 10 ^ rest.length = (fixed + 1) * (10 * 10 ^ rest.length) := by
        ring
      rw [hassoc] at hmono
      have hw : add64 (mul64 fixed 10) ((c.toNat : Int) - 48) =
          fixed * 10 + ((c.toNat : Int) - 48) := by
        unfold add64 mul64 wrap64
        omega
      rw [hw] at h
      have hstep2 : (fixed * 10 + ((c.toNat : Int) - 48) + 1) * 10 ^ rest.length ≤ 2 ^ 63 := by
        have h2 : fixed * 10 + ((c.toNat : Int) - 48) + 1 ≤ (fixed + 1) * 10 := by omega
        calc (fixed * 10 + ((c.toNat : Int) - 48) + 1) * 10 ^ rest.length
            ≤ (fixed + 1) * 10 * 10 ^ rest.length := mul_le_mul_of_nonneg_right h2 hp0.le
          _ ≤ 2 ^ 63 := by rw [hassoc]; exact hbound
      have ih' := ih (fixed * 10 + ((c.toNat : Int) - 48)) f (by omega) hstep2 h
      refine ⟨ih'.1, ?_⟩
      calc f < (fixed * 10 + ((c.toNat : Int) - 48) + 1) * 10 ^ rest.length := ih'.2
        _ ≤ (fixed + 1) * 10 * 10 ^ rest.length := mul_le_mul_of_nonneg_right (by omega) hp0.le
        _ = (fixed + 1) * 10 ^ (c :: rest).length := by rw [hps]; ring
    · rw [if_neg hc] at h
      exact absurd h (by simp)

theorem intLoop_bound : ∀ (v : List Char) (fixed f : Int), 0 ≤ fixed → fixed < maxInt →
    intLoop v fixed = some f → 0 ≤ f ∧ f ≤ maxIntInFixed := by
  intro v
  induction v with
  | nil =>
    intro fixed f h0 h1 h
    unfold intLoop at h
    injection h with h
    subst h
    unfold maxInt at h1
    have hw : mul64 fixed scale = fixed * scale := by
      unfold mul64 scale wrap64
      rw [Int.emod_eq_of_lt (by omega) (by omega)]
      ring
    rw [hw]
    unfold scale maxIntInFixed maxInt scale
    constructor
    · positivity
    · omega
  | cons c rest ih =>
    intro fixed f h0 h1 h
    unfold intLoop at h
    unfold maxInt at h1
    by_cases hc : '0' ≤ c ∧ c ≤ '9'
    · rw [if_pos hc] at h
      have hd1 := digit_ge hc.1
      have hd2 := digit_le hc.2
      have hw : add64 (mul64 fixed 10) ((c.toNat : Int) - 48) =
          fixed * 10 + ((c.toNat : Int) - 48) := by
        unfold add64 mul64 wrap64
        omega
      rw [hw] at h
      dsimp only at h
      by_cases hcap : fixed * 10 + ((c.toNat : Int) - 48) ≥ maxInt
      · rw [if_pos hcap] at h
        exact absurd h (by simp)
      · rw [if_neg hcap] at h
        unfold maxInt at hcap
        exact ih _ f (by omega) (by unfold maxInt; omega) h
    · rw [if_neg hc] at h
      by_cases hdot : c = '.'
      · rw [if_pos hdot] at h
        by_cases hlen : ((rest.length : Int) > 12)
        · rw [if_pos hlen] at h
          exact absurd h (by simp)
        · rw [if_neg hlen] at h
          rw [Option.map_eq_some'] at h
          obtain ⟨g, hg, hf⟩ := h
          have hrl : rest.length ≤ 12 := by omega
          have hpw : (10:Int) ^ rest.length ≤ 10 ^ 12 :=
            pow_le_pow_right₀ (by norm_num) hrl
          have hb : (fixed + 1) * 10 ^ rest.length ≤ 2 ^ 63 := by
            calc (fixed + 1) * 10 ^ rest.length
                ≤ 9223372 * 10 ^ 12 :=
                  mul_le_mul (by omega) hpw (by positivity) (by norm_num)
              _ ≤ 2 ^ 63 := by norm_num
          obtain ⟨hg0, hg1⟩ := fracLoop_bound rest fixed g h0 hb hg
          have htn : ((12 : Int) - rest.length).toNat = 12 - rest.length := by omega
          have hpow : (pow10At (12 - (rest.length : Int))).getD 0 = 10 ^ (12 - rest.length) := by
            rw [pow10At_getD _ (by omega) (by omega), htn]
          rw [hpow] at hf
          have hsplit : (10:Int) ^ rest.length * 10 ^ (12 - rest.length) = 10 ^ 12 := by
            rw [← pow_add]
            congr 1
            omega
          have hq0 : (0:Int) < 10 ^ (12 - rest.length) := pow_pos (by norm_num) _
          have hgb : g * 10 ^ (12 - rest.length) < 9223372 * 10 ^ 12 := by
            calc g * 10 ^ (12 - rest.length)
                < (fixed + 1) * 10 ^ rest.length * 10 ^ (12 - rest.length) :=
                  mul_lt_mul_of_pos_right hg1 hq0
              _ = (fixed + 1) * ((10:Int) ^ rest.length * 10 ^ (12 - rest.length)) := by ring
              _ = (fixed + 1) * 10 ^ 12 := by rw [hsplit]
              _ ≤ 9223372 * 10 ^ 12 := mul_le_mul_of_nonneg_right (by omega) (by positivity)
          have hgb0 : 0 ≤ g * 10 ^ (12 - rest.length) := mul_nonneg hg0 hq0.le
          have hlit : (9223372:Int) * 10 ^ 12 = 9223372000000000000 := by norm_num
          rw [hlit] at hgb
          subst hf
          have hw2 : mul64 g (10 ^ (12 - rest.length)) = g * 10 ^ (12 - rest.length) := by
            unfold mul64 wrap64
            rw [Int.emod_eq_of_lt (by omega) (by omega)]
            ring
          rw [hw2]
          unfold maxIntInFixed maxInt scale
          omega
      · rw [if_neg hdot] at h
        exact absurd h (by simp)

theorem parseCore_bound (v : List Char) (neg : Bool) :
    minIntInFixed ≤ (parseCore v neg).1 ∧ (parseCore v neg).1 ≤ maxIntInFixed := by
  unfold parseCore
  by_cases hz : v.length = 0
  · rw [if_pos hz]
    refine ⟨?_, ?_⟩ <;> norm_num [minIntInFixed, maxIntInFixed, minInt, maxInt, scale]
  · rw [if_neg hz]
    rcases hI : intLoop v 0 with _ | f
    · simp only [hI]
      refine ⟨?_, ?_⟩ <;> norm_num [minIntInFixed, maxIntInFixed, minInt, maxInt, scale]
    · simp only [hI]
      obtain ⟨hf0, hf1⟩ := intLoop_bound v 0 f le_rfl (by unfold maxInt; norm_num) hI
      have hn : neg64 f = -f := by
        unfold neg64 wrap64
        unfold maxIntInFixed maxInt scale at hf1
        omega
      cases neg
      · simp only [Bool.false_eq_true, if_false]
        simp only [minIntInFixed, maxIntInFixed, minInt, maxInt, scale] at hf1 ⊢
        omega
      · simp only [if_true, hn]
        simp only [minIntInFixed, maxIntInFixed, minInt, maxInt, scale] at hf1 ⊢
        omega

theorem parseSigned_bound (v : List Char) :
    minIntInFixed ≤ (parseSigned v).1 ∧ (parseSigned v).1 ≤ maxIntInFixed := by
  unfold parseSigned
  cases v with
  | nil => exact parseCore_bound _ _
  | cons c tail =>
    cases tail with
    | nil => exact parseCore_bound _ _
    | cons c2 rest =>
      dsimp only
      split_ifs <;> exact parseCore_bound _ _

theorem parseFixed_bound (v : List Char) :
    minIntInFixed ≤ (parseFixed v).1 ∧ (parseFixed v).1 ≤ maxIntInFixed := by
  unfold parseFixed
  by_cases hlen : (stripQuotes v).length > 21
  · simp only [if_pos hlen]
    refine ⟨?_, ?_⟩ <;> simp only [minIntInFixed, maxIntInFixed, minInt, maxInt, scale] <;>
      norm_num
  · simp only [if_neg hlen]
    exact parseSigned_bound _

theorem mul64_id {a b : Int} (h1 : -(2 ^ 63) ≤ a * b) (h2 : a * b < 2 ^ 63) :
    mul64 a b = a * b := by
  unfold mul64 wrap64
  rw [Int.emod_eq_of_lt (by omega) (by omega)]
  ring

theorem tryOptNew_bound (v e : Int) :
    minIntInFixed ≤ (tryOptNew v e).1.fixed ∧ (tryOptNew v e).1.fixed ≤ maxIntInFixed := by
  unfold tryOptNew
  by_cases h1 : e ≥ -12
  case neg =>
    simp only [if_neg h1]
    norm_num [minIntInFixed, maxIntInFixed, minInt, maxInt, scale]
  case pos =>
    simp only [if_pos h1]
    by_cases h2 : e ≤ 0
    case pos =>
      simp only [if_pos h2]
      rw [pow10At_getD (-e) (by omega) (by omega),
          pow10At_getD (precision + e) (by unfold precision; omega) (by unfold precision; omega)]
      by_cases hg : v ≥ minInt * 10 ^ (-e).toNat ∧ v ≤ maxInt * 10 ^ (-e).toNat
      case neg =>
        rw [if_neg hg]
        norm_num [minIntInFixed, maxIntInFixed, minInt, maxInt, scale]
      case pos =>
        rw [if_pos hg]
        obtain ⟨hg1, hg2⟩ := hg
        unfold minInt at hg1
        unfold maxInt at hg2
        have hC0 : (0:Int) < 10 ^ (precision + e).toNat := pow_pos (by norm_num) _
        have hsC : (10:Int) ^ (-e).toNat * 10 ^ (precision + e).toNat = 1000000000000 := by
          rw [← pow_add]
          have hx : (-e).toNat + (precision + e).toNat = 12 := by unfold precision; omega
          rw [hx]
          norm_num
        have hub : v * 10 ^ (precision + e).toNat ≤ 9223372000000000000 := by
          calc v * 10 ^ (precision + e).toNat
              ≤ 9223372 * 10 ^ (-e).toNat * 10 ^ (precision + e).toNat :=
                mul_le_mul_of_nonneg_right hg2 hC0.le
            _ = 9223372 * ((10:Int) ^ (-e).toNat * 10 ^ (precision + e).toNat) := by ring
            _ = 9223372 * 1000000000000 := by rw [hsC]
            _ = 9223372000000000000 := by norm_num
        have hlb : -9223372000000000000 ≤ v * 10 ^ (precision + e).toNat := by
          have := mul_le_mul_of_nonneg_right hg1 hC0.le
          calc (-9223372000000000000 : Int)
              = -9223372 * ((10:Int) ^ (-e).toNat * 10 ^ (precision + e).toNat) := by
                rw [hsC]; norm_num
            _ = -9223372 * 10 ^ (-e).toNat * 10 ^ (precision + e).toNat := by ring
            _ ≤ v * 10 ^ (precision + e).toNat := this
        rw [mul64_id (by omega) (by omega)]
        simp only [minIntInFixed, maxIntInFixed, minInt, maxInt, scale]
        omega
    case neg =>
      by_cases h3 : e ≤ 6
      · simp only [if_neg h2, if_pos h3]
        rw [pow10At_getD e (by omega) (by omega),
            pow10At_getD (precision + e) (by unfold precision; omega) (by unfold precision; omega)]
        by_cases hg : v ≥ tdivP minInt (10 ^ e.toNat) ∧ v ≤ tdivP maxInt (10 ^ e.toNat)
        case neg =>
          rw [if_neg hg]
          norm_num [minIntInFixed, maxIntInFixed, minInt, maxInt, scale]
        case pos =>
          rw [if_pos hg]
          obtain ⟨hg1, hg2⟩ := hg
          have hs0 : (0:Int) < 10 ^ e.toNat := pow_pos (by norm_num) _
          have htd1 : tdivP minInt (10 ^ e.toNat) = -(9223372 / 10 ^ e.toNat) := by
            unfold tdivP minInt
            rw [if_neg (by norm_num)]
            norm_num
          have htd2 : tdivP maxInt (10 ^ e.toNat) = 9223372 / 10 ^ e.toNat := by
            unfold tdivP maxInt
            rw [if_pos (by norm_num)]
          rw [htd1] at hg1
          rw [htd2] at hg2
          have hvs1 : v * 10 ^ e.toNat ≤ 9223372 := by
            calc v * 10 ^ e.toNat ≤ 9223372 / 10 ^ e.toNat * 10 ^ e.toNat :=
                mul_le_mul_of_nonneg_right hg2 hs0.le
              _ ≤ (9223372:Int) := Int.ediv_mul_le 9223372 hs0.ne'
          have hvs2 : -9223372 ≤ v * 10 ^ e.toNat := by
            have h' : -(9223372 / 10 ^ e.toNat) * 10 ^ e.toNat ≤ v * 10 ^ e.toNat :=
              mul_le_mul_of_nonneg_right hg1 hs0.le
            have h'' : (9223372:Int) / 10 ^ e.toNat * 10 ^ e.toNat ≤ 9223372 :=
              Int.ediv_mul_le 9223372 hs0.ne'
            nlinarith
          have hCs : (10:Int) ^ (precision + e).toNat = 10 ^ e.toNat * 1000000000000 := by
            have hx : (precision + e).toNat = e.toNat + 12 := by unfold precision; omega
            rw [hx, pow_add]
            norm_num
          have hsplit : v * (10 ^ e.toNat * 1000000000000) =
              v * 10 ^ e.toNat * 1000000000000 := by ring
          have hub : v * 10 ^ (precision + e).toNat ≤ 9223372000000000000 := by
            rw [hCs, hsplit]
            nlinarith
          have hlb : (-9223372000000000000 : Int) ≤ v * 10 ^ (precision + e).toNat := by
            rw [hCs, hsplit]
            nlinarith
          rw [mul64_id (by omega) (by omega)]
          simp only [minIntInFixed, maxIntInFixed, minInt, maxInt, scale]
          omega
      · simp only [if_neg h2, if_neg h3]
        norm_num [minIntInFixed, maxIntInFixed, minInt, maxInt, scale]

theorem add64_id {a b : Int} (h1 : -(2 ^ 63) ≤ a + b) (h2 : a + b < 2 ^ 63) :
    add64 a b = a + b := by
  unfold add64 wrap64
  rw [Int.emod_eq_of_lt (by omega) (by omega)]
  ring

theorem pow10At_getD_eq (k : Int) :
    (pow10At k).getD 0 = if 0 ≤ k ∧ k ≤ 18 then 10 ^ k.toNat else 0 := by
  by_cases h : 0 ≤ k ∧ k ≤ 18
  · rw [if_pos h]
    exact pow10At_getD k h.1 h.2
  · rw [if_neg h]
    unfold pow10At
    by_cases h0 : 0 ≤ k
    · rw [if_pos h0]
      have hlen : pow10Table.length = 19 := rfl
      rw [List.getElem?_eq_none (by omega)]
      rfl
    · rw [if_neg h0]
      rfl

theorem pow10At_some {k s : Int} (h : pow10At k = some s) :
    0 ≤ k ∧ k ≤ 18 ∧ s = 10 ^ k.toNat := by
  by_cases hk : 0 ≤ k ∧ k ≤ 18
  · refine ⟨hk.1, hk.2, ?_⟩
    have h2 := pow10At_getD_eq k
    rw [h, if_pos hk] at h2
    simpa using h2
  · have h2 := pow10At_getD_eq k
    rw [h, if_neg hk] at h2
    -- pow10At k = some s with k out of range is impossible
    exfalso
    unfold pow10At at h
    by_cases h0 : 0 ≤ k
    · rw [if_pos h0] at h
      have hlen : pow10Table.length = 19 := rfl
      have hge : 19 ≤ k.toNat := by
        by_contra hc
        exact hk ⟨h0, by omega⟩
      rw [List.getElem?_eq_none (by omega)] at h
      exact absurd h (by simp)
    · rw [if_neg h0] at h
      exact absurd h (by simp)

theorem NewFromInt_bound (x : Int) :
    minIntInFixed ≤ (NewFromInt x).fixed ∧ (NewFromInt x).fixed ≤ maxIntInFixed := by
  unfold NewFromInt
  by_cases h : x ≥ minInt ∧ x ≤ maxInt
  · rw [if_pos h]
    obtain ⟨ha, hb⟩ := h
    unfold minInt at ha
    unfold maxInt at hb
    dsimp only
    have hm : mul64 x scale = x * scale :=
      mul64_id (by unfold scale; omega) (by unfold scale; omega)
    rw [hm]
    simp only [minIntInFixed, maxIntInFixed, minInt, maxInt, scale]
    omega
  · rw [if_neg h]
    norm_num [newFromDecimal, minIntInFixed, maxIntInFixed, minInt, maxInt, scale]

theorem Add_bound {d d2 : Decimal}
    (h1 : minIntInFixed ≤ d.fixed) (h2 : d.fixed ≤ maxIntInFixed)
    (h3 : minIntInFixed ≤ d2.fixed) (h4 : d2.fixed ≤ maxIntInFixed) :
    minIntInFixed ≤ (d.Add d2).fixed ∧ (d.Add d2).fixed ≤ maxIntInFixed := by
  unfold Decimal.Add
  simp only [minIntInFixed, maxIntInFixed, minInt, maxInt, scale] at h1 h2 h3 h4
  by_cases hf : d.fallback = none ∧ d2.fallback = none
  · rw [if_pos hf]
    by_cases hp : d2.fixed > 0
    · rw [if_pos hp]
      have hs : sub64 maxIntInFixed d2.fixed = 9223372000000000000 - d2.fixed := by
        unfold maxIntInFixed maxInt scale sub64 wrap64
        rw [Int.emod_eq_of_lt (by omega) (by omega)]
        ring
      rw [hs]
      by_cases hg : d.fixed ≤ 9223372000000000000 - d2.fixed
      · rw [if_pos hg]
        have hadd : add64 d.fixed d2.fixed = d.fixed + d2.fixed :=
          add64_id (by omega) (by omega)
        dsimp only
        rw [hadd]
        simp only [minIntInFixed, maxIntInFixed, minInt, maxInt, scale]
        omega
      · rw [if_neg hg]
        norm_num [newFromDecimal, minIntInFixed, maxIntInFixed, minInt, maxInt, scale]
    · rw [if_neg hp]
      have hs : sub64 minIntInFixed d2.fixed = -9223372000000000000 - d2.fixed := by
        unfold minIntInFixed minInt scale sub64 wrap64
        rw [Int.emod_eq_of_lt (by omega) (by omega)]
        ring
      rw [hs]
      by_cases hg : d.fixed ≥ -9223372000000000000 - d2.fixed
      · rw [if_pos hg]
        have hadd : add64 d.fixed d2.fixed = d.fixed + d2.fixed :=
          add64_id (by omega) (by omega)
        dsimp only
        rw [hadd]
        simp only [minIntInFixed, maxIntInFixed, minInt, maxInt, scale]
        omega
      · rw [if_neg hg]
        norm_num [newFromDecimal, minIntInFixed, maxIntInFixed, minInt, maxInt, scale]
  · rw [if_neg hf]
    norm_num [newFromDecimal, minIntInFixed, maxIntInFixed, minInt, maxInt, scale]

theorem sub64_id {a b : Int} (h1 : -(2 ^ 63) ≤ a - b) (h2 : a - b < 2 ^ 63) :
    sub64 a b = a - b := by
  unfold sub64 wrap64
  rw [Int.emod_eq_of_lt (by omega) (by omega)]
  ring

theorem tdivP_tmodP_eq {x s : Int} : tdivP x s * s + tmodP x s = x := by
  unfold tdivP tmodP
  by_cases hx : 0 ≤ x
  · rw [if_pos hx, if_pos hx]
    have := Int.ediv_add_emod x s
    linarith
  · rw [if_neg hx, if_neg hx]
    have := Int.ediv_add_emod (-x) s
    linarith

theorem tmodP_range {x s : Int} (hs : 0 < s) :
    -s < tmodP x s ∧ tmodP x s < s ∧ (0 ≤ x → 0 ≤ tmodP x s) ∧ (x < 0 → tmodP x s ≤ 0) := by
  unfold tmodP
  by_cases hx : 0 ≤ x
  · rw [if_pos hx]
    have h1 := Int.emod_nonneg x hs.ne'
    have h2 := Int.emod_lt_of_pos x hs
    exact ⟨by omega, h2, fun _ => h1, fun hc => absurd hc (by omega)⟩
  · rw [if_neg hx]
    have h1 := Int.emod_nonneg (-x) hs.ne'
    have h2 := Int.emod_lt_of_pos (-x) hs
    exact ⟨by omega, by omega, fun hc => absurd hc hx, fun _ => by omega⟩

theorem tdivP_nonneg {x s : Int} (hx : 0 ≤ x) (hs : 0 ≤ s) : 0 ≤ tdivP x s := by
  unfold tdivP
  rw [if_pos hx]
  exact Int.ediv_nonneg hx hs

theorem tdivP_nonpos {x s : Int} (hx : x ≤ 0) (hs : 0 ≤ s) : tdivP x s ≤ 0 := by
  unfold tdivP
  by_cases h : 0 ≤ x
  · rw [if_pos h]
    have hx0 : x = 0 := by omega
    simp [hx0]
  · rw [if_neg h]
    have := Int.ediv_nonneg (a := -x) (by omega) hs
    omega

theorem roundFast_bound {fixed s : Int} (hs0 : 0 < s) (hs1 : s ≤ 1000000000000)
    (hsA : s ∣ 9223372000000000000)
    (h1 : -9223372000000000000 ≤ fixed) (h2 : fixed ≤ 9223372000000000000) :
    -9223372000000000000 ≤ (roundFast fixed s).fixed ∧
    (roundFast fixed s).fixed ≤ 9223372000000000000 := by
  obtain ⟨q, hq⟩ := hsA
  have hrel : tdivP fixed s * s + tmodP fixed s = fixed := tdivP_tmodP_eq
  obtain ⟨hmb1, hmb2, hmp, hmn⟩ := tmodP_range (x := fixed) hs0
  unfold roundFast
  set m := tmodP fixed s with hm
  set t := tdivP fixed s with ht
  by_cases hm0 : m = 0
  · rw [if_pos hm0]
    exact ⟨h1, h2⟩
  · rw [if_neg hm0]
    by_cases hmpos : m > 0
    · rw [if_pos hmpos]
      have hx0 : 0 ≤ fixed := by
        by_contra hc
        have := hmn (by omega)
        omega
      have ht0 : 0 ≤ t := tdivP_nonneg hx0 hs0.le
      have hts0 : 0 ≤ t * s := mul_nonneg ht0 hs0.le
      have htq : t < q := by
        have hlt : t * s < q * s := by
          have hqs : q * s = 9223372000000000000 := by linarith [hq]
          omega
        exact lt_of_mul_lt_mul_right hlt hs0.le
      have hup : t * s + s ≤ 9223372000000000000 := by
        have : (t + 1) * s ≤ q * s := mul_le_mul_of_nonneg_right (by omega) hs0.le
        nlinarith [hq]
      have hsub : sub64 fixed m = fixed - m := sub64_id (by omega) (by omega)
      by_cases hh : m * 2 ≥ s
      · rw [if_pos hh, hsub]
        have hadd : add64 (fixed - m) s = fixed - m + s := add64_id (by omega) (by omega)
        rw [hadd]
        dsimp only
        omega
      · rw [if_neg hh, hsub]
        dsimp only
        omega
    · rw [if_neg hmpos]
      have hmneg : m < 0 := by omega
      have hx0 : fixed < 0 := by
        by_contra hc
        have := hmp (by omega)
        omega
      have ht0 : t ≤ 0 := tdivP_nonpos (by omega) hs0.le
      have hts0 : t * s ≤ 0 := mul_nonpos_iff.mpr (Or.inr ⟨ht0, hs0.le⟩)
      have htq : -q < t := by
        have hlt : -(q * s) < t * s := by
          have hqs : q * s = 9223372000000000000 := by linarith [hq]
          omega
        have hlt2 : -q * s < t * s := by rw [neg_mul]; exact hlt
        exact lt_of_mul_lt_mul_right hlt2 hs0.le
      have hlow : -9223372000000000000 ≤ t * s - s := by
        have hmm : -q * s ≤ (t - 1) * s := mul_le_mul_of_nonneg_right (by omega) hs0.le
        rw [neg_mul] at hmm
        have hexp : (t - 1) * s = t * s - s := by ring
        rw [hexp] at hmm
        have hqs : q * s = 9223372000000000000 := by linarith [hq]
        omega
      have hsub : sub64 fixed m = fixed - m := sub64_id (by omega) (by omega)
      by_cases hh : -m * 2 ≥ s
      · rw [if_pos hh, hsub]
        have hsub2 : sub64 (fixed - m) s = fixed - m - s := sub64_id (by omega) (by omega)
        rw [hsub2]
        dsimp only
        omega
      · rw [if_neg hh, hsub]
        dsimp only
        omega

theorem Ceil_bound {d : Decimal}
    (h1 : minIntInFixed ≤ d.fixed) (h2 : d.fixed ≤ maxIntInFixed) :
    minIntInFixed ≤ d.Ceil.fixed ∧ d.Ceil.fixed ≤ maxIntInFixed := by
  unfold Decimal.Ceil
  simp only [minIntInFixed, maxIntInFixed, minInt, maxInt, scale] at h1 h2 ⊢
  by_cases hf : d.fallback = none
  · rw [if_pos hf]
    have hrel : tdivP d.fixed 1000000000000 * 1000000000000 + tmodP d.fixed 1000000000000 =
        d.fixed := tdivP_tmodP_eq
    obtain ⟨hmb1, hmb2, hmp, hmn⟩ := tmodP_range (x := d.fixed)
      (by norm_num : (0:Int) < 1000000000000)
    set m := tmodP d.fixed 1000000000000 with hm
    set t := tdivP d.fixed 1000000000000 with ht
    by_cases hm0 : m = 0
    · rw [if_pos hm0]
      exact ⟨h1, h2⟩
    · rw [if_neg hm0]
      have hsub : sub64 d.fixed m = d.fixed - m := sub64_id (by omega) (by omega)
      by_cases hmpos : m > 0
      · rw [if_pos hmpos, hsub]
        have hadd : add64 (d.fixed - m) 1000000000000 = d.fixed - m + 1000000000000 :=
          add64_id (by omega) (by omega)
        rw [hadd]
        dsimp only
        omega
      · rw [if_neg hmpos, hsub]
        dsimp only
        omega
  · rw [if_neg hf]
    norm_num [newFromDecimal]

theorem Floor_bound {d : Decimal}
    (h1 : minIntInFixed ≤ d.fixed) (h2 : d.fixed ≤ maxIntInFixed) :
    minIntInFixed ≤ d.Floor.fixed ∧ d.Floor.fixed ≤ maxIntInFixed := by
  unfold Decimal.Floor
  simp only [minIntInFixed, maxIntInFixed, minInt, maxInt, scale] at h1 h2 ⊢
  by_cases hf : d.fallback = none
  · rw [if_pos hf]
    have hrel : tdivP d.fixed 1000000000000 * 1000000000000 + tmodP d.fixed 1000000000000 =
        d.fixed := tdivP_tmodP_eq
    obtain ⟨hmb1, hmb2, hmp, hmn⟩ := tmodP_range (x := d.fixed)
      (by norm_num : (0:Int) < 1000000000000)
    set m := tmodP d.fixed 1000000000000 with hm
    set t := tdivP d.fixed 1000000000000 with ht
    by_cases hm0 : m = 0
    · rw [if_pos hm0]
      exact ⟨h1, h2⟩
    · rw [if_neg hm0]
      have hsub : sub64 d.fixed m = d.fixed - m := sub64_id (by omega) (by omega)
      by_cases hmpos : m > 0
      · rw [if_pos hmpos, hsub]
        dsimp only
        omega
      · rw [if_neg hmpos, hsub]
        have hsub2 : sub64 (d.fixed - m) 1000000000000 = d.fixed - m - 1000000000000 :=
          sub64_id (by omega) (by omega)
        rw [hsub2]
        dsimp only
        omega
  · rw [if_neg hf]
    norm_num [newFromDecimal]

theorem Round_bound {d : Decimal} (places : Int)
    (h1 : minIntInFixed ≤ d.fixed) (h2 : d.fixed ≤ maxIntInFixed) :
    minIntInFixed ≤ (d.Round places).fixed ∧ (d.Round places).fixed ≤ maxIntInFixed := by
  unfold Decimal.Round
  by_cases hf : d.fallback = none
  case neg =>
    rw [if_neg hf]
    norm_num [newFromDecimal, minIntInFixed, maxIntInFixed, minInt, maxInt, scale]
  case pos =>
    rw [if_pos hf]
    by_cases hp : places ≥ precision
    · rw [if_pos hp]
      exact ⟨h1, h2⟩
    · rw [if_neg hp]
      by_cases hp0 : places ≥ 0
      · rw [if_pos hp0]
        unfold precision at hp hp0
        simp only [minIntInFixed, maxIntInFixed, minInt, maxInt, scale] at h1 h2 ⊢
        have hk0 : 0 ≤ precision - places := by unfold precision; omega
        have hk1 : precision - places ≤ 18 := by unfold precision; omega
        rw [pow10At_getD (precision - places) hk0 hk1]
        have hkn : (precision - places).toNat ≤ 12 := by unfold precision; omega
        have hs0 : (0:Int) < 10 ^ (precision - places).toNat := pow_pos (by norm_num) _
        have hs1 : (10:Int) ^ (precision - places).toNat ≤ 1000000000000 := by
          calc (10:Int) ^ (precision - places).toNat ≤ 10 ^ 12 :=
              pow_le_pow_right₀ (by norm_num) hkn
            _ = 1000000000000 := by norm_num
        have hsA : (10:Int) ^ (precision - places).toNat ∣ 9223372000000000000 := by
          have hd : (10:Int) ^ (precision - places).toNat ∣ 10 ^ 12 :=
            pow_dvd_pow 10 hkn
          have he : (9223372000000000000 : Int) = 9223372 * 10 ^ 12 := by norm_num
          rw [he]
          exact Dvd.dvd.mul_left hd 9223372
        exact roundFast_bound hs0 hs1 hsA h1 h2
      · rw [if_neg hp0]
        norm_num [newFromDecimal, minIntInFixed, maxIntInFixed, minInt, maxInt, scale]

theorem tdivP_mul_bound {x s : Int} (hs : 0 < s) :
    (0 ≤ x → 0 ≤ tdivP x s * s ∧ tdivP x s * s ≤ x) ∧
    (x < 0 → x ≤ tdivP x s * s ∧ tdivP x s * s ≤ 0) := by
  constructor
  · intro hx
    unfold tdivP
    rw [if_pos hx]
    exact ⟨mul_nonneg (Int.ediv_nonneg hx hs.le) hs.le, Int.ediv_mul_le x hs.ne'⟩
  · intro hx
    unfold tdivP
    rw [if_neg (by omega)]
    have h1 : 0 ≤ -x / s * s := mul_nonneg (Int.ediv_nonneg (by omega) hs.le) hs.le
    have h2 : -x / s * s ≤ -x := Int.ediv_mul_le (-x) hs.ne'
    constructor <;> nlinarith

theorem Truncate_bound {d : Decimal} (p : Int) {r : Decimal}
    (h1 : minIntInFixed ≤ d.fixed) (h2 : d.fixed ≤ maxIntInFixed)
    (h : Decimal.Truncate d p = some r) :
    minIntInFixed ≤ r.fixed ∧ r.fixed ≤ maxIntInFixed := by
  unfold Decimal.Truncate at h
  by_cases hf : d.fallback = none
  · rw [if_pos hf] at h
    rcases hP : pow10At (12 - p) with _ | s
    · rw [hP] at h
      exact absurd h (by simp)
    · rw [hP] at h
      obtain ⟨hk0, hk1, hs⟩ := pow10At_some hP
      have hs0 : (0:Int) < s := by
        rw [hs]
        positivity
      have hb := tdivP_mul_bound (x := d.fixed) hs0
      simp only [minIntInFixed, maxIntInFixed, minInt, maxInt, scale] at h1 h2 ⊢
      have hv : mul64 (tdivP d.fixed s) s = tdivP d.fixed s * s := by
        rcases le_or_lt 0 d.fixed with hx | hx
        · obtain ⟨hb1, hb2⟩ := hb.1 hx
          exact mul64_id (by omega) (by omega)
        · obtain ⟨hb1, hb2⟩ := hb.2 hx
          exact mul64_id (by omega) (by omega)
      injection h with h
      subst h
      dsimp only
      rw [hv]
      rcases le_or_lt 0 d.fixed with hx | hx
      · obtain ⟨hb1, hb2⟩ := hb.1 hx
        omega
      · obtain ⟨hb1, hb2⟩ := hb.2 hx
        omega
  · rw [if_neg hf] at h
    injection h with h
    subst h
    norm_num [newFromDecimal, minIntInFixed, maxIntInFixed, minInt, maxInt, scale]



/-- C9: every fast-representation `fixed` produced by the public API
satisfies `minIntInFixed ≤ fixed ≤ maxIntInFixed`: `NewFromInt`,
`New`/`tryOptNew`, parsing via `parseFixed`, checked `Add`, the `mul`
kernel, `Round`, `Ceil`, `Floor` and `Truncate` all re-establish the
bound, and on that range the take-absolute-value negation inside the
multiply kernel is exact (never overflows `int64`). -/
theorem C9_fast_range_invariant :
    (∀ x : Int, minIntInFixed ≤ (NewFromInt x).fixed ∧ (NewFromInt x).fixed ≤ maxIntInFixed) ∧
    (∀ v e : Int,
      minIntInFixed ≤ (tryOptNew v e).1.fixed ∧ (tryOptNew v e).1.fixed ≤ maxIntInFixed) ∧
    (∀ s : List Char, minIntInFixed ≤ (parseFixed s).1 ∧ (parseFixed s).1 ≤ maxIntInFixed) ∧
    (∀ d d2 : Decimal, minIntInFixed ≤ d.fixed → d.fixed ≤ maxIntInFixed →
      minIntInFixed ≤ d2.fixed → d2.fixed ≤ maxIntInFixed →
      minIntInFixed ≤ (d.Add d2).fixed ∧ (d.Add d2).fixed ≤ maxIntInFixed) ∧
    (∀ x y : Int, minIntInFixed ≤ x → x ≤ maxIntInFixed →
      minIntInFixed ≤ y → y ≤ maxIntInFixed → (mul x y).2 = true →
      minIntInFixed ≤ (mul x y).1 ∧ (mul x y).1 ≤ maxIntInFixed) ∧
    (∀ (d : Decimal) (places : Int), minIntInFixed ≤ d.fixed → d.fixed ≤ maxIntInFixed →
      minIntInFixed ≤ (d.Round places).fixed ∧ (d.Round places).fixed ≤ maxIntInFixed) ∧
    (∀ d : Decimal, minIntInFixed ≤ d.fixed → d.fixed ≤ maxIntInFixed →
      minIntInFixed ≤ d.Ceil.fixed ∧ d.Ceil.fixed ≤ maxIntInFixed) ∧
    (∀ d : Decimal, minIntInFixed ≤ d.fixed → d.fixed ≤ maxIntInFixed →
      minIntInFixed ≤ d.Floor.fixed ∧ d.Floor.fixed ≤ maxIntInFixed) ∧
    (∀ (d : Decimal) (p : Int) (r : Decimal), minIntInFixed ≤ d.fixed → d.fixed ≤ maxIntInFixed →
      Decimal.Truncate d p = some r → minIntInFixed ≤ r.fixed ∧ r.fixed ≤ maxIntInFixed) ∧
    (∀ x : Int, minIntInFixed ≤ x → x ≤ maxIntInFixed → neg64 x = -x) := by
  refine ⟨NewFromInt_bound, tryOptNew_bound, parseFixed_bound,
    fun d d2 h1 h2 h3 h4 => Add_bound h1 h2 h3 h4,
    fun x y hx1 hx2 hy1 hy2 hok => (mul_exact hx1 hx2 hy1 hy2 hok).2,
    fun d places h1 h2 => Round_bound places h1 h2,
    fun d h1 h2 => Ceil_bound h1 h2,
    fun d h1 h2 => Floor_bound h1 h2,
    fun d p r h1 h2 h => Truncate_bound p h1 h2 h,
    fun x h1 h2 => ?_⟩
  refine neg64_id ?_ ?_ <;>
    simp only [minIntInFixed, maxIntInFixed, minInt, maxInt, scale] at h1 h2 <;> omega

/-- Witness for C9: the checked addition of `1.0` and `2.0` stays in
the fast range. -/
theorem C9_fast_range_invariant_witness :
    minIntInFixed ≤ (Decimal.Add ⟨1000000000000, none⟩ ⟨2000000000000, none⟩).fixed ∧
    (Decimal.Add ⟨1000000000000, none⟩ ⟨2000000000000, none⟩).fixed ≤ maxIntInFixed :=
  C9_fast_range_invariant.2.2.2.1 ⟨1000000000000, none⟩ ⟨2000000000000, none⟩
    (by decide) (by decide) (by decide) (by decide)


theorem pow10At_eq_some (k : Int) (h0 : 0 ≤ k) (h1 : k ≤ 18) :
    pow10At k = some (10 ^ k.toNat) := by
  interval_cases k <;> rfl

theorem tryOptNew_fast {v e : Int} (h : (tryOptNew v e).2 = true) :
    (tryOptNew v e).1.fallback = none := by
  unfold tryOptNew at h ⊢
  split_ifs at h ⊢ <;> rfl

/-- C7: arithmetic never re-narrows: when at least one operand carries a
fallback handle, `Add`, `Sub`, `Mul` and `Div` produce a
fallback-representation result, and the unary `Neg`/`Abs` of a fallback
value stays fallback — even when the numeric result would fit the fast
range; the construction-time `NewFromDecimal` is the one place a fallback
value is narrowed to fast form, which happens whenever the coefficient
fits an `int64` and `tryOptNew` accepts the coefficient/exponent pair
(in particular for every exponent in `[-12, 0]` with the coefficient in
the scaled range). -/
theorem C7_no_renarrowing :
    (∀ d d2 : Decimal, d.fallback.isSome ∨ d2.fallback.isSome →
      (d.Add d2).fallback.isSome ∧ (d.Sub d2).fallback.isSome ∧
      (d.Mul d2).fallback.isSome) ∧
    (∀ (d d2 : Decimal) (z : Int) (r : Decimal), d.fallback.isSome ∨ d2.fallback.isSome →
      Decimal.Div d d2 z = some r → r.fallback.isSome) ∧
    (∀ d : Decimal, d.fallback.isSome → d.Neg.fallback.isSome ∧ d.Abs.fallback.isSome) ∧
    (∀ sd : SDec, -(2 ^ 63) ≤ sd.value → sd.value < 2 ^ 63 →
      (tryOptNew sd.value sd.exp).2 = true →
      NewFromDecimal sd = (tryOptNew sd.value sd.exp).1 ∧
      (NewFromDecimal sd).fallback = none) ∧
    (∀ c e : Int, -12 ≤ e → e ≤ 0 →
      minInt * 10 ^ (-e).toNat ≤ c → c ≤ maxInt * 10 ^ (-e).toNat →
      (NewFromDecimal ⟨c, e⟩).fallback = none) := by
  have hformula : ∀ d d2 : Decimal, ¬(d.fallback = none ∧ d2.fallback = none) →
      (d.Add d2).fallback.isSome := by
    intro d d2 hne
    unfold Decimal.Add
    rw [if_neg hne]
    rfl
  refine ⟨?_, ?_, ?_, ?_, ?_⟩
  · intro d d2 hsome
    have hne : ¬(d.fallback = none ∧ d2.fallback = none) := by
      rcases hsome with h | h <;> simp [Option.isSome_iff_exists] at h <;>
        obtain ⟨w, hw⟩ := h <;> simp [hw]
    refine ⟨hformula d d2 hne, ?_, ?_⟩
    · unfold Decimal.Sub
      apply hformula
      intro ⟨ha, hb⟩
      apply hne
      refine ⟨ha, ?_⟩
      unfold Decimal.Neg at hb
      rcases hd2 : d2.fallback with _ | f
      · rfl
      · rw [hd2] at hb
        simp [newFromDecimal] at hb
    · unfold Decimal.Mul
      rw [if_neg (by intro ⟨ha, hb, _⟩; exact hne ⟨ha, hb⟩)]
      rfl
  · intro d d2 z r hsome h
    have hne : ¬(d.fallback = none ∧ d2.fallback = none) := by
      rcases hsome with h' | h' <;> simp [Option.isSome_iff_exists] at h' <;>
        obtain ⟨w, hw⟩ := h' <;> simp [hw]
    unfold Decimal.Div at h
    rw [if_neg (by intro ⟨ha, hb, _⟩; exact hne ⟨ha, hb⟩)] at h
    unfold Decimal.DivRound at h
    rcases hdr : SDec.divRound d.asFallback d2.asFallback DivisionPrecision with _ | sd
    · rw [hdr] at h
      exact absurd h (by simp)
    · rw [hdr] at h
      simp only [Option.map_some'] at h
      injection h with h
      subst h
      rfl
  · intro d hsome
    obtain ⟨f, hf⟩ := Option.isSome_iff_exists.mp hsome
    constructor
    · unfold Decimal.Neg
      rw [hf]
      rfl
    · unfold Decimal.Abs
      rw [hf]
      rfl
  · intro sd hlo hhi hok
    unfold NewFromDecimal
    rw [if_pos ⟨hlo, hhi⟩]
    dsimp only
    rw [if_pos hok]
    exact ⟨rfl, tryOptNew_fast hok⟩
  · intro c e he1 he2 hg1 hg2
    have hok : (tryOptNew c e).2 = true := by
      unfold tryOptNew
      rw [if_pos (by omega : e ≥ -12), if_pos he2,
          pow10At_getD (-e) (by omega) (by omega)]
      rw [if_pos ⟨hg1, hg2⟩]
    have hpe : (10:Int) ^ (-e).toNat ≤ 10 ^ 12 :=
      pow_le_pow_right₀ (by norm_num) (by omega)
    have hp0 : (0:Int) < 10 ^ (-e).toNat := pow_pos (by norm_num) _
    have hc1 : -(2 ^ 63) ≤ c := by
      have : (-9223372 : Int) * 10 ^ 12 ≤ -9223372 * 10 ^ (-e).toNat := by nlinarith
      unfold minInt at hg1
      nlinarith
    have hc2 : c < 2 ^ 63 := by
      have : (9223372 : Int) * 10 ^ (-e).toNat ≤ 9223372 * 10 ^ 12 := by nlinarith
      unfold maxInt at hg2
      nlinarith
    unfold NewFromDecimal
    rw [if_pos ⟨hc1, hc2⟩]
    dsimp only
    rw [if_pos hok]
    exact tryOptNew_fast hok

/-- Witness for C7: negating a fallback-held value keeps the fallback
representation. -/
theorem C7_no_renarrowing_witness :
    (Decimal.Neg (newFromDecimal ⟨5, 0⟩)).fallback.isSome ∧
    (Decimal.Abs (newFromDecimal ⟨5, 0⟩)).fallback.isSome :=
  C7_no_renarrowing.2.2.1 (newFromDecimal ⟨5, 0⟩) (by decide)

/-- C10: on the fast path `Truncate` indexes the 19-entry power table at
`12 - places` with no bounds check.  For `places` in `[-6, 12]` it totally
returns the value with the digits beyond that place discarded toward zero
(the result is the nearest multiple of `10^(12-places)` toward zero); for
`places > 12` or `places < -6` the index lies outside the table and the
operation panics (`none`) instead of returning a value or falling back;
for fallback-representation values every place count is delegated
safely. -/
theorem C10_truncate_table_panic :
    (∀ (d : Decimal) (p : Int), d.fallback = none → -6 ≤ p → p ≤ 12 →
      minIntInFixed ≤ d.fixed → d.fixed ≤ maxIntInFixed →
      ∃ r, Decimal.Truncate d p = some r ∧
        r.fixed = tdivP d.fixed (10 ^ (12 - p).toNat) * 10 ^ (12 - p).toNat ∧
        (10:Int) ^ (12 - p).toNat ∣ r.fixed ∧
        |r.fixed| ≤ |d.fixed| ∧ |d.fixed - r.fixed| < 10 ^ (12 - p).toNat) ∧
    (∀ (d : Decimal) (p : Int), d.fallback = none → p < -6 ∨ p > 12 →
      Decimal.Truncate d p = none) ∧
    (∀ (d : Decimal) (p : Int), d.fallback.isSome → (Decimal.Truncate d p).isSome) := by
  refine ⟨?_, ?_, ?_⟩
  · intro d p hf hp1 hp2 hr1 hr2
    unfold Decimal.Truncate
    rw [if_pos hf, pow10At_eq_some (12 - p) (by omega) (by omega)]
    refine ⟨_, rfl, ?_, ?_, ?_, ?_⟩
    · have hv : mul64 (tdivP d.fixed (10 ^ (12 - p).toNat)) (10 ^ (12 - p).toNat) =
          tdivP d.fixed (10 ^ (12 - p).toNat) * 10 ^ (12 - p).toNat := by
        have hs0 : (0:Int) < 10 ^ (12 - p).toNat := pow_pos (by norm_num) _
        have hb := tdivP_mul_bound (x := d.fixed) hs0
        simp only [minIntInFixed, maxIntInFixed, minInt, maxInt, scale] at hr1 hr2
        rcases le_or_lt 0 d.fixed with hx | hx
        · obtain ⟨hb1, hb2⟩ := hb.1 hx
          exact mul64_id (by omega) (by omega)
        · obtain ⟨hb1, hb2⟩ := hb.2 hx
          exact mul64_id (by omega) (by omega)
      exact hv
    all_goals {
      have hs0 : (0:Int) < 10 ^ (12 - p).toNat := pow_pos (by norm_num) _
      have hb := tdivP_mul_bound (x := d.fixed) hs0
      have hrel : tdivP d.fixed (10 ^ (12 - p).toNat) * 10 ^ (12 - p).toNat +
          tmodP d.fixed (10 ^ (12 - p).toNat) = d.fixed := tdivP_tmodP_eq
      obtain ⟨hm1, hm2, hm3, hm4⟩ := tmodP_range (x := d.fixed) hs0
      simp only [minIntInFixed, maxIntInFixed, minInt, maxInt, scale] at hr1 hr2
      have hv : mul64 (tdivP d.fixed (10 ^ (12 - p).toNat)) (10 ^ (12 - p).toNat) =
          tdivP d.fixed (10 ^ (12 - p).toNat) * 10 ^ (12 - p).toNat := by
        rcases le_or_lt 0 d.fixed with hx | hx
        · obtain ⟨hb1, hb2⟩ := hb.1 hx
          exact mul64_id (by omega) (by omega)
        · obtain ⟨hb1, hb2⟩ := hb.2 hx
          exact mul64_id (by omega) (by omega)
      dsimp only
      rw [hv]
      first
      | exact dvd_mul_left _ _
      | (rcases le_or_lt 0 d.fixed with hx | hx
         · obtain ⟨hb1, hb2⟩ := hb.1 hx
           rw [abs_of_nonneg hb1, abs_of_nonneg hx]
           omega
         · obtain ⟨hb1, hb2⟩ := hb.2 hx
           rw [abs_of_nonpos hb2, abs_of_nonpos hx.le]
           omega)
      | (rcases le_or_lt 0 d.fixed with hx | hx
         · obtain ⟨hb1, hb2⟩ := hb.1 hx
           rw [abs_of_nonneg (by omega : (0:Int) ≤ d.fixed - tdivP d.fixed
             (10 ^ (12 - p).toNat) * 10 ^ (12 - p).toNat)]
           omega
         · obtain ⟨hb1, hb2⟩ := hb.2 hx
           rw [abs_of_nonpos (by omega : d.fixed - tdivP d.fixed
             (10 ^ (12 - p).toNat) * 10 ^ (12 - p).toNat ≤ 0)]
           omega)
    }
  · intro d p hf hp
    unfold Decimal.Truncate
    rw [if_pos hf]
    have hnone : pow10At (12 - p) = none := by
      unfold pow10At
      rcases hp with hp | hp
      · rw [if_pos (by omega)]
        have hlen : pow10Table.length = 19 := rfl
        rw [List.getElem?_eq_none (by omega)]
      · rw [if_neg (by omega)]
    rw [hnone]
  · intro d p hsome
    unfold Decimal.Truncate
    rw [if_neg (by simp [Option.isSome_iff_exists] at hsome; obtain ⟨w, hw⟩ := hsome; simp [hw])]
    rfl

/-- Witness for C10: truncating `1.23456` to two places on the fast path. -/
theorem C10_truncate_table_panic_witness :
    ∃ r, Decimal.Truncate ⟨1234560000000, none⟩ 2 = some r ∧
      r.fixed = tdivP 1234560000000 (10 ^ (12 - 2 : Int).toNat) * 10 ^ (12 - 2 : Int).toNat ∧
      (10:Int) ^ (12 - 2 : Int).toNat ∣ r.fixed ∧
      |r.fixed| ≤ |(1234560000000 : Int)| ∧
      |(1234560000000 : Int) - r.fixed| < 10 ^ (12 - 2 : Int).toNat :=
  C10_truncate_table_panic.1 ⟨1234560000000, none⟩ 2 rfl (by decide) (by decide)
    (by decide) (by decide)


example : goStringFast 1230000000000 = "1.23".data := by decide
example : goStringFast 0 = "0".data := by decide
example : goStringFast (-1230000000000) = "-1.23".data := by decide
example : goStringFast 5 = "0.000000000005".data := by decide
example : goStringFast 9223371999999999999 = "9223371.999999999999".data := by decide
example : goStringFast (-9223372000000000000) = "-9223372".data := by decide
example : goStringFast 1000000000000000 = "1000".data := by decide
example : Decimal.String ⟨500000000000, none⟩ = "0.5".data := by decide
example : Decimal.String ⟨-1000000000000000, none⟩ = "-1000".data := by decide
example : Decimal.String ⟨1234560000000, none⟩ = "1.23456".data := by decide
example : specFixedRender 1230000000000 = "1.23".data := by decide
example : specFixedRender (-9223372000000000000) = "-9223372".data := by decide

theorem bufWriteChunk_out (l : List Char) : ∀ (buf : Int → Char) (a j : Int),
    (j < a ∨ a + l.length ≤ j) → bufWriteChunk buf a l j = buf j := by
  induction l with
  | nil => intro buf a j _; rfl
  | cons c rest ih =>
    intro buf a j h
    simp only [List.length_cons] at h
    show bufWriteChunk (bufWrite buf a c) (a + 1) rest j = buf j
    rw [ih (bufWrite buf a c) (a + 1) j (by push_cast at h ⊢; omega)]
    unfold bufWrite
    rw [if_neg (by omega)]

theorem bufWriteChunk_in (l : List Char) : ∀ (buf : Int → Char) (a : Int) (k : Nat)
    (hk : k < l.length), bufWriteChunk buf a l (a + (k : Int)) = l.get ⟨k, hk⟩ := by
  induction l with
  | nil => intro _ _ k hk; exact absurd hk (by simp)
  | cons c rest ih =>
    intro buf a k hk
    match k with
    | 0 =>
      show bufWriteChunk (bufWrite buf a c) (a + 1) rest (a + ((0:Nat) : Int)) = c
      rw [bufWriteChunk_out rest _ _ _ (by push_cast; omega)]
      unfold bufWrite
      rw [if_pos (by push_cast; ring)]
    | k + 1 =>
      show bufWriteChunk (bufWrite buf a c) (a + 1) rest (a + ((k+1 : Nat) : Int)) =
        rest.get ⟨k, by simpa using hk⟩
      have harg : a + ((k+1 : Nat) : Int) = (a + 1) + (k : Int) := by push_cast; ring
      rw [harg, ih (bufWrite buf a c) (a + 1) k (by simpa using hk)]

theorem bufWriteChunk_append (l1 l2 : List Char) : ∀ (buf : Int → Char) (a : Int),
    bufWriteChunk buf a (l1 ++ l2) =
      bufWriteChunk (bufWriteChunk buf a l1) (a + (l1.length : Int)) l2 := by
  induction l1 with
  | nil => intro buf a; simp [bufWriteChunk]
  | cons c rest ih =>
    intro buf a
    have harg : a + ((rest.length + 1 : Nat) : Int) = (a + 1) + (rest.length : Int) := by
      push_cast; ring
    show bufWriteChunk (bufWrite buf a c) (a + 1) (rest ++ l2) =
      bufWriteChunk (bufWriteChunk (bufWrite buf a c) (a + 1) rest)
        (a + ((rest.length + 1 : Nat) : Int)) l2
    rw [harg, ih]

theorem bufWrite_chunk_comm (l : List Char) : ∀ (buf : Int → Char) (a i : Int) (c : Char),
    (i < a ∨ a + (l.length : Int) ≤ i) →
    bufWriteChunk (bufWrite buf i c) a l = bufWrite (bufWriteChunk buf a l) i c := by
  induction l with
  | nil => intro buf a i c _; rfl
  | cons d rest ih =>
    intro buf a i c h
    simp only [List.length_cons] at h
    show bufWriteChunk (bufWrite (bufWrite buf i c) a d) (a + 1) rest = _
    have hw : bufWrite (bufWrite buf i c) a d = bufWrite (bufWrite buf a d) i c := by
      funext j
      unfold bufWrite
      split_ifs with h1 h2
      · exfalso; push_cast at h; omega
      · rfl
      · rfl
      · rfl
    rw [hw, ih (bufWrite buf a d) (a + 1) i c (by push_cast at h ⊢; omega)]
    show bufWrite (bufWriteChunk (bufWrite buf a d) (a+1) rest) i c =
      bufWrite (bufWriteChunk (bufWrite buf a d) (a+1) rest) i c
    rfl

theorem extractBuf_congr {buf1 buf2 : Int → Char} (a b : Int)
    (h : ∀ j, a ≤ j → j < b → buf1 j = buf2 j) :
    extractBuf buf1 a b = extractBuf buf2 a b := by
  unfold extractBuf
  apply List.map_congr_left
  intro k hk
  simp only [List.mem_range] at hk
  have h1 : a ≤ a + (k : Int) := by omega
  have h2 : a + (k : Int) < b := by omega
  exact h (a + (k : Int)) h1 h2

theorem extractBuf_chunk (l : List Char) (buf : Int → Char) (a : Int) :
    extractBuf (bufWriteChunk buf a l) a (a + (l.length : Int)) = l := by
  unfold extractBuf
  have hlen : (a + (l.length : Int) - a).toNat = l.length := by omega
  rw [hlen]
  apply List.ext_getElem
  · rw [List.length_map, List.length_range]
  · intro i h1 h2
    rw [List.getElem_map, List.getElem_range]
    have hin := bufWriteChunk_in l buf a i h2
    rw [List.get_eq_getElem] at hin
    exact hin

theorem extractBuf_split (buf : Int → Char) (a m b : Int) (h1 : a ≤ m) (h2 : m ≤ b) :
    extractBuf buf a b = extractBuf buf a m ++ extractBuf buf m b := by
  unfold extractBuf
  have hsum : (b - a).toNat = (m - a).toNat + (b - m).toNat := by omega
  rw [hsum, List.range_add, List.map_append, List.map_map]
  congr 1
  apply List.map_congr_left
  intro k _
  simp only [Function.comp]
  congr 1
  omega

theorem extractBuf_single (buf : Int → Char) (a : Int) :
    extractBuf buf a (a + 1) = [buf a] := by
  unfold extractBuf
  have h1 : (a + 1 - a).toNat = 1 := by omega
  rw [h1, show List.range 1 = [0] from rfl]
  simp

theorem digitChar_zero : digitChar 0 = '0' := by decide

theorem digitChar_ne_zero (d : Int) (h0 : 0 ≤ d) (h9 : d ≤ 9) (hne : d ≠ 0) :
    digitChar d ≠ '0' := by
  interval_cases d
  · exact absurd rfl hne
  all_goals decide


theorem natDigitsF_succ (f : Nat) (n : Int) :
    natDigitsF (f + 1) n =
      if n ≥ 10 then natDigitsF f (n / 10) ++ [digitChar (n % 10)] else [digitChar n] := rfl

theorem natDigitsF_congr : ∀ (f g : Nat) (n : Int), 0 ≤ n → n < 10 ^ f → n < 10 ^ g →
    natDigitsF (f + 1) n = natDigitsF (g + 1) n := by
  intro f
  induction f with
  | zero =>
    intro g n h0 hf _
    have h1 : (10:Int) ^ (0:Nat) = 1 := by norm_num
    rw [h1] at hf
    rw [natDigitsF_succ, natDigitsF_succ, if_neg (by omega), if_neg (by omega)]
  | succ f ih =>
    intro g n h0 hf hg
    by_cases hn : n ≥ 10
    · match g with
      | 0 =>
        exfalso
        have h1 : (10:Int) ^ (0:Nat) = 1 := by norm_num
        rw [h1] at hg
        omega
      | g + 1 =>
        rw [natDigitsF_succ (f + 1) n, natDigitsF_succ (g + 1) n, if_pos hn, if_pos hn]
        have hpf : (10:Int) ^ (f + 1) = 10 * 10 ^ f := by ring
        have hpg : (10:Int) ^ (g + 1) = 10 * 10 ^ g := by ring
        rw [hpf] at hf
        rw [hpg] at hg
        have hf1 : n / 10 < 10 ^ f := by omega
        have hg1 : n / 10 < 10 ^ g := by omega
        rw [ih g (n / 10) (by omega) hf1 hg1]
    · rw [natDigitsF_succ (f + 1) n, natDigitsF_succ g n, if_neg hn, if_neg hn]

theorem natDigits_small (n : Int) (h : ¬ n ≥ 10) : natDigits n = [digitChar n] := by
  unfold natDigits
  rw [natDigitsF_succ, if_neg h]

theorem natDigits_step (n : Int) (h10 : n ≥ 10) (h0 : 0 ≤ n) (hlt : n < 10 ^ 20) :
    natDigits n = natDigits (n / 10) ++ [digitChar (n % 10)] := by
  unfold natDigits
  rw [natDigitsF_succ, if_pos h10]
  congr 1
  have h0x : 0 ≤ n / 10 := Int.ediv_nonneg h0 (by norm_num)
  have h19 : n / 10 < 10 ^ 19 := by
    have hp : (10:Int) ^ (20:Nat) = 10 * 10 ^ (19:Nat) := by ring
    omega
  have h20x : n / 10 < 10 ^ 20 := by omega
  exact natDigitsF_congr 19 20 (n / 10) h0x h19 h20x

theorem natDigits_length_le : ∀ (k : Nat) (n : Int), 0 ≤ n → n < 10 ^ k → n < 10 ^ 20 →
    1 ≤ k → (natDigits n).length ≤ k := by
  intro k
  induction k with
  | zero => intro n _ _ _ h; omega
  | succ k ih =>
    intro n h0 hk h20 _
    by_cases hn : n ≥ 10
    · rw [natDigits_step n hn h0 h20]
      simp only [List.length_append, List.length_cons, List.length_nil]
      have hk1 : n / 10 < 10 ^ k := by
        have hp : (10:Int) ^ (k + 1) = 10 * 10 ^ k := by ring
        omega
      have h1k : 1 ≤ k := by
        by_contra hc
        have hz : k = 0 := by omega
        subst hz
        have h1 : (10:Int) ^ (1:Nat) = 10 := by norm_num
        rw [h1] at hk
        omega
      have := ih (n / 10) (by omega) hk1 (by omega) h1k
      omega
    · rw [natDigits_small n hn]
      simp

theorem natDigits_length_pos (n : Int) (h0 : 0 ≤ n) (h20 : n < 10 ^ 20) :
    1 ≤ (natDigits n).length := by
  by_cases hn : n ≥ 10
  · rw [natDigits_step n hn h0 h20]
    simp
  · rw [natDigits_small n hn]
    simp


theorem ediv_ediv_pos (a p q : Int) (hp : 0 < p) (hq : 0 < q) : a / p / q = a / (p * q) := by
  have h1 : a = p * (a / p) + a % p := (Int.ediv_add_emod a p).symm
  have h2 : a / p = q * (a / p / q) + (a / p) % q := (Int.ediv_add_emod (a / p) q).symm
  have hr1 : 0 ≤ a % p := Int.emod_nonneg a hp.ne'
  have hr2 : a % p < p := Int.emod_lt_of_pos a hp
  have hr3 : 0 ≤ (a / p) % q := Int.emod_nonneg _ hq.ne'
  have hr4 : (a / p) % q < q := Int.emod_lt_of_pos _ hq
  have key : a = (p * ((a / p) % q) + a % p) + (a / p / q) * (p * q) := by
    calc a = p * (a / p) + a % p := h1
      _ = p * (q * (a / p / q) + (a / p) % q) + a % p := by rw [← h2]
      _ = (p * ((a / p) % q) + a % p) + (a / p / q) * (p * q) := by ring
  have hq2 : (0:Int) < p * q := mul_pos hp hq
  have hbq : (a / p) % q ≤ q - 1 := by omega
  have hmul : p * ((a / p) % q) ≤ p * (q - 1) := mul_le_mul_of_nonneg_left hbq hp.le
  have hexp : p * (q - 1) = p * q - p := by ring
  have hmain : (p * ((a / p) % q) + a % p + a / p / q * (p * q)) / (p * q) =
      a / p / q := by
    have hnn : (0:Int) ≤ p * ((a / p) % q) := mul_nonneg hp.le hr3
    rw [Int.add_mul_ediv_right _ _ hq2.ne']
    rw [Int.ediv_eq_zero_of_lt (by linarith) (by linarith)]
    ring
  rw [← key] at hmain
  exact hmain.symm

theorem ediv_pow_succ (n : Int) (z : Nat) : n / 10 ^ (z + 1) = n / 10 / 10 ^ z := by
  rw [ediv_ediv_pos n 10 (10 ^ z) (by norm_num) (pow_pos (by norm_num) z)]
  congr 1
  rw [pow_succ]
  ring

theorem intDigitLoopN_succ (buf : Int → Char) (start ip : Int) (fuel : Nat) :
    intDigitLoopN buf start ip (fuel + 1) =
      if ip ≥ 10 then
        intDigitLoopN (bufWrite buf start (digitChar (tmodP ip 10))) (start - 1)
          (tdivP ip 10) fuel
      else (bufWrite buf start (digitChar ip), start) := rfl

theorem intDigitLoopN_spec : ∀ (fuel : Nat) (ip : Int) (buf : Int → Char) (start : Int),
    0 ≤ ip → ip < 10 ^ fuel → ip < 10 ^ 20 →
    intDigitLoopN buf start ip (fuel + 1) =
      (bufWriteChunk buf (start + 1 - ((natDigits ip).length : Int)) (natDigits ip),
       start + 1 - ((natDigits ip).length : Int)) := by
  intro fuel
  induction fuel with
  | zero =>
    intro ip buf start h0 hf _
    have h1 : (10:Int) ^ (0:Nat) = 1 := by norm_num
    rw [h1] at hf
    have hn : ¬ ip ≥ 10 := by omega
    rw [intDigitLoopN_succ, if_neg hn, natDigits_small ip hn]
    have e1 : start + 1 - (([digitChar ip].length : Nat) : Int) = start := by
      simp
    rw [e1]
    rfl
  | succ fuel ih =>
    intro ip buf start h0 hf h20
    rw [intDigitLoopN_succ]
    by_cases hn : ip ≥ 10
    · rw [if_pos hn, tdivP_of_nonneg h0, tmodP_of_nonneg h0]
      have hp : (10:Int) ^ (fuel + 1) = 10 * 10 ^ fuel := by ring
      have hf1 : ip / 10 < 10 ^ fuel := by omega
      have h201 : ip / 10 < 10 ^ 20 := by omega
      rw [ih (ip / 10) (bufWrite buf start (digitChar (ip % 10))) (start - 1) (by omega)
          hf1 h201]
      rw [natDigits_step ip hn h0 h20]
      have harg : start + 1 -
          (((natDigits (ip / 10) ++ [digitChar (ip % 10)]).length : Nat) : Int) =
          start - ((natDigits (ip / 10)).length : Int) := by
        simp only [List.length_append, List.length_cons, List.length_nil]
        push_cast
        ring
      have harg2 : start - 1 + 1 - ((natDigits (ip / 10)).length : Int) =
          start - ((natDigits (ip / 10)).length : Int) := by ring
      rw [harg, harg2]
      simp only [Prod.mk.injEq]
      refine ⟨?_, trivial⟩
      rw [bufWriteChunk_append]
      have hpos : start - ((natDigits (ip / 10)).length : Int) +
          ((natDigits (ip / 10)).length : Int) = start := by ring
      rw [hpos]
      exact bufWrite_chunk_comm (natDigits (ip / 10)) buf
        (start - ((natDigits (ip / 10)).length : Int)) start (digitChar (ip % 10))
        (Or.inr (by omega))
    · rw [if_neg hn, natDigits_small ip hn]
      have e1 : start + 1 - (([digitChar ip].length : Nat) : Int) = start := by
        simp
      rw [e1]
      rfl

theorem fixedDigits_succ (k : Nat) (n : Int) :
    fixedDigits (k + 1) n = fixedDigits k (n / 10) ++ [digitChar (n % 10)] := rfl

theorem fixedDigits_length : ∀ (k : Nat) (n : Int), (fixedDigits k n).length = k := by
  intro k
  induction k with
  | zero => intro n; rfl
  | succ k ih =>
    intro n
    rw [fixedDigits_succ]
    simp [ih]

theorem fracWriteLoopN_spec : ∀ (k : Nat) (fp : Int) (buf : Int → Char), 0 ≤ fp →
    fracWriteLoopN buf fp k = bufWriteChunk buf 9 (fixedDigits k fp) := by
  intro k
  induction k with
  | zero => intro fp buf _; rfl
  | succ k ih =>
    intro fp buf h0
    show fracWriteLoopN (bufWrite buf (9 + (k : Int)) (digitChar (tmodP fp 10)))
      (tdivP fp 10) k = _
    rw [tdivP_of_nonneg h0, tmodP_of_nonneg h0]
    rw [ih (fp / 10) _ (by omega)]
    rw [fixedDigits_succ, bufWriteChunk_append]
    have hL : (9:Int) + ((fixedDigits k (fp / 10)).length : Int) = 9 + (k : Int) := by
      rw [fixedDigits_length]
    rw [hL]
    exact bufWrite_chunk_comm (fixedDigits k (fp / 10)) buf 9 (9 + (k : Int))
      (digitChar (fp % 10)) (Or.inr (by rw [fixedDigits_length]))

theorem fixedDigits_of_dvd : ∀ (k : Nat) (n : Int), 0 ≤ n → ((10:Int) ^ k ∣ n) →
    fixedDigits k n = List.replicate k '0' := by
  intro k
  induction k with
  | zero => intro n _ _; rfl
  | succ k ih =>
    intro n h0 hdvd
    rw [fixedDigits_succ]
    have h10 : (10:Int) ∣ n :=
      dvd_trans (dvd_pow_self 10 (Nat.succ_ne_zero k)) hdvd
    have hmod : n % 10 = 0 := Int.emod_eq_zero_of_dvd h10
    have hdvd1 : (10:Int) ^ k ∣ n / 10 := by
      obtain ⟨c, hc⟩ := hdvd
      refine ⟨c, ?_⟩
      rw [hc, pow_succ, mul_comm ((10:Int) ^ k) 10, mul_assoc,
        Int.mul_ediv_cancel_left _ (by norm_num)]
    rw [hmod, digitChar_zero, ih (n / 10) (by omega) hdvd1]
    rw [List.replicate_succ']

theorem fixedDigits_split : ∀ (b a : Nat) (n : Int), 0 ≤ n →
    fixedDigits (a + b) n = fixedDigits a (n / 10 ^ b) ++ fixedDigits b n := by
  intro b
  induction b with
  | zero =>
    intro a n _
    show fixedDigits a n = fixedDigits a (n / 10 ^ (0:Nat)) ++ []
    rw [List.append_nil]
    norm_num
  | succ b ih =>
    intro a n h0
    show fixedDigits (a + b + 1) n = _
    rw [fixedDigits_succ, ih a (n / 10) (by omega)]
    rw [fixedDigits_succ, ← ediv_pow_succ n b, List.append_assoc]

theorem fixedDigits_pad : ∀ (k : Nat) (n : Int), 0 < n → n < 10 ^ k → n < 10 ^ 20 →
    fixedDigits k n = List.replicate (k - (natDigits n).length) '0' ++ natDigits n := by
  intro k
  induction k with
  | zero =>
    intro n h0 hk _
    have h1 : (10:Int) ^ (0:Nat) = 1 := by norm_num
    rw [h1] at hk
    omega
  | succ k ih =>
    intro n h0 hk h20
    rw [fixedDigits_succ]
    by_cases hn : n ≥ 10
    · have hp : (10:Int) ^ (k + 1) = 10 * 10 ^ k := by ring
      have hk1 : n / 10 < 10 ^ k := by omega
      rw [ih (n / 10) (by omega) hk1 (by omega)]
      rw [natDigits_step n hn (by omega) h20]
      have hL : (natDigits (n / 10) ++ [digitChar (n % 10)]).length =
          (natDigits (n / 10)).length + 1 := by simp
      rw [hL]
      have he : k + 1 - ((natDigits (n / 10)).length + 1) =
          k - (natDigits (n / 10)).length := by omega
      rw [he, ← List.append_assoc]
    · have h1 : n / 10 = 0 := by omega
      have h2 : n % 10 = n := by omega
      rw [h1, h2, fixedDigits_of_dvd k 0 le_rfl (dvd_zero _), natDigits_small n hn]
      have he : k + 1 - ([digitChar n].length) = k := by simp
      rw [he]


theorem tzerosF_succ (fuel : Nat) (n : Int) :
    tzerosF (fuel + 1) n =
      if 0 < n ∧ n % 10 = 0 then tzerosF fuel (n / 10) + 1 else 0 := rfl

theorem tzerosF_congr : ∀ (f g : Nat) (n : Int), 0 ≤ n → n < 10 ^ f → n < 10 ^ g →
    tzerosF (f + 1) n = tzerosF (g + 1) n := by
  intro f
  induction f with
  | zero =>
    intro g n h0 hf _
    have h1 : (10:Int) ^ (0:Nat) = 1 := by norm_num
    rw [h1] at hf
    have hz : n = 0 := by omega
    subst hz
    rw [tzerosF_succ, tzerosF_succ, if_neg (by norm_num), if_neg (by norm_num)]
  | succ f ih =>
    intro g n h0 hf hg
    by_cases hc : 0 < n ∧ n % 10 = 0
    · have hn : n ≥ 10 := by omega
      match g with
      | 0 =>
        exfalso
        have h1 : (10:Int) ^ (0:Nat) = 1 := by norm_num
        rw [h1] at hg
        omega
      | g + 1 =>
        rw [tzerosF_succ (f + 1) n, tzerosF_succ (g + 1) n, if_pos hc, if_pos hc]
        have hpf : (10:Int) ^ (f + 1) = 10 * 10 ^ f := by ring
        have hpg : (10:Int) ^ (g + 1) = 10 * 10 ^ g := by ring
        have hf1 : n / 10 < 10 ^ f := by omega
        have hg1 : n / 10 < 10 ^ g := by omega
        rw [ih g (n / 10) (by omega) hf1 hg1]
    · rw [tzerosF_succ (f + 1) n, tzerosF_succ g n, if_neg hc, if_neg hc]

theorem tzeros_step (n : Int) (hc : 0 < n ∧ n % 10 = 0) (h20 : n < 10 ^ 20) :
    tzeros n = tzeros (n / 10) + 1 := by
  unfold tzeros
  rw [tzerosF_succ, if_pos hc]
  congr 1
  have h19 : n / 10 < 10 ^ 19 := by
    have hp : (10:Int) ^ (20:Nat) = 10 * 10 ^ (19:Nat) := by ring
    omega
  exact tzerosF_congr 19 20 (n / 10) (by omega) h19 (by omega)

theorem tzeros_base (n : Int) (hc : ¬ (0 < n ∧ n % 10 = 0)) : tzeros n = 0 := by
  unfold tzeros
  rw [tzerosF_succ, if_neg hc]

theorem tzeros_facts : ∀ (k : Nat) (n : Int), 0 < n → n < 10 ^ k → n < 10 ^ 20 →
    tzeros n < k ∧ (n / 10 ^ tzeros n) % 10 ≠ 0 ∧ ((10:Int) ^ tzeros n ∣ n) ∧
      0 < n / 10 ^ tzeros n := by
  intro k
  induction k with
  | zero =>
    intro n h0 hk _
    have h1 : (10:Int) ^ (0:Nat) = 1 := by norm_num
    rw [h1] at hk
    omega
  | succ k ih =>
    intro n h0 hk h20
    by_cases hc : 0 < n ∧ n % 10 = 0
    · rw [tzeros_step n hc h20]
      have hp : (10:Int) ^ (k + 1) = 10 * 10 ^ k := by ring
      have hk1 : n / 10 < 10 ^ k := by omega
      have h01 : 0 < n / 10 := by omega
      obtain ⟨ih1, ih2, ih3, ih4⟩ := ih (n / 10) h01 hk1 (by omega)
      refine ⟨by omega, ?_, ?_, ?_⟩
      · rw [ediv_pow_succ n (tzeros (n / 10))]
        exact ih2
      · obtain ⟨c, hcc⟩ := ih3
        refine ⟨c, ?_⟩
        rw [pow_succ]
        calc n = 10 * (n / 10) := by omega
          _ = 10 * (10 ^ tzeros (n / 10) * c) := congrArg (fun t => 10 * t) hcc
          _ = 10 ^ tzeros (n / 10) * 10 * c := by ring
      · rw [ediv_pow_succ n (tzeros (n / 10))]
        exact ih4
    · rw [tzeros_base n hc]
      have hd : n % 10 ≠ 0 := fun h => hc ⟨h0, h⟩
      refine ⟨by omega, ?_, ?_, ?_⟩
      · simpa using hd
      · simp
      · simpa using h0

theorem fracScanLoopN_succ (buf : Int → Char) (fp : Int) (k : Nat) :
    fracScanLoopN buf fp (k + 1) =
      if tmodP fp 10 ≠ 0 then
        (fracWriteLoopN (bufWrite buf (8 + (k : Int) + 1) (digitChar (tmodP fp 10)))
          (tdivP fp 10) k,
         8 + (k : Int) + 1 + 1)
      else fracScanLoopN buf (tdivP fp 10) k := rfl

theorem fracScanLoopN_spec : ∀ (k : Nat) (fp : Int) (buf : Int → Char), 0 < fp →
    fp < 10 ^ k → fp < 10 ^ 20 →
    fracScanLoopN buf fp k =
      (bufWriteChunk buf 9 (fixedDigits (k - tzeros fp) (fp / 10 ^ tzeros fp)),
       9 + ((k : Int) - (tzeros fp : Int))) := by
  intro k
  induction k with
  | zero =>
    intro fp buf h0 hk h20
    have h1 : (10:Int) ^ (0:Nat) = 1 := by norm_num
    rw [h1] at hk
    omega
  | succ k ih =>
    intro fp buf h0 hk h20
    rw [fracScanLoopN_succ, tmodP_of_nonneg (by omega), tdivP_of_nonneg (by omega)]
    by_cases hd : fp % 10 = 0
    · rw [if_neg (by simpa using hd)]
      have hstep := tzeros_step fp ⟨h0, hd⟩ h20
      have hp : (10:Int) ^ (k + 1) = 10 * 10 ^ k := by ring
      have h01 : 0 < fp / 10 := by omega
      have hk1 : fp / 10 < 10 ^ k := by omega
      rw [ih (fp / 10) buf h01 hk1 (by omega), hstep]
      have e1 : k + 1 - (tzeros (fp / 10) + 1) = k - tzeros (fp / 10) := by omega
      rw [e1, ediv_pow_succ fp (tzeros (fp / 10))]
      simp only [Prod.mk.injEq]
      refine ⟨trivial, ?_⟩
      push_cast
      ring
    · rw [if_pos hd]
      have hz : tzeros fp = 0 := tzeros_base fp (fun hcc => hd hcc.2)
      rw [hz]
      rw [fracWriteLoopN_spec k (fp / 10) _ (by omega)]
      simp only [Nat.sub_zero, pow_zero, Int.ediv_one, Nat.cast_zero, sub_zero]
      rw [fixedDigits_succ, bufWriteChunk_append]
      have hL : (9:Int) + ((fixedDigits k (fp / 10)).length : Int) = 8 + (k : Int) + 1 := by
        rw [fixedDigits_length]
        push_cast
        ring
      rw [hL]
      simp only [Prod.mk.injEq]
      constructor
      · exact bufWrite_chunk_comm (fixedDigits k (fp / 10)) buf 9 (8 + (k : Int) + 1)
          (digitChar (fp % 10)) (Or.inr (by rw [fixedDigits_length]; push_cast; omega))
      · push_cast
        ring


theorem bufWrite_self (buf : Int → Char) (i : Int) (c : Char) : bufWrite buf i c i = c := by
  unfold bufWrite
  rw [if_pos rfl]

theorem bufWrite_ne {buf : Int → Char} {i : Int} {c : Char} {j : Int} (h : j ≠ i) :
    bufWrite buf i c j = buf j := by
  unfold bufWrite
  rw [if_neg h]

theorem extractBuf_ext {buf1 buf2 : Int → Char} {a b : Int}
    (h : ∀ j, a ≤ j → j < b → buf1 j = buf2 j) :
    extractBuf buf1 a b = extractBuf buf2 a b := by
  unfold extractBuf
  apply List.map_congr_left
  intro k hk
  simp only [List.mem_range] at hk
  have h1 : a ≤ a + (k : Int) := by omega
  have h2 : a + (k : Int) < b := by omega
  exact h (a + (k : Int)) h1 h2

theorem extractBuf_chunk_of (l : List Char) (buf : Int → Char) (a b : Int)
    (h : b = a + (l.length : Int)) : extractBuf (bufWriteChunk buf a l) a b = l := by
  rw [h]
  exact extractBuf_chunk l buf a

theorem extractBuf_single_of (buf : Int → Char) (a b : Int) (h : b = a + 1) :
    extractBuf buf a b = [buf a] := by
  rw [h]
  exact extractBuf_single buf a

/-- Slice of the buffer after the integer digits alone: the digit list. -/
theorem extract_plain (D : List Char) (b0 : Int → Char) :
    extractBuf (bufWriteChunk b0 (8 - (D.length : Int)) D) (8 - (D.length : Int)) 8 = D :=
  extractBuf_chunk_of D b0 _ 8 (by ring)

/-- Slice after integer digits and the sign. -/
theorem extract_sign (D : List Char) (b0 : Int → Char) :
    extractBuf
      (bufWrite (bufWriteChunk b0 (8 - (D.length : Int)) D) (8 - (D.length : Int) - 1) '-')
      (8 - (D.length : Int) - 1) 8 = '-' :: D := by
  rw [extractBuf_split _ (8 - (D.length : Int) - 1) (8 - (D.length : Int)) 8
    (by omega) (by omega)]
  have h1 : extractBuf
      (bufWrite (bufWriteChunk b0 (8 - (D.length : Int)) D) (8 - (D.length : Int) - 1) '-')
      (8 - (D.length : Int) - 1) (8 - (D.length : Int)) = ['-'] := by
    rw [extractBuf_single_of _ _ _ (by ring), bufWrite_self]
  have h2 : extractBuf
      (bufWrite (bufWriteChunk b0 (8 - (D.length : Int)) D) (8 - (D.length : Int) - 1) '-')
      (8 - (D.length : Int)) 8 = D := by
    have hx : extractBuf
        (bufWrite (bufWriteChunk b0 (8 - (D.length : Int)) D) (8 - (D.length : Int) - 1) '-')
        (8 - (D.length : Int)) 8 =
        extractBuf (bufWriteChunk b0 (8 - (D.length : Int)) D) (8 - (D.length : Int)) 8 :=
      extractBuf_ext (fun j hj1 hj2 => bufWrite_ne (by omega))
    rw [hx]
    exact extract_plain D b0
  rw [h1, h2]
  rfl

/-- Slice after integer digits, the dot, and the fractional digits. -/
theorem extract_frac (D FL : List Char) (b0 : Int → Char) :
    extractBuf
      (bufWriteChunk (bufWrite (bufWriteChunk b0 (8 - (D.length : Int)) D) 8 '.') 9 FL)
      (8 - (D.length : Int)) (9 + (FL.length : Int)) = D ++ '.' :: FL := by
  rw [extractBuf_split _ (8 - (D.length : Int)) 8 (9 + (FL.length : Int))
    (by omega) (by omega)]
  rw [extractBuf_split _ 8 9 (9 + (FL.length : Int)) (by omega) (by omega)]
  have h2 : extractBuf
      (bufWriteChunk (bufWrite (bufWriteChunk b0 (8 - (D.length : Int)) D) 8 '.') 9 FL)
      (8 - (D.length : Int)) 8 = D := by
    have hx : extractBuf
        (bufWriteChunk (bufWrite (bufWriteChunk b0 (8 - (D.length : Int)) D) 8 '.') 9 FL)
        (8 - (D.length : Int)) 8 =
        extractBuf (bufWrite (bufWriteChunk b0 (8 - (D.length : Int)) D) 8 '.')
          (8 - (D.length : Int)) 8 :=
      extractBuf_ext (fun j hj1 hj2 => bufWriteChunk_out FL _ 9 j (Or.inl (by omega)))
    have hy : extractBuf (bufWrite (bufWriteChunk b0 (8 - (D.length : Int)) D) 8 '.')
        (8 - (D.length : Int)) 8 =
        extractBuf (bufWriteChunk b0 (8 - (D.length : Int)) D) (8 - (D.length : Int)) 8 :=
      extractBuf_ext (fun j hj1 hj2 => bufWrite_ne (by omega))
    rw [hx, hy]
    exact extract_plain D b0
  have h3 : extractBuf
      (bufWriteChunk (bufWrite (bufWriteChunk b0 (8 - (D.length : Int)) D) 8 '.') 9 FL)
      8 9 = ['.'] := by
    rw [extractBuf_single_of _ _ _ (by ring)]
    rw [bufWriteChunk_out FL _ 9 8 (Or.inl (by omega)), bufWrite_self]
  have h4 : extractBuf
      (bufWriteChunk (bufWrite (bufWriteChunk b0 (8 - (D.length : Int)) D) 8 '.') 9 FL)
      9 (9 + (FL.length : Int)) = FL :=
    extractBuf_chunk_of FL _ 9 _ rfl
  rw [h2, h3, h4]
  rfl

/-- Slice after integer digits, dot, fractional digits, and the sign. -/
theorem extract_sign_frac (D FL : List Char) (b0 : Int → Char) :
    extractBuf
      (bufWrite
        (bufWriteChunk (bufWrite (bufWriteChunk b0 (8 - (D.length : Int)) D) 8 '.') 9 FL)
        (8 - (D.length : Int) - 1) '-')
      (8 - (D.length : Int) - 1) (9 + (FL.length : Int)) = '-' :: (D ++ '.' :: FL) := by
  rw [extractBuf_split _ (8 - (D.length : Int) - 1) (8 - (D.length : Int))
    (9 + (FL.length : Int)) (by omega) (by omega)]
  have h1 : extractBuf
      (bufWrite
        (bufWriteChunk (bufWrite (bufWriteChunk b0 (8 - (D.length : Int)) D) 8 '.') 9 FL)
        (8 - (D.length : Int) - 1) '-')
      (8 - (D.length : Int) - 1) (8 - (D.length : Int)) = ['-'] := by
    rw [extractBuf_single_of _ _ _ (by ring), bufWrite_self]
  have h2 : extractBuf
      (bufWrite
        (bufWriteChunk (bufWrite (bufWriteChunk b0 (8 - (D.length : Int)) D) 8 '.') 9 FL)
        (8 - (D.length : Int) - 1) '-')
      (8 - (D.length : Int)) (9 + (FL.length : Int)) = D ++ '.' :: FL := by
    have hx : extractBuf
        (bufWrite
          (bufWriteChunk (bufWrite (bufWriteChunk b0 (8 - (D.length : Int)) D) 8 '.') 9 FL)
          (8 - (D.length : Int) - 1) '-')
        (8 - (D.length : Int)) (9 + (FL.length : Int)) =
        extractBuf
          (bufWriteChunk (bufWrite (bufWriteChunk b0 (8 - (D.length : Int)) D) 8 '.') 9 FL)
          (8 - (D.length : Int)) (9 + (FL.length : Int)) :=
      extractBuf_ext (fun j hj1 hj2 => bufWrite_ne (by omega))
    rw [hx]
    exact extract_frac D FL b0
  rw [h1, h2]
  rfl


/-- The buffer formatter body produces: optional sign, then the integer
digits of `u / scale`, then (when the fractional part is nonzero) a dot
and the fractional digits with trailing zeros removed. -/
theorem goStringAux_eq (fixed u : Int) (h0 : 0 ≤ u) (hu : u ≤ 9223372000000000000) :
    goStringAux fixed u =
      (if fixed < 0 then ['-'] else []) ++ natDigits (u / scale) ++
      (if u % scale = 0 then []
       else '.' :: fixedDigits (12 - tzeros (u % scale))
         (u % scale / 10 ^ tzeros (u % scale))) := by
  have hsc : scale = 1000000000000 := rfl
  have hp7 : (10:Int) ^ (7:Nat) = 10000000 := by norm_num
  have hp12 : (10:Int) ^ (12:Nat) = 1000000000000 := by norm_num
  have hp20 : (10:Int) ^ (20:Nat) = 100000000000000000000 := by norm_num
  have hI0 : 0 ≤ u / scale := by rw [hsc]; omega
  have hIlt7 : u / scale < 10 ^ 7 := by rw [hsc]; omega
  have hIlt20 : u / scale < 10 ^ 20 := by rw [hsc]; omega
  have hL1 : 1 ≤ (natDigits (u / scale)).length := natDigits_length_pos _ hI0 hIlt20
  have hL7 : (natDigits (u / scale)).length ≤ 7 :=
    natDigits_length_le 7 _ hI0 hIlt7 hIlt20 (by norm_num)
  have hFnn : 0 ≤ u % scale := by rw [hsc]; omega
  have hfst : intPartRes u =
      (bufWriteChunk bufInit (8 - ((natDigits (u / scale)).length : Int))
        (natDigits (u / scale)),
       8 - ((natDigits (u / scale)).length : Int)) := by
    unfold intPartRes
    by_cases hI : u / scale = 0
    · rw [if_pos hI, hI]
      rw [natDigits_small 0 (by norm_num), digitChar_zero]
      have e1 : (8:Int) - (([('0' : Char)].length : Nat) : Int) = 7 := by norm_num
      rw [e1]
      rfl
    · rw [if_neg hI]
      have hspec := intDigitLoopN_spec 20 (u / scale) bufInit 7 hI0 hIlt20 hIlt20
      have e1 : (7:Int) + 1 - ((natDigits (u / scale)).length : Int) =
          8 - ((natDigits (u / scale)).length : Int) := by ring
      rw [e1] at hspec
      exact hspec
  unfold goStringAux
  rw [hfst]
  dsimp only
  by_cases hF : u % scale = 0
  · have hsnd : fracPartRes
        (bufWriteChunk bufInit (8 - ((natDigits (u / scale)).length : Int))
          (natDigits (u / scale))) u =
        (bufWriteChunk bufInit (8 - ((natDigits (u / scale)).length : Int))
          (natDigits (u / scale)), 8) := by
      unfold fracPartRes
      rw [if_neg (by omega)]
    rw [hsnd]
    dsimp only
    rw [if_pos hF]
    rw [List.append_nil]
    by_cases hneg : fixed < 0
    · simp only [if_pos hneg]
      exact extract_sign (natDigits (u / scale)) bufInit
    · simp only [if_neg hneg]
      rw [List.nil_append]
      exact extract_plain (natDigits (u / scale)) bufInit
  · have hFpos : 0 < u % scale := by omega
    have hF12 : u % scale < 10 ^ 12 := by rw [hp12, hsc]; omega
    have hF20 : u % scale < 10 ^ 20 := by rw [hp20, hsc]; omega
    obtain ⟨hz12, hznz, hzdvd, hzpos⟩ := tzeros_facts 12 (u % scale) hFpos hF12 hF20
    have hsnd : fracPartRes
        (bufWriteChunk bufInit (8 - ((natDigits (u / scale)).length : Int))
          (natDigits (u / scale))) u =
        (bufWriteChunk
          (bufWrite
            (bufWriteChunk bufInit (8 - ((natDigits (u / scale)).length : Int))
              (natDigits (u / scale))) 8 '.') 9
          (fixedDigits (12 - tzeros (u % scale)) (u % scale / 10 ^ tzeros (u % scale))),
         9 + ((12:Int) - (tzeros (u % scale) : Int))) := by
      unfold fracPartRes
      rw [if_pos (by omega)]
      exact fracScanLoopN_spec 12 (u % scale) _ hFpos hF12 hF20
    rw [hsnd]
    dsimp only
    rw [if_neg hF]
    have hfl : (((fixedDigits (12 - tzeros (u % scale))
        (u % scale / 10 ^ tzeros (u % scale))).length : Nat) : Int) =
        (12:Int) - (tzeros (u % scale) : Int) := by
      rw [fixedDigits_length]
      omega
    rw [← hfl]
    by_cases hneg : fixed < 0
    · simp only [if_pos hneg]
      exact extract_sign_frac (natDigits (u / scale)) _ bufInit
    · simp only [if_neg hneg]
      rw [List.nil_append]
      exact extract_frac (natDigits (u / scale)) _ bufInit


theorem dropWhile_replicate_zero (z : Nat) (l : List Char) :
    List.dropWhile (fun c => c = '0') (List.replicate z '0' ++ l) =
      List.dropWhile (fun c => c = '0') l := by
  induction z with
  | zero => rfl
  | succ z ih =>
    rw [List.replicate_succ, List.cons_append, List.dropWhile_cons]
    rw [if_pos (by decide)]
    exact ih

/-- Trailing-zero trimming of a digit string that ends with a nonzero
digit followed by `z` zeros recovers the digit string. -/
theorem trim_canonical (A : List Char) (d : Char) (z : Nat) (hd : ¬ (d = '0')) :
    trimTrailingZeros ((A ++ [d]) ++ List.replicate z '0') = A ++ [d] := by
  unfold trimTrailingZeros
  rw [List.reverse_append, List.reverse_append, List.reverse_replicate]
  rw [dropWhile_replicate_zero]
  rw [List.reverse_singleton, List.singleton_append]
  rw [List.dropWhile_cons, if_neg (by simpa using hd)]
  rw [List.reverse_cons, List.reverse_reverse]

/-- The reference rendering of the fractional digits (12-digit pad, then
trailing zeros trimmed) equals what the buffer formatter writes. -/
theorem trim_pad_eq (F : Int) (hF0 : 0 < F) (hF12 : F < 10 ^ 12) (hF20 : F < 10 ^ 20) :
    trimTrailingZeros (pad12 (natDigits F)) =
      fixedDigits (12 - tzeros F) (F / 10 ^ tzeros F) := by
  obtain ⟨hz12, hznz, hzdvd, hzpos⟩ := tzeros_facts 12 F hF0 hF12 hF20
  have hpadeq : pad12 (natDigits F) = fixedDigits 12 F := by
    unfold pad12
    rw [fixedDigits_pad 12 F hF0 hF12 hF20]
  rw [hpadeq]
  have hsplit := fixedDigits_split (tzeros F) (12 - tzeros F) F (by omega)
  have h12 : (12 - tzeros F) + tzeros F = 12 := by omega
  rw [h12] at hsplit
  rw [hsplit, fixedDigits_of_dvd (tzeros F) F (by omega) hzdvd]
  have hm : 12 - tzeros F = (11 - tzeros F) + 1 := by omega
  rw [hm, fixedDigits_succ]
  have hq1 : 0 ≤ F / 10 ^ tzeros F % 10 := by omega
  have hq2 : F / 10 ^ tzeros F % 10 ≤ 9 := by omega
  exact trim_canonical _ _ _ (digitChar_ne_zero _ hq1 hq2 hznz)

/-- On the fast range the `uint64` conversion inside `String` computes
the absolute value exactly. -/
theorem ufixed_abs (f : Int) (hmin : -9223372000000000000 ≤ f)
    (hmax : f ≤ 9223372000000000000) :
    (if 0 ≤ f then f else neg64 f) % 2 ^ 64 = |f| := by
  by_cases hf : 0 ≤ f
  · rw [if_pos hf, abs_of_nonneg hf]
    omega
  · rw [if_neg hf, abs_of_neg (by omega)]
    unfold neg64 wrap64
    omega

/-- `Decimal.String` on a fast value equals the reference rendering of
`fixed * 10^-12`. -/
theorem String_fast_spec (f : Int) (hmin : -9223372000000000000 ≤ f)
    (hmax : f ≤ 9223372000000000000) :
    Decimal.String ⟨f, none⟩ = specFixedRender f := by
  have hsc : scale = 1000000000000 := rfl
  show (if f ≤ a1000InFixed ∧ f ≥ aNeg1000InFixed ∧ tmodP f aCentInFixed = 0 then
      stringCache (tdivP f aCentInFixed + 100000)
    else goStringFast f) = specFixedRender f
  by_cases hcache : f ≤ a1000InFixed ∧ f ≥ aNeg1000InFixed ∧ tmodP f aCentInFixed = 0
  · rw [if_pos hcache]
    obtain ⟨hc1, hc2, hc3⟩ := hcache
    unfold stringCache
    have hdiv : tdivP f aCentInFixed + 100000 - 100000 = tdivP f aCentInFixed := by ring
    rw [hdiv]
    have hexact : tdivP f aCentInFixed * 10000000000 = f := by
      unfold tdivP aCentInFixed
      unfold tmodP aCentInFixed at hc3
      by_cases hf : 0 ≤ f
      · rw [if_pos hf]
        rw [if_pos hf] at hc3
        omega
      · rw [if_neg hf]
        rw [if_neg hf] at hc3
        omega
    rw [hexact]
  · rw [if_neg hcache]
    unfold goStringFast
    rw [ufixed_abs f hmin hmax]
    rw [goStringAux_eq f |f| (abs_nonneg f) (abs_le.mpr ⟨hmin, hmax⟩)]
    unfold specFixedRender
    simp only [hsc]
    have habs2 : |f| ≤ 9223372000000000000 := (abs_le.mpr ⟨hmin, hmax⟩)
    have habs0 : 0 ≤ |f| := abs_nonneg f
    by_cases hF : |f| % 1000000000000 = 0
    · rw [hF]
      rw [if_pos rfl]
      have hdec : trimTrailingZeros (pad12 (natDigits (0:Int))) = [] := by decide
      rw [if_pos hdec]
    · rw [if_neg hF]
      have hFpos : 0 < |f| % 1000000000000 := by omega
      have hF12 : |f| % 1000000000000 < 10 ^ 12 := by norm_num; omega
      have hF20 : |f| % 1000000000000 < 10 ^ 20 := by norm_num; omega
      have hbr := trim_pad_eq (|f| % 1000000000000) hFpos hF12 hF20
      rw [hbr]
      have hne : fixedDigits (12 - tzeros (|f| % 1000000000000))
          (|f| % 1000000000000 / 10 ^ tzeros (|f| % 1000000000000)) ≠ [] := by
        intro hnil
        have hl := fixedDigits_length (12 - tzeros (|f| % 1000000000000))
          (|f| % 1000000000000 / 10 ^ tzeros (|f| % 1000000000000))
        rw [hnil] at hl
        obtain ⟨hz12, _, _, _⟩ := tzeros_facts 12 (|f| % 1000000000000) hFpos hF12 hF20
        simp at hl
        omega
      rw [if_neg hne]



/-- C4: for every fixed value of the fast range, `Decimal.String` produces
byte-for-byte the reference engine's default rendering of the value
`fixed * 10^-12` — minus sign, integer digits, and, when the 12-digit
fractional part is nonzero, a dot followed by the fractional digits with
trailing zeros trimmed (`specFixedRender`, modelled from the spec's
description of `decimal.New(fixed, -12).String()`). -/
theorem C4_string_matches_fallback_render (f : Int)
    (hmin : minIntInFixed ≤ f) (hmax : f ≤ maxIntInFixed) :
    Decimal.String ⟨f, none⟩ = specFixedRender f := by
  have h1 : -9223372000000000000 ≤ f := by
    simp only [minIntInFixed, minInt, scale] at hmin
    omega
  have h2 : f ≤ 9223372000000000000 := by
    simp only [maxIntInFixed, maxInt, scale] at hmax
    omega
  exact String_fast_spec f h1 h2

/-- Witness for C4 at 1.23456 (a value outside the string cache, so the
buffer formatter itself runs). -/
theorem C4_string_matches_fallback_render_witness :
    minIntInFixed ≤ 1234560000000 ∧ (1234560000000:Int) ≤ maxIntInFixed ∧
    Decimal.String ⟨1234560000000, none⟩ = specFixedRender 1234560000000 :=
  ⟨by decide, by decide,
   C4_string_matches_fallback_render 1234560000000 (by decide) (by decide)⟩


example : parseFixed "9223372".data = (0, false) := by decide
example : parseFixed "-9223372".data = (0, false) := by decide
example : parseFixed (Decimal.String ⟨-1230000000000, none⟩) = (-1230000000000, true) := by
  decide
example : parseFixed (Decimal.String ⟨9223371999999999999, none⟩) =
    (9223371999999999999, true) := by decide
example : (parseFixed "+1".data).2 = true ∧
    Decimal.String ⟨(parseFixed "+1".data).1, none⟩ = "1".data := by decide


theorem digitChar_toNat (d : Int) (h0 : 0 ≤ d) (h9 : d ≤ 9) :
    (((digitChar d).toNat : Nat) : Int) = d + 48 := by
  interval_cases d <;> decide

theorem digitChar_digit (d : Int) (h0 : 0 ≤ d) (h9 : d ≤ 9) :
    '0' ≤ digitChar d ∧ digitChar d ≤ '9' := by
  interval_cases d <;> decide

theorem digit_ne_quote {c : Char} (h : '0' ≤ c) : c ≠ '"' := by
  intro he
  subst he
  exact absurd h (by decide)

theorem digit_ne_dot {c : Char} (h : '0' ≤ c) : c ≠ '.' := by
  intro he
  subst he
  exact absurd h (by decide)

theorem digit_ne_plus {c : Char} (h : '0' ≤ c) : c ≠ '+' := by
  intro he
  subst he
  exact absurd h (by decide)

theorem digit_ne_minus {c : Char} (h : '0' ≤ c) : c ≠ '-' := by
  intro he
  subst he
  exact absurd h (by decide)

theorem natDigits_all_digits : ∀ (k : Nat) (n : Int), 0 ≤ n → n < 10 ^ k → n < 10 ^ 20 →
    ∀ c ∈ natDigits n, '0' ≤ c ∧ c ≤ '9' := by
  intro k
  induction k with
  | zero =>
    intro n h0 hk _
    have h1 : (10:Int) ^ (0:Nat) = 1 := by norm_num
    rw [h1] at hk
    have hz : n = 0 := by omega
    subst hz
    intro c hc
    rw [natDigits_small 0 (by norm_num), List.mem_singleton] at hc
    subst hc
    decide
  | succ k ih =>
    intro n h0 hk h20 c hc
    by_cases hn : n ≥ 10
    · rw [natDigits_step n hn h0 h20] at hc
      rcases List.mem_append.mp hc with hc1 | hc2
      · have hp : (10:Int) ^ (k + 1) = 10 * 10 ^ k := by ring
        exact ih (n / 10) (by omega) (by omega) (by omega) c hc1
      · rw [List.mem_singleton] at hc2
        subst hc2
        exact digitChar_digit (n % 10) (by omega) (by omega)
    · rw [natDigits_small n hn, List.mem_singleton] at hc
      subst hc
      exact digitChar_digit n h0 (by omega)

theorem fixedDigits_all_digits : ∀ (k : Nat) (n : Int),
    ∀ c ∈ fixedDigits k n, '0' ≤ c ∧ c ≤ '9' := by
  intro k
  induction k with
  | zero => intro n c hc; exact absurd hc (by simp [fixedDigits])
  | succ k ih =>
    intro n c hc
    rw [fixedDigits_succ] at hc
    rcases List.mem_append.mp hc with hc1 | hc2
    · exact ih (n / 10) c hc1
    · rw [List.mem_singleton] at hc2
      subst hc2
      exact digitChar_digit (n % 10) (by omega) (by omega)

theorem foldl_step_shift : ∀ (L : List Char) (acc : Int),
    List.foldl (fun a c => a * 10 + ((c.toNat : Int) - 48)) acc L =
      acc * 10 ^ L.length +
        List.foldl (fun a c => a * 10 + ((c.toNat : Int) - 48)) 0 L := by
  intro L
  induction L with
  | nil => intro acc; simp
  | cons c L ih =>
    intro acc
    simp only [List.foldl_cons, List.length_cons]
    rw [ih (acc * 10 + ((c.toNat : Int) - 48)), ih (0 * 10 + ((c.toNat : Int) - 48))]
    rw [pow_succ]
    ring

theorem foldl_digits_nonneg : ∀ (L : List Char), (∀ c ∈ L, '0' ≤ c ∧ c ≤ '9') →
    0 ≤ List.foldl (fun a c => a * 10 + ((c.toNat : Int) - 48)) 0 L := by
  intro L
  induction L with
  | nil => intro _; simp
  | cons c L ih =>
    intro hD
    have hc := hD c (List.mem_cons_self c L)
    have hv : 48 ≤ (c.toNat : Int) := digit_ge hc.1
    simp only [List.foldl_cons]
    rw [foldl_step_shift]
    have hrec := ih (fun x hx => hD x (List.mem_cons_of_mem c hx))
    have hpow : (0:Int) ≤ 10 ^ L.length := pow_nonneg (by norm_num) _
    have hmul : 0 ≤ (0 * 10 + ((c.toNat : Int) - 48)) * 10 ^ L.length := by
      apply mul_nonneg _ hpow
      omega
    omega

theorem foldl_digits_ub : ∀ (L : List Char), (∀ c ∈ L, '0' ≤ c ∧ c ≤ '9') →
    List.foldl (fun a c => a * 10 + ((c.toNat : Int) - 48)) 0 L ≤ 10 ^ L.length - 1 := by
  intro L
  induction L with
  | nil => intro _; simp
  | cons c L ih =>
    intro hD
    have hc := hD c (List.mem_cons_self c L)
    have hv : (c.toNat : Int) ≤ 57 := digit_le hc.2
    simp only [List.foldl_cons, List.length_cons]
    rw [foldl_step_shift]
    have hrec := ih (fun x hx => hD x (List.mem_cons_of_mem c hx))
    have hpow : (0:Int) ≤ 10 ^ L.length := pow_nonneg (by norm_num) _
    have hmul : (0 * 10 + ((c.toNat : Int) - 48)) * 10 ^ L.length ≤ 9 * 10 ^ L.length := by
      apply mul_le_mul_of_nonneg_right _ hpow
      omega
    have hps : (10:Int) ^ (L.length + 1) = 10 * 10 ^ L.length := by ring
    omega


theorem digitsVal_fixedDigits : ∀ (k : Nat) (n : Int), 0 ≤ n → n < 10 ^ k →
    List.foldl (fun a c => a * 10 + ((c.toNat : Int) - 48)) 0 (fixedDigits k n) = n := by
  intro k
  induction k with
  | zero =>
    intro n h0 hk
    have h1 : (10:Int) ^ (0:Nat) = 1 := by norm_num
    rw [h1] at hk
    have hz : n = 0 := by omega
    subst hz
    rfl
  | succ k ih =>
    intro n h0 hk
    rw [fixedDigits_succ, List.foldl_append]
    have hp : (10:Int) ^ (k + 1) = 10 * 10 ^ k := by ring
    rw [ih (n / 10) (by omega) (by omega)]
    simp only [List.foldl_cons, List.foldl_nil]
    rw [digitChar_toNat (n % 10) (by omega) (by omega)]
    omega

theorem digitsVal_natDigits : ∀ (k : Nat) (n : Int), 0 ≤ n → n < 10 ^ k → n < 10 ^ 20 →
    List.foldl (fun a c => a * 10 + ((c.toNat : Int) - 48)) 0 (natDigits n) = n := by
  intro k
  induction k with
  | zero =>
    intro n h0 hk _
    have h1 : (10:Int) ^ (0:Nat) = 1 := by norm_num
    rw [h1] at hk
    have hz : n = 0 := by omega
    subst hz
    rfl
  | succ k ih =>
    intro n h0 hk h20
    by_cases hn : n ≥ 10
    · rw [natDigits_step n hn h0 h20, List.foldl_append]
      have hp : (10:Int) ^ (k + 1) = 10 * 10 ^ k := by ring
      rw [ih (n / 10) (by omega) (by omega) (by omega)]
      simp only [List.foldl_cons, List.foldl_nil]
      rw [digitChar_toNat (n % 10) (by omega) (by omega)]
      omega
    · rw [natDigits_small n hn]
      simp only [List.foldl_cons, List.foldl_nil]
      rw [digitChar_toNat n h0 (by omega)]
      omega

theorem intLoop_cons (c : Char) (rest : List Char) (acc : Int) :
    intLoop (c :: rest) acc =
      if '0' ≤ c ∧ c ≤ '9' then
        (if add64 (mul64 acc 10) ((c.toNat : Int) - 48) ≥ maxInt then none
         else intLoop rest (add64 (mul64 acc 10) ((c.toNat : Int) - 48)))
      else if c = '.' then
        if (rest.length : Int) > 12 then none
        else (fracLoop rest acc).map fun f => mul64 f ((pow10At (12 - rest.length)).getD 0)
      else none := rfl

theorem fracLoop_cons (c : Char) (rest : List Char) (acc : Int) :
    fracLoop (c :: rest) acc =
      if '0' ≤ c ∧ c ≤ '9' then
        fracLoop rest (add64 (mul64 acc 10) ((c.toNat : Int) - 48))
      else none := rfl

theorem intLoop_digits : ∀ (D rest : List Char) (acc : Int),
    (∀ c ∈ D, '0' ≤ c ∧ c ≤ '9') → 0 ≤ acc →
    List.foldl (fun a c => a * 10 + ((c.toNat : Int) - 48)) acc D < 9223372 →
    intLoop (D ++ rest) acc =
      intLoop rest (List.foldl (fun a c => a * 10 + ((c.toNat : Int) - 48)) acc D) := by
  intro D
  induction D with
  | nil => intro rest acc _ _ _; rfl
  | cons c D ih =>
    intro rest acc hD h0 hub
    have hc := hD c (List.mem_cons_self c D)
    have hd1 := digit_ge hc.1
    have hd2 := digit_le hc.2
    simp only [List.foldl_cons] at hub
    have hDrest : ∀ x ∈ D, '0' ≤ x ∧ x ≤ '9' :=
      fun x hx => hD x (List.mem_cons_of_mem c hx)
    have hfnn : 0 ≤ List.foldl (fun a c => a * 10 + ((c.toNat : Int) - 48)) 0 D :=
      foldl_digits_nonneg D hDrest
    have hpow1 : (1:Int) ≤ 10 ^ D.length := one_le_pow₀ (by norm_num)
    have hshift := foldl_step_shift D (acc * 10 + ((c.toNat : Int) - 48))
    have hstepnn : 0 ≤ acc * 10 + ((c.toNat : Int) - 48) := by omega
    have hstepmul : acc * 10 + ((c.toNat : Int) - 48) ≤
        (acc * 10 + ((c.toNat : Int) - 48)) * 10 ^ D.length :=
      le_mul_of_one_le_right hstepnn hpow1
    have hstepub : acc * 10 + ((c.toNat : Int) - 48) < 9223372 := by omega
    have hw : add64 (mul64 acc 10) ((c.toNat : Int) - 48) =
        acc * 10 + ((c.toNat : Int) - 48) := by
      unfold add64 mul64 wrap64
      omega
    show intLoop (c :: (D ++ rest)) acc = _
    simp only [List.foldl_cons]
    rw [intLoop_cons, if_pos hc, hw, if_neg (by unfold maxInt; omega)]
    exact ih rest (acc * 10 + ((c.toNat : Int) - 48)) hDrest hstepnn (by omega)

theorem fracLoop_digits : ∀ (FL : List Char) (acc : Int),
    (∀ c ∈ FL, '0' ≤ c ∧ c ≤ '9') → 0 ≤ acc →
    List.foldl (fun a c => a * 10 + ((c.toNat : Int) - 48)) acc FL < 2 ^ 63 →
    fracLoop FL acc =
      some (List.foldl (fun a c => a * 10 + ((c.toNat : Int) - 48)) acc FL) := by
  intro FL
  induction FL with
  | nil => intro acc _ _ _; rfl
  | cons c FL ih =>
    intro acc hD h0 hub
    have hc := hD c (List.mem_cons_self c FL)
    have hd1 := digit_ge hc.1
    have hd2 := digit_le hc.2
    simp only [List.foldl_cons] at hub
    have hDrest : ∀ x ∈ FL, '0' ≤ x ∧ x ≤ '9' :=
      fun x hx => hD x (List.mem_cons_of_mem c hx)
    have hfnn : 0 ≤ List.foldl (fun a c => a * 10 + ((c.toNat : Int) - 48)) 0 FL :=
      foldl_digits_nonneg FL hDrest
    have hpow1 : (1:Int) ≤ 10 ^ FL.length := one_le_pow₀ (by norm_num)
    have hshift := foldl_step_shift FL (acc * 10 + ((c.toNat : Int) - 48))
    have hstepnn : 0 ≤ acc * 10 + ((c.toNat : Int) - 48) := by omega
    have hstepmul : acc * 10 + ((c.toNat : Int) - 48) ≤
        (acc * 10 + ((c.toNat : Int) - 48)) * 10 ^ FL.length :=
      le_mul_of_one_le_right hstepnn hpow1
    have hw : add64 (mul64 acc 10) ((c.toNat : Int) - 48) =
        acc * 10 + ((c.toNat : Int) - 48) := by
      unfold add64 mul64 wrap64
      omega
    show fracLoop (c :: FL) acc = _
    simp only [List.foldl_cons]
    rw [fracLoop_cons, if_pos hc, hw]
    exact ih (acc * 10 + ((c.toNat : Int) - 48)) hDrest hstepnn (by omega)


/-- The digit loop of `parseFixed` on the canonical rendering of
`I + F * 10^-12` recovers exactly the fixed value `I * 10^12 + F`. -/
theorem intLoop_render (I F : Int) (hI0 : 0 ≤ I) (hI : I < 9223372)
    (hF0 : 0 ≤ F) (hF : F < 1000000000000) :
    intLoop (natDigits I ++
      (if F = 0 then [] else
        '.' :: fixedDigits (12 - tzeros F) (F / 10 ^ tzeros F))) 0 =
    some (I * 1000000000000 + F) := by
  have hp12 : (10:Int) ^ (12:Nat) = 1000000000000 := by norm_num
  have hp20 : (10:Int) ^ (20:Nat) = 100000000000000000000 := by norm_num
  have hI20 : I < 10 ^ 20 := by omega
  have hD := natDigits_all_digits 20 I hI0 hI20 hI20
  have hfold : List.foldl (fun a c => a * 10 + ((c.toNat : Int) - 48)) 0 (natDigits I) = I :=
    digitsVal_natDigits 20 I hI0 hI20 hI20
  rw [intLoop_digits (natDigits I) _ 0 hD le_rfl (by rw [hfold]; omega), hfold]
  by_cases hFz : F = 0
  · rw [if_pos hFz, hFz]
    show some (mul64 I scale) = some (I * 1000000000000 + 0)
    have hm : mul64 I scale = I * 1000000000000 := by
      unfold mul64 scale wrap64
      omega
    rw [hm, add_zero]
  · rw [if_neg hFz]
    have hFpos : 0 < F := by omega
    have hF12 : F < 10 ^ 12 := by omega
    have hF20 : F < 10 ^ 20 := by omega
    obtain ⟨hz12, hznz, hzdvd, hzpos⟩ := tzeros_facts 12 F hFpos hF12 hF20
    rw [intLoop_cons, if_neg (by decide), if_pos rfl]
    have hfl : (fixedDigits (12 - tzeros F) (F / 10 ^ tzeros F)).length = 12 - tzeros F :=
      fixedDigits_length _ _
    rw [if_neg (by rw [hfl]; omega)]
    have hFD := fixedDigits_all_digits (12 - tzeros F) (F / 10 ^ tzeros F)
    have hq0 : 0 ≤ F / 10 ^ tzeros F := Int.ediv_nonneg (by omega) (by positivity)
    have hqlt : F / 10 ^ tzeros F < 10 ^ (12 - tzeros F) := by
      rw [Int.ediv_lt_iff_lt_mul (by positivity)]
      rw [← pow_add]
      have he : 12 - tzeros F + tzeros F = 12 := by omega
      rw [he]
      omega
    have hfoldFD : List.foldl (fun a c => a * 10 + ((c.toNat : Int) - 48)) 0
        (fixedDigits (12 - tzeros F) (F / 10 ^ tzeros F)) = F / 10 ^ tzeros F :=
      digitsVal_fixedDigits _ _ hq0 hqlt
    have hshift := foldl_step_shift (fixedDigits (12 - tzeros F) (F / 10 ^ tzeros F)) I
    rw [hfl, hfoldFD] at hshift
    have hpmono : (10:Int) ^ (12 - tzeros F) ≤ 10 ^ (12:Nat) :=
      pow_le_pow_right₀ (by norm_num) (by omega)
    have hb1 : I * 10 ^ (12 - tzeros F) ≤ 9223371 * 10 ^ (12:Nat) := by
      calc I * 10 ^ (12 - tzeros F) ≤ 9223371 * 10 ^ (12 - tzeros F) :=
            mul_le_mul_of_nonneg_right (by omega) (by positivity)
        _ ≤ 9223371 * 10 ^ (12:Nat) := mul_le_mul_of_nonneg_left hpmono (by norm_num)
    have hb2 : I * 10 ^ (12 - tzeros F) ≥ 0 := by positivity
    have hqub : F / 10 ^ tzeros F < 10 ^ (12:Nat) := lt_of_lt_of_le hqlt hpmono
    rw [hp12] at hb1 hqub
    rw [fracLoop_digits _ I hFD hI0 (by rw [hshift]; omega)]
    rw [hshift]
    show some (mul64 (I * 10 ^ (12 - tzeros F) + F / 10 ^ tzeros F)
      ((pow10At (12 - ((fixedDigits (12 - tzeros F) (F / 10 ^ tzeros F)).length : Int))).getD 0)) =
      some (I * 1000000000000 + F)
    rw [hfl]
    have harg : (12:Int) - ((12 - tzeros F : Nat) : Int) = ((tzeros F : Nat) : Int) := by
      omega
    rw [harg, pow10At_getD _ (by omega) (by omega)]
    have htn : (((tzeros F : Nat) : Int)).toNat = tzeros F := by omega
    rw [htn]
    have hexact : (I * 10 ^ (12 - tzeros F) + F / 10 ^ tzeros F) * 10 ^ tzeros F =
        I * 1000000000000 + F := by
      rw [add_mul, mul_assoc, ← pow_add]
      have he : 12 - tzeros F + tzeros F = 12 := by omega
      rw [he, hp12, Int.ediv_mul_cancel hzdvd]
    have hmul : mul64 (I * 10 ^ (12 - tzeros F) + F / 10 ^ tzeros F) (10 ^ tzeros F) =
        I * 1000000000000 + F := by
      rw [mul64_id (by rw [hexact]; omega) (by rw [hexact]; omega), hexact]
    rw [hmul]


/-- `parseCore` on the canonical digit string of `a` (integer digits,
then dot and trimmed fractional digits when the fraction is nonzero)
returns exactly `a`, negated when the sign flag is set. -/
theorem parseCore_render (a : Int) (ha0 : 0 ≤ a) (ha : a < 9223372000000000000)
    (neg : Bool) :
    parseCore (natDigits (a / 1000000000000) ++
      (if a % 1000000000000 = 0 then []
       else '.' :: fixedDigits (12 - tzeros (a % 1000000000000))
         ((a % 1000000000000) / 10 ^ tzeros (a % 1000000000000)))) neg =
      ((if neg then -a else a), true) := by
  have hp20 : (10:Int) ^ (20:Nat) = 100000000000000000000 := by norm_num
  have hlpos := natDigits_length_pos (a / 1000000000000) (by omega) (by omega)
  have hloop : intLoop (natDigits (a / 1000000000000) ++
      (if a % 1000000000000 = 0 then []
       else '.' :: fixedDigits (12 - tzeros (a % 1000000000000))
         ((a % 1000000000000) / 10 ^ tzeros (a % 1000000000000)))) 0 = some a := by
    rw [intLoop_render (a / 1000000000000) (a % 1000000000000) (by omega) (by omega)
      (by omega) (by omega)]
    congr 1
    omega
  unfold parseCore
  rw [if_neg (by rw [List.length_append]; omega), hloop]
  show ((if neg then neg64 a else a), true) = ((if neg then -a else a), true)
  cases neg
  · simp
  · show (neg64 a, true) = (-a, true)
    rw [neg64_id (by omega) (by omega)]

/-- `parseFixed` on the canonical unsigned rendering of `a` returns
`(a, true)`. -/
theorem parseFixed_render_pos (a : Int) (ha0 : 0 ≤ a) (ha : a < 9223372000000000000) :
    parseFixed (natDigits (a / 1000000000000) ++
      (if a % 1000000000000 = 0 then []
       else '.' :: fixedDigits (12 - tzeros (a % 1000000000000))
         ((a % 1000000000000) / 10 ^ tzeros (a % 1000000000000)))) = (a, true) := by
  have hp7 : (10:Int) ^ (7:Nat) = 10000000 := by norm_num
  have hp12 : (10:Int) ^ (12:Nat) = 1000000000000 := by norm_num
  have hp20 : (10:Int) ^ (20:Nat) = 100000000000000000000 := by norm_num
  have hI0 : 0 ≤ a / 1000000000000 := by omega
  have hI20 : a / 1000000000000 < 10 ^ 20 := by omega
  have hI7 : a / 1000000000000 < 10 ^ 7 := by omega
  have hdigD := natDigits_all_digits 20 (a / 1000000000000) hI0 hI20 hI20
  have hlen1 := natDigits_length_pos (a / 1000000000000) hI0 hI20
  have hlen7 := natDigits_length_le 7 (a / 1000000000000) hI0 hI7 hI20 (by norm_num)
  obtain ⟨d, D2, hDeq⟩ : ∃ d D2, natDigits (a / 1000000000000) = d :: D2 := by
    match hh : natDigits (a / 1000000000000) with
    | [] =>
      rw [hh] at hlen1
      exact absurd hlen1 (by simp)
    | d :: D2 => exact ⟨d, D2, rfl⟩
  have hd := hdigD d (by rw [hDeq]; exact List.mem_cons_self d D2)
  by_cases hFz : a % 1000000000000 = 0
  · rw [if_pos hFz, List.append_nil]
    unfold parseFixed
    have hqno : stripQuotes (natDigits (a / 1000000000000)) =
        natDigits (a / 1000000000000) := by
      unfold stripQuotes
      split_ifs with h
      · exfalso
        obtain ⟨_, hq2, _⟩ := h
        rw [hDeq] at hq2
        exact digit_ne_quote hd.1 (by simpa using hq2)
      · rfl
    rw [hqno]
    rw [if_neg (by omega)]
    have hzno : stripTrailingZeros (natDigits (a / 1000000000000)) =
        natDigits (a / 1000000000000) := by
      unfold stripTrailingZeros
      split_ifs with h
      · exfalso
        obtain ⟨_, _, hcont⟩ := h
        have hdot : '.' ∈ natDigits (a / 1000000000000) := by simpa using hcont
        exact absurd (hdigD '.' hdot).1 (by decide)
      · rfl
    rw [hzno]
    have hdno : stripTrailingDot (natDigits (a / 1000000000000)) =
        natDigits (a / 1000000000000) := by
      unfold stripTrailingDot
      split_ifs with h
      · exfalso
        obtain ⟨_, hlast⟩ := h
        have hm : '.' ∈ natDigits (a / 1000000000000) :=
          List.mem_of_mem_getLast? hlast
        exact absurd (hdigD '.' hm).1 (by decide)
      · rfl
    rw [hdno, hDeq]
    cases hrest : D2 with
    | nil =>
      show parseCore [d] false = (a, true)
      have hcoreeq : natDigits (a / 1000000000000) ++
          (if a % 1000000000000 = 0 then []
           else '.' :: fixedDigits (12 - tzeros (a % 1000000000000))
             ((a % 1000000000000) / 10 ^ tzeros (a % 1000000000000))) = [d] := by
        rw [if_pos hFz, List.append_nil, hDeq, hrest]
      rw [← hcoreeq]
      simpa using parseCore_render a ha0 ha false
    | cons e es =>
      show (if d = '+' then parseCore (e :: es) false
            else if d = '-' then parseCore (e :: es) true
            else parseCore (d :: e :: es) false) = (a, true)
      rw [if_neg (digit_ne_plus hd.1), if_neg (digit_ne_minus hd.1)]
      have hcoreeq : natDigits (a / 1000000000000) ++
          (if a % 1000000000000 = 0 then []
           else '.' :: fixedDigits (12 - tzeros (a % 1000000000000))
             ((a % 1000000000000) / 10 ^ tzeros (a % 1000000000000))) = d :: e :: es := by
        rw [if_pos hFz, List.append_nil, hDeq, hrest]
      rw [← hcoreeq]
      simpa using parseCore_render a ha0 ha false
  · rw [if_neg hFz]
    have hFpos : 0 < a % 1000000000000 := by omega
    have hF12 : a % 1000000000000 < 10 ^ 12 := by omega
    have hF20 : a % 1000000000000 < 10 ^ 20 := by omega
    obtain ⟨hz12, hznz, hzdvd, hzpos⟩ :=
      tzeros_facts 12 (a % 1000000000000) hFpos hF12 hF20
    have hidx : 12 - tzeros (a % 1000000000000) =
        (11 - tzeros (a % 1000000000000)) + 1 := by omega
    have hFDeq : fixedDigits (12 - tzeros (a % 1000000000000))
        ((a % 1000000000000) / 10 ^ tzeros (a % 1000000000000)) =
        fixedDigits (11 - tzeros (a % 1000000000000))
          (((a % 1000000000000) / 10 ^ tzeros (a % 1000000000000)) / 10) ++
        [digitChar (((a % 1000000000000) / 10 ^ tzeros (a % 1000000000000)) % 10)] := by
      rw [hidx, fixedDigits_succ]
    have hq10a : 0 ≤ ((a % 1000000000000) / 10 ^ tzeros (a % 1000000000000)) % 10 := by
      omega
    have hq10b : ((a % 1000000000000) / 10 ^ tzeros (a % 1000000000000)) % 10 ≤ 9 := by
      omega
    have hdcnz :
        digitChar (((a % 1000000000000) / 10 ^ tzeros (a % 1000000000000)) % 10) ≠ '0' :=
      digitChar_ne_zero _ hq10a hq10b hznz
    have hdcdig := digitChar_digit _ hq10a hq10b
    have hRassoc : natDigits (a / 1000000000000) ++
        '.' :: fixedDigits (12 - tzeros (a % 1000000000000))
          ((a % 1000000000000) / 10 ^ tzeros (a % 1000000000000)) =
        (natDigits (a / 1000000000000) ++
          '.' :: fixedDigits (11 - tzeros (a % 1000000000000))
            (((a % 1000000000000) / 10 ^ tzeros (a % 1000000000000)) / 10)) ++
        [digitChar (((a % 1000000000000) / 10 ^ tzeros (a % 1000000000000)) % 10)] := by
      rw [hFDeq]
      simp [List.append_assoc]
    unfold parseFixed
    have hqno : stripQuotes (natDigits (a / 1000000000000) ++
        '.' :: fixedDigits (12 - tzeros (a % 1000000000000))
          ((a % 1000000000000) / 10 ^ tzeros (a % 1000000000000))) =
        natDigits (a / 1000000000000) ++
        '.' :: fixedDigits (12 - tzeros (a % 1000000000000))
          ((a % 1000000000000) / 10 ^ tzeros (a % 1000000000000)) := by
      unfold stripQuotes
      split_ifs with h
      · exfalso
        obtain ⟨_, hq2, _⟩ := h
        rw [hDeq, List.cons_append] at hq2
        exact digit_ne_quote hd.1 (by simpa using hq2)
      · rfl
    rw [hqno]
    rw [if_neg (by
      rw [List.length_append, List.length_cons, fixedDigits_length]
      omega)]
    have hzno : stripTrailingZeros (natDigits (a / 1000000000000) ++
        '.' :: fixedDigits (12 - tzeros (a % 1000000000000))
          ((a % 1000000000000) / 10 ^ tzeros (a % 1000000000000))) =
        natDigits (a / 1000000000000) ++
        '.' :: fixedDigits (12 - tzeros (a % 1000000000000))
          ((a % 1000000000000) / 10 ^ tzeros (a % 1000000000000)) := by
      unfold stripTrailingZeros
      split_ifs with h
      · exfalso
        obtain ⟨_, hlast, _⟩ := h
        rw [hRassoc, List.getLast?_concat] at hlast
        exact hdcnz (by simpa using hlast)
      · rfl
    rw [hzno]
    have hdno : stripTrailingDot (natDigits (a / 1000000000000) ++
        '.' :: fixedDigits (12 - tzeros (a % 1000000000000))
          ((a % 1000000000000) / 10 ^ tzeros (a % 1000000000000))) =
        natDigits (a / 1000000000000) ++
        '.' :: fixedDigits (12 - tzeros (a % 1000000000000))
          ((a % 1000000000000) / 10 ^ tzeros (a % 1000000000000)) := by
      unfold stripTrailingDot
      split_ifs with h
      · exfalso
        obtain ⟨_, hlast⟩ := h
        rw [hRassoc, List.getLast?_concat] at hlast
        exact digit_ne_dot hdcdig.1 (by simpa using hlast)
      · rfl
    rw [hdno, hDeq, List.cons_append]
    cases hrest : D2 ++ '.' :: fixedDigits (12 - tzeros (a % 1000000000000))
        ((a % 1000000000000) / 10 ^ tzeros (a % 1000000000000)) with
    | nil =>
      exfalso
      rcases List.append_eq_nil.mp hrest with ⟨_, hc⟩
      exact List.cons_ne_nil _ _ hc
    | cons e es =>
      show (if d = '+' then parseCore (e :: es) false
            else if d = '-' then parseCore (e :: es) true
            else parseCore (d :: e :: es) false) = (a, true)
      rw [if_neg (digit_ne_plus hd.1), if_neg (digit_ne_minus hd.1)]
      have hcoreeq : natDigits (a / 1000000000000) ++
          (if a % 1000000000000 = 0 then []
           else '.' :: fixedDigits (12 - tzeros (a % 1000000000000))
             ((a % 1000000000000) / 10 ^ tzeros (a % 1000000000000))) = d :: e :: es := by
        rw [if_neg hFz, hDeq, List.cons_append, hrest]
      rw [← hcoreeq]
      simpa using parseCore_render a ha0 ha false


/-- `parseFixed` on the canonical negative rendering of `-a` returns
`(-a, true)`. -/
theorem parseFixed_render_neg (a : Int) (ha0 : 0 < a) (ha : a < 9223372000000000000) :
    parseFixed ('-' :: (natDigits (a / 1000000000000) ++
      (if a % 1000000000000 = 0 then []
       else '.' :: fixedDigits (12 - tzeros (a % 1000000000000))
         ((a % 1000000000000) / 10 ^ tzeros (a % 1000000000000))))) = (-a, true) := by
  have hp7 : (10:Int) ^ (7:Nat) = 10000000 := by norm_num
  have hp12 : (10:Int) ^ (12:Nat) = 1000000000000 := by norm_num
  have hp20 : (10:Int) ^ (20:Nat) = 100000000000000000000 := by norm_num
  have hI0 : 0 ≤ a / 1000000000000 := by omega
  have hI20 : a / 1000000000000 < 10 ^ 20 := by omega
  have hI7 : a / 1000000000000 < 10 ^ 7 := by omega
  have hdigD := natDigits_all_digits 20 (a / 1000000000000) hI0 hI20 hI20
  have hlen1 := natDigits_length_pos (a / 1000000000000) hI0 hI20
  have hlen7 := natDigits_length_le 7 (a / 1000000000000) hI0 hI7 hI20 (by norm_num)
  obtain ⟨d, D2, hDeq⟩ : ∃ d D2, natDigits (a / 1000000000000) = d :: D2 := by
    match hh : natDigits (a / 1000000000000) with
    | [] =>
      rw [hh] at hlen1
      exact absurd hlen1 (by simp)
    | d :: D2 => exact ⟨d, D2, rfl⟩
  by_cases hFz : a % 1000000000000 = 0
  · rw [if_pos hFz, List.append_nil]
    unfold parseFixed
    have hqno : stripQuotes ('-' :: natDigits (a / 1000000000000)) =
        '-' :: natDigits (a / 1000000000000) := by
      unfold stripQuotes
      split_ifs with h
      · exfalso
        obtain ⟨_, hq2, _⟩ := h
        rw [List.head?_cons] at hq2
        exact absurd (Option.some.inj hq2) (by decide)
      · rfl
    rw [hqno]
    rw [if_neg (by rw [List.length_cons]; omega)]
    have hnodot : ¬ ('.' ∈ '-' :: natDigits (a / 1000000000000)) := by
      intro hm
      rcases List.mem_cons.mp hm with hm1 | hm2
      · exact absurd hm1 (by decide)
      · exact absurd (hdigD '.' hm2).1 (by decide)
    have hzno : stripTrailingZeros ('-' :: natDigits (a / 1000000000000)) =
        '-' :: natDigits (a / 1000000000000) := by
      unfold stripTrailingZeros
      split_ifs with h
      · exact absurd (by simpa using h.2.2) hnodot
      · rfl
    rw [hzno]
    have hdno : stripTrailingDot ('-' :: natDigits (a / 1000000000000)) =
        '-' :: natDigits (a / 1000000000000) := by
      unfold stripTrailingDot
      split_ifs with h
      · exact absurd (List.mem_of_mem_getLast? h.2) hnodot
      · rfl
    rw [hdno, hDeq]
    show (if '-' = '+' then parseCore (d :: D2) false
          else if '-' = '-' then parseCore (d :: D2) true
          else parseCore ('-' :: d :: D2) false) = (-a, true)
    rw [if_neg (by decide), if_pos rfl]
    have hcoreeq : natDigits (a / 1000000000000) ++
        (if a % 1000000000000 = 0 then []
         else '.' :: fixedDigits (12 - tzeros (a % 1000000000000))
           ((a % 1000000000000) / 10 ^ tzeros (a % 1000000000000))) = d :: D2 := by
      rw [if_pos hFz, List.append_nil, hDeq]
    rw [← hcoreeq]
    simpa using parseCore_render a (le_of_lt ha0) ha true
  · rw [if_neg hFz]
    have hFpos : 0 < a % 1000000000000 := by omega
    have hF12 : a % 1000000000000 < 10 ^ 12 := by omega
    have hF20 : a % 1000000000000 < 10 ^ 20 := by omega
    obtain ⟨hz12, hznz, hzdvd, hzpos⟩ :=
      tzeros_facts 12 (a % 1000000000000) hFpos hF12 hF20
    have hidx : 12 - tzeros (a % 1000000000000) =
        (11 - tzeros (a % 1000000000000)) + 1 := by omega
    have hFDeq : fixedDigits (12 - tzeros (a % 1000000000000))
        ((a % 1000000000000) / 10 ^ tzeros (a % 1000000000000)) =
        fixedDigits (11 - tzeros (a % 1000000000000))
          (((a % 1000000000000) / 10 ^ tzeros (a % 1000000000000)) / 10) ++
        [digitChar (((a % 1000000000000) / 10 ^ tzeros (a % 1000000000000)) % 10)] := by
      rw [hidx, fixedDigits_succ]
    have hq10a : 0 ≤ ((a % 1000000000000) / 10 ^ tzeros (a % 1000000000000)) % 10 := by
      omega
    have hq10b : ((a % 1000000000000) / 10 ^ tzeros (a % 1000000000000)) % 10 ≤ 9 := by
      omega
    have hdcnz :
        digitChar (((a % 1000000000000) / 10 ^ tzeros (a % 1000000000000)) % 10) ≠ '0' :=
      digitChar_ne_zero _ hq10a hq10b hznz
    have hdcdig := digitChar_digit _ hq10a hq10b
    have hRassoc : '-' :: (natDigits (a / 1000000000000) ++
        '.' :: fixedDigits (12 - tzeros (a % 1000000000000))
          ((a % 1000000000000) / 10 ^ tzeros (a % 1000000000000))) =
        ('-' :: (natDigits (a / 1000000000000) ++
          '.' :: fixedDigits (11 - tzeros (a % 1000000000000))
            (((a % 1000000000000) / 10 ^ tzeros (a % 1000000000000)) / 10))) ++
        [digitChar (((a % 1000000000000) / 10 ^ tzeros (a % 1000000000000)) % 10)] := by
      rw [hFDeq]
      simp [List.append_assoc]
    unfold parseFixed
    have hqno : stripQuotes ('-' :: (natDigits (a / 1000000000000) ++
        '.' :: fixedDigits (12 - tzeros (a % 1000000000000))
          ((a % 1000000000000) / 10 ^ tzeros (a % 1000000000000)))) =
        '-' :: (natDigits (a / 1000000000000) ++
        '.' :: fixedDigits (12 - tzeros (a % 1000000000000))
          ((a % 1000000000000) / 10 ^ tzeros (a % 1000000000000))) := by
      unfold stripQuotes
      split_ifs with h
      · exfalso
        obtain ⟨_, hq2, _⟩ := h
        rw [List.head?_cons] at hq2
        exact absurd (Option.some.inj hq2) (by decide)
      · rfl
    rw [hqno]
    rw [if_neg (by
      rw [List.length_cons, List.length_append, List.length_cons, fixedDigits_length]
      omega)]
    have hzno : stripTrailingZeros ('-' :: (natDigits (a / 1000000000000) ++
        '.' :: fixedDigits (12 - tzeros (a % 1000000000000))
          ((a % 1000000000000) / 10 ^ tzeros (a % 1000000000000)))) =
        '-' :: (natDigits (a / 1000000000000) ++
        '.' :: fixedDigits (12 - tzeros (a % 1000000000000))
          ((a % 1000000000000) / 10 ^ tzeros (a % 1000000000000))) := by
      unfold stripTrailingZeros
      split_ifs with h
      · exfalso
        obtain ⟨_, hlast, _⟩ := h
        rw [hRassoc, List.getLast?_concat] at hlast
        exact hdcnz (by simpa using hlast)
      · rfl
    rw [hzno]
    have hdno : stripTrailingDot ('-' :: (natDigits (a / 1000000000000) ++
        '.' :: fixedDigits (12 - tzeros (a % 1000000000000))
          ((a % 1000000000000) / 10 ^ tzeros (a % 1000000000000)))) =
        '-' :: (natDigits (a / 1000000000000) ++
        '.' :: fixedDigits (12 - tzeros (a % 1000000000000))
          ((a % 1000000000000) / 10 ^ tzeros (a % 1000000000000))) := by
      unfold stripTrailingDot
      split_ifs with h
      · exfalso
        obtain ⟨_, hlast⟩ := h
        rw [hRassoc, List.getLast?_concat] at hlast
        exact digit_ne_dot hdcdig.1 (by simpa using hlast)
      · rfl
    rw [hdno, hDeq, List.cons_append]
    show (if '-' = '+' then
            parseCore (d :: (D2 ++ '.' :: fixedDigits (12 - tzeros (a % 1000000000000))
              ((a % 1000000000000) / 10 ^ tzeros (a % 1000000000000)))) false
          else if '-' = '-' then
            parseCore (d :: (D2 ++ '.' :: fixedDigits (12 - tzeros (a % 1000000000000))
              ((a % 1000000000000) / 10 ^ tzeros (a % 1000000000000)))) true
          else
            parseCore ('-' :: d :: (D2 ++ '.' :: fixedDigits (12 - tzeros (a % 1000000000000))
              ((a % 1000000000000) / 10 ^ tzeros (a % 1000000000000)))) false) = (-a, true)
    rw [if_neg (by decide), if_pos rfl]
    have hcoreeq : natDigits (a / 1000000000000) ++
        (if a % 1000000000000 = 0 then []
         else '.' :: fixedDigits (12 - tzeros (a % 1000000000000))
           ((a % 1000000000000) / 10 ^ tzeros (a % 1000000000000))) =
        d :: (D2 ++ '.' :: fixedDigits (12 - tzeros (a % 1000000000000))
          ((a % 1000000000000) / 10 ^ tzeros (a % 1000000000000))) := by
      rw [if_neg hFz, hDeq, List.cons_append]
    rw [← hcoreeq]
    simpa using parseCore_render a (le_of_lt ha0) ha true

/-- The reference rendering in its explicit digit-list form. -/
theorem specFixedRender_canon (f : Int) :
    specFixedRender f =
      (if f < 0 then ['-'] else []) ++ natDigits (|f| / 1000000000000) ++
      (if |f| % 1000000000000 = 0 then []
       else '.' :: fixedDigits (12 - tzeros (|f| % 1000000000000))
         ((|f| % 1000000000000) / 10 ^ tzeros (|f| % 1000000000000))) := by
  have ha0 : 0 ≤ |f| := abs_nonneg f
  have hp12 : (10:Int) ^ (12:Nat) = 1000000000000 := by norm_num
  have hp20 : (10:Int) ^ (20:Nat) = 100000000000000000000 := by norm_num
  unfold specFixedRender
  by_cases hF : |f| % 1000000000000 = 0
  · rw [hF]
    have hdec : trimTrailingZeros (pad12 (natDigits (0:Int))) = [] := by decide
    rw [if_pos hdec, if_pos rfl]
  · rw [if_neg hF]
    have hFpos : 0 < |f| % 1000000000000 := by omega
    have hbr := trim_pad_eq (|f| % 1000000000000) hFpos (by omega) (by omega)
    rw [hbr]
    have hne : fixedDigits (12 - tzeros (|f| % 1000000000000))
        ((|f| % 1000000000000) / 10 ^ tzeros (|f| % 1000000000000)) ≠ [] := by
      intro hnil
      have hl := fixedDigits_length (12 - tzeros (|f| % 1000000000000))
        ((|f| % 1000000000000) / 10 ^ tzeros (|f| % 1000000000000))
      rw [hnil] at hl
      obtain ⟨hz12, _, _, _⟩ :=
        tzeros_facts 12 (|f| % 1000000000000) hFpos (by omega) (by omega)
      simp at hl
      omega
    rw [if_neg hne]


/-- C3 (amended): the round trip holds in the format-then-parse
direction on the open fast range — the string `Decimal.String` produces
for a fast value is a canonical literal that `parseFixed` parses back to
exactly the same fixed value.  (As literally stated the claim is false:
`parseFixed` also accepts non-canonical literals such as "+1", whose
reformatting "1" differs from the input even after trailing-zero
normalization — see the counterexample theorem.) -/
theorem C3_format_parse_roundtrip (f : Int)
    (hmin : minIntInFixed < f) (hmax : f < maxIntInFixed) :
    parseFixed (Decimal.String ⟨f, none⟩) = (f, true) := by
  have h1 : -9223372000000000000 < f := by
    simp only [minIntInFixed, minInt, scale] at hmin
    omega
  have h2 : f < 9223372000000000000 := by
    simp only [maxIntInFixed, maxInt, scale] at hmax
    omega
  rw [String_fast_spec f (by omega) (by omega), specFixedRender_canon f]
  by_cases hf : f < 0
  · rw [if_pos hf, abs_of_neg hf]
    have hres := parseFixed_render_neg (-f) (by omega) (by omega)
    rw [neg_neg] at hres
    exact hres
  · rw [if_neg hf, abs_of_nonneg (by omega : (0:Int) ≤ f)]
    exact parseFixed_render_pos f (by omega) (by omega)

/-- Counterexample to C3 as literally stated: the non-canonical literal
"+1" is accepted by `parseFixed` into the fast representation, its
trailing-zero normalization is "+1" itself, yet formatting the parsed
value yields "1" ≠ "+1". -/
theorem C3_roundtrip_counterexample :
    (parseFixed "+1".data).2 = true ∧
    stripTrailingDot (stripTrailingZeros "+1".data) = "+1".data ∧
    Decimal.String ⟨(parseFixed "+1".data).1, none⟩ = "1".data ∧
    Decimal.String ⟨(parseFixed "+1".data).1, none⟩ ≠ "+1".data := by decide

/-- Witness for the amended C3 at the fast value -1.23. -/
theorem C3_format_parse_roundtrip_witness :
    minIntInFixed < -1230000000000 ∧ (-1230000000000:Int) < maxIntInFixed ∧
    parseFixed (Decimal.String ⟨-1230000000000, none⟩) = (-1230000000000, true) :=
  ⟨by decide, by decide,
   C3_format_parse_roundtrip (-1230000000000) (by decide) (by decide)⟩


/-- C8: scanning the `nil` SQL value into a `NullDecimal` yields an
invalid (null) instance — on the zero-value instance the underlying
decimal is `Zero` — and marshaling any invalid `NullDecimal` to JSON
yields the literal `null`. -/
theorem C8_null_scan_marshal :
    (∀ nd : NullDecimal, NullDecimal.Scan nd SqlValue.null = Except.ok ⟨nd.dec, false⟩) ∧
    NullDecimal.Scan ⟨Zero, false⟩ SqlValue.null = Except.ok ⟨Zero, false⟩ ∧
    (∀ nd : NullDecimal, nd.Valid = false → NullDecimal.MarshalJSON nd = "null".data) := by
  refine ⟨fun nd => rfl, rfl, fun nd h => ?_⟩
  unfold NullDecimal.MarshalJSON
  rw [if_pos h]

/-- Witness for C8: the zero-value instance is invalid and marshals to
`null`. -/
theorem C8_null_scan_marshal_witness :
    (⟨Zero, false⟩ : NullDecimal).Valid = false ∧
    NullDecimal.MarshalJSON ⟨Zero, false⟩ = "null".data :=
  ⟨rfl, C8_null_scan_marshal.2.2 ⟨Zero, false⟩ rfl⟩

example : NullDecimal.Scan ⟨⟨5000000000000, none⟩, true⟩ SqlValue.null =
    Except.ok ⟨⟨5000000000000, none⟩, false⟩ := rfl
example : NullDecimal.MarshalJSON ⟨⟨1000000000000, none⟩, true⟩ = "\"1\"".data := by
  decide

end Alpaca
